import Mathlib

/-!
Verification of the `rfc-refactor` auditor core against its specification.

The development shallowly embeds the egress sanitizer
(`packages/auditor-core/src/aspects/egressGuard.ts`), the aspect pipeline
(`aspects/applyAspects.ts`), the MCP client (`mcpClient.ts`), the graph
adapter (`graphContext.ts`), the audit orchestrator (`auditEngine.ts`) and
the Perplexity fallback loop, as executable Lean functions, and proves or
refutes the specification claims about them.

Strings are modelled as `List Char`; the JavaScript regular expressions of
`SENSITIVE_PATTERNS` are embedded as sequences of single-character-class
items with greedy backtracking quantifiers, which is exactly the shape of
every pattern in the source (no alternation occurs; the one optional group
in the phone pattern contains only optional single-character items and is
flattened, which preserves both the match language and the greedy
backtracking order).  `String.prototype.replace` with a `/g` pattern
computes all matches on the input string, scanning left to right and
resuming after each match; `scanAux` below implements exactly that.
-/

namespace RfcAudit

/-! ## Character classes used by `SENSITIVE_PATTERNS` (egressGuard.ts lines 56-75) -/

/-- JavaScript `\s` (WhiteSpace ∪ LineTerminator productions). -/
def isJsSpace (c : Char) : Bool :=
  c = ' ' || c = '\t' || c = '\n' || c = '\x0b' || c = '\x0c' || c = '\r' ||
  c = '\u00A0' || c = '\u1680' || ('\u2000' ≤ c && c ≤ '\u200A') ||
  c = '\u2028' || c = '\u2029' || c = '\u202F' || c = '\u205F' ||
  c = '\u3000' || c = '\uFEFF'

/-- ASCII letter, JavaScript `[a-zA-Z]`. -/
def isAsciiLetter (c : Char) : Bool :=
  ('a' ≤ c && c ≤ 'z') || ('A' ≤ c && c ≤ 'Z')

/-- JavaScript `\d`, i.e. `[0-9]`. -/
def isDigitC (c : Char) : Bool :=
  '0' ≤ c && c ≤ '9'

/-- `[a-zA-Z0-9]`. -/
def isAlnum (c : Char) : Bool :=
  isAsciiLetter c || isDigitC c

/-- JavaScript `\w`, i.e. `[A-Za-z0-9_]`, used by the `\b` assertion. -/
def isWordChar (c : Char) : Bool :=
  isAlnum c || c = '_'

/-- Email local part `[a-zA-Z0-9._%+-]`. -/
def emailLocalC (c : Char) : Bool :=
  isAlnum c || c = '.' || c = '_' || c = '%' || c = '+' || c = '-'

/-- Email domain part `[a-zA-Z0-9.-]`. -/
def emailDomC (c : Char) : Bool :=
  isAlnum c || c = '.' || c = '-'

/-- Phone separators `[-.\s]`. -/
def phoneSep (c : Char) : Bool :=
  c = '-' || c = '.' || isJsSpace c

/-- Credit-card separators `[-\s]`. -/
def ccSep (c : Char) : Bool :=
  c = '-' || isJsSpace c

/-- `[a-zA-Z0-9_-]` (generic API-key tail and JWT alphabet). -/
def wordDash (c : Char) : Bool :=
  isAlnum c || c = '_' || c = '-'

/-- `['":\s]` (separator run in the API-key and password patterns). -/
def keySep (c : Char) : Bool :=
  c = '\'' || c = '"' || c = ':' || isJsSpace c

/-- `[^\s,}"']` (password value characters). -/
def pwVal (c : Char) : Bool :=
  !(isJsSpace c || c = ',' || c = '\x7d' || c = '"' || c = '\'')

/-- Case-insensitive ASCII letter match, the `/i`-flag semantics of a
non-unicode JavaScript regex (only ASCII case folding applies). -/
def ciLetter (x : Char) (c : Char) : Bool :=
  c = x || c = x.toUpper

/-! ## A tiny backtracking regex engine

Every pattern in `SENSITIVE_PATTERNS` is a sequence of items, each item
being either a single-character class with a greedy counted quantifier or
the `\b` word-boundary assertion. -/

/-- One item of an embedded pattern: a character class with quantifier
bounds `lo`/`hi` (`hi = none` meaning unbounded), or a word boundary. -/
inductive RItem where
  | cls (p : Char → Bool) (lo : Nat) (hi : Option Nat)
  | wordB

/-- Literal character item. -/
def lit (c : Char) : RItem :=
  .cls (fun x => x = c) 1 (some 1)

/-- Case-insensitive literal letter item (for `/i` patterns). -/
def litCI (c : Char) : RItem :=
  .cls (ciLetter c) 1 (some 1)

/-- Length of the maximal prefix of `s` whose characters satisfy `p`. -/
def charRun (p : Char → Bool) : List Char → Nat
  | [] => 0
  | c :: t => if p c then charRun p t + 1 else 0

/-- `\b` holds between the previous character (`none` at the string start)
and the head of `s` iff exactly one side is a word character. -/
def atBoundary (prev : Option Char) (s : List Char) : Bool :=
  let l := match prev with
    | some c => isWordChar c
    | none => false
  let r := match s with
    | c :: _ => isWordChar c
    | [] => false
  l != r

/-- Greedy backtracking over the number of characters consumed by one
class item: try `k` characters first, then `k-1`, …, down to `lo`.
`next` matches the remaining items; the result is the total number of
characters consumed by the whole remaining pattern. -/
def tryCount (next : Option Char → List Char → Option Nat) (prev : Option Char)
    (s : List Char) (lo : Nat) : Nat → Option Nat
  | 0 =>
    if 0 < lo then none
    else
      match next prev s with
      | some n => some n
      | none => none
  | k + 1 =>
    if k + 1 < lo then none
    else
      let prev' := match (s.take (k + 1)).getLast? with
        | some d => some d
        | none => prev
      match next prev' (s.drop (k + 1)) with
      | some n => some (k + 1 + n)
      | none => tryCount next prev s lo k

/-- Backtracking matcher for an item sequence against a prefix of `s`.
Returns the number of consumed characters of the leftmost-greedy match at
this position, or `none`.  `prev` is the character preceding `s` (for
`\b`). -/
def matchItems : List RItem → Option Char → List Char → Option Nat
  | [], _, _ => some 0
  | .wordB :: rest, prev, s =>
    if atBoundary prev s then matchItems rest prev s else none
  | .cls p lo hi :: rest, prev, s =>
    let m := charRun p s
    let h := min (hi.getD m) m
    if h < lo then none
    else tryCount (matchItems rest) prev s lo h

/-- One `/g` replace scan, JavaScript `String.prototype.replace`
semantics: try a match at each position; on success emit the replacement
and resume after the matched text (advancing one character on an empty
match); on failure copy one character.  `fuel` is consumed one unit per
step and is initialised to the string length, which always suffices. -/
def scanAux (pat : List RItem) (repl : List Char) :
    Nat → Option Char → List Char → List Char
  | 0, prev, s =>
    match matchItems pat prev s with
    | some _ => repl
    | none => []
  | fuel + 1, prev, [] =>
    match matchItems pat prev [] with
    | some _ => repl
    | none => []
  | fuel + 1, prev, c :: cs =>
    match matchItems pat prev (c :: cs) with
    | some 0 => repl ++ c :: scanAux pat repl fuel (some c) cs
    | some (n + 1) =>
      let prev' := match ((c :: cs).take (n + 1)).getLast? with
        | some d => some d
        | none => prev
      repl ++ scanAux pat repl fuel prev' ((c :: cs).drop (n + 1))
    | none => c :: scanAux pat repl fuel (some c) cs

/-- `str.replace(pattern, repl)` with a `/g` pattern. -/
def replaceAll (pat : List RItem) (repl : List Char) (s : List Char) : List Char :=
  scanAux pat repl s.length none s

/-! ## The ten sensitive patterns (egressGuard.ts lines 56-75) -/

/-- `/[a-zA-Z0-9._%+-]+@[a-zA-Z0-9.-]+\.[a-zA-Z]{2,}/g` -/
def emailPat : List RItem :=
  [.cls emailLocalC 1 none, lit '@', .cls emailDomC 1 none, lit '.',
   .cls isAsciiLetter 2 none]

/-- `/(\+?1?[-.\s]?)?\(?\d{3}\)?[-.\s]?\d{3}[-.\s]?\d{4}/g` with the
optional group flattened into its optional single-character items. -/
def phonePat : List RItem :=
  [.cls (fun c => c = '+') 0 (some 1), .cls (fun c => c = '1') 0 (some 1),
   .cls phoneSep 0 (some 1), .cls (fun c => c = '(') 0 (some 1),
   .cls isDigitC 3 (some 3), .cls (fun c => c = ')') 0 (some 1),
   .cls phoneSep 0 (some 1), .cls isDigitC 3 (some 3),
   .cls phoneSep 0 (some 1), .cls isDigitC 4 (some 4)]

/-- `/\d{3}-\d{2}-\d{4}/g` -/
def ssnPat : List RItem :=
  [.cls isDigitC 3 (some 3), lit '-', .cls isDigitC 2 (some 2), lit '-',
   .cls isDigitC 4 (some 4)]

/-- `/\d{4}[-\s]?\d{4}[-\s]?\d{4}[-\s]?\d{4}/g` -/
def ccPat : List RItem :=
  [.cls isDigitC 4 (some 4), .cls ccSep 0 (some 1),
   .cls isDigitC 4 (some 4), .cls ccSep 0 (some 1),
   .cls isDigitC 4 (some 4), .cls ccSep 0 (some 1),
   .cls isDigitC 4 (some 4)]

/-- `/sk_live_[a-zA-Z0-9]+/g` -/
def skLivePat : List RItem :=
  [lit 's', lit 'k', lit '_', lit 'l', lit 'i', lit 'v', lit 'e', lit '_',
   .cls isAlnum 1 none]

/-- `/sk_test_[a-zA-Z0-9]+/g` -/
def skTestPat : List RItem :=
  [lit 's', lit 'k', lit '_', lit 't', lit 'e', lit 's', lit 't', lit '_',
   .cls isAlnum 1 none]

/-- `/api[_-]?key['":\s]*[a-zA-Z0-9_-]{20,}/gi` -/
def apiKeyPat : List RItem :=
  [litCI 'a', litCI 'p', litCI 'i', .cls (fun c => c = '_' || c = '-') 0 (some 1),
   litCI 'k', litCI 'e', litCI 'y', .cls keySep 0 none, .cls wordDash 20 none]

/-- `/eyJ[a-zA-Z0-9_-]*\.eyJ[a-zA-Z0-9_-]*\.[a-zA-Z0-9_-]*/g` -/
def jwtPat : List RItem :=
  [lit 'e', lit 'y', lit 'J', .cls wordDash 0 none, lit '.',
   lit 'e', lit 'y', lit 'J', .cls wordDash 0 none, lit '.',
   .cls wordDash 0 none]

/-- `/\b\d{1,3}\.\d{1,3}\.\d{1,3}\.\d{1,3}\b/g` -/
def ipPat : List RItem :=
  [.wordB, .cls isDigitC 1 (some 3), lit '.', .cls isDigitC 1 (some 3),
   lit '.', .cls isDigitC 1 (some 3), lit '.', .cls isDigitC 1 (some 3),
   .wordB]

/-- `/password['":\s]*[^\s,}"']+/gi` -/
def passwordPat : List RItem :=
  [litCI 'p', litCI 'a', litCI 's', litCI 's', litCI 'w', litCI 'o',
   litCI 'r', litCI 'd', .cls keySep 0 none, .cls pwVal 1 none]

/-- The `SENSITIVE_PATTERNS` array: patterns with their fixed
replacements, in source order. -/
def SENSITIVE_PATTERNS : List (List RItem × List Char) :=
  [(emailPat, "[EMAIL]".data),
   (phonePat, "[PHONE]".data),
   (ssnPat, "[SSN]".data),
   (ccPat, "[CREDIT_CARD]".data),
   (skLivePat, "[API_KEY]".data),
   (skTestPat, "[API_KEY]".data),
   (apiKeyPat, "[API_KEY]".data),
   (jwtPat, "[JWT]".data),
   (ipPat, "[IP_ADDRESS]".data),
   (passwordPat, "password: [REDACTED]".data)]

/-- The deterministic pattern pass of `sanitizeTextForEgress`: apply each
sensitive pattern's global replace in order (the `for` loop at
egressGuard.ts lines 95-97). -/
def sanitizeChars (s : List Char) : List Char :=
  SENSITIVE_PATTERNS.foldl (fun acc pr => replaceAll pr.1 pr.2 acc) s

/-- `sanitizeTextForEgress` (egressGuard.ts lines 80-100).  The pluggable
`@redactpii/node` redactor is an external package outside this
repository; its documented failure path (`catch \x7b\x7d` — "Continue with
pattern-based redaction") makes the function degrade to exactly the
deterministic pattern pass, which is what is embedded here.  The
`!text` guard maps the empty string to the empty string. -/
def sanitizeTextForEgress (text : String) : String :=
  if text = "" then "" else String.mk (sanitizeChars text.data)

/-! ## Substring occurrence machinery -/

/-- `w` is a prefix of `s`. -/
def prefixOf (w s : List Char) : Prop :=
  ∃ t, w ++ t = s

/-- `w` occurs as a contiguous substring of `s`. -/
def occursIn (w s : List Char) : Prop :=
  ∃ a b, s = a ++ w ++ b

/-- No character occurs in both `w` and `r`. -/
def charDisjoint (w r : List Char) : Prop :=
  ∀ c, c ∈ w → c ∈ r → False

theorem occursIn_of_prefixOf {w s : List Char} (h : prefixOf w s) : occursIn w s := by
  obtain ⟨t, ht⟩ := h
  exact ⟨[], t, by simp [ht.symm]⟩

theorem prefixOf_refl_append (w t : List Char) : prefixOf w (w ++ t) :=
  ⟨t, rfl⟩

theorem occursIn_append_left {w t : List Char} (x : List Char) (h : occursIn w t) :
    occursIn w (x ++ t) := by
  obtain ⟨a, b, hab⟩ := h
  exact ⟨x ++ a, b, by simp [hab]⟩

theorem occursIn_cons_of {w t : List Char} (c : Char) (h : occursIn w t) :
    occursIn w (c :: t) :=
  occursIn_append_left [c] h

theorem occursIn_cons {w : List Char} {c : Char} {t : List Char}
    (h : occursIn w (c :: t)) : prefixOf w (c :: t) ∨ occursIn w t := by
  obtain ⟨a, b, hab⟩ := h
  cases a with
  | nil => exact Or.inl ⟨b, by simpa using hab.symm⟩
  | cons c' a' =>
    simp only [List.cons_append, List.cons.injEq] at hab
    exact Or.inr ⟨a', b, hab.2⟩

theorem mem_of_occursIn {w s : List Char} (h : occursIn w s) {c : Char}
    (hc : c ∈ w) : c ∈ s := by
  obtain ⟨a, b, hab⟩ := h
  subst hab
  simp [hc]

theorem not_occursIn_nil {w : List Char} (hw : w ≠ []) : ¬ occursIn w [] := by
  rintro ⟨a, b, hab⟩
  have h1 := List.append_eq_nil.mp hab.symm
  have h2 := List.append_eq_nil.mp h1.1
  exact hw h2.2

/-- An occurrence in `r ++ s` whose characters are disjoint from `r` is an
occurrence in `s`. -/
theorem occursIn_drop_prefix {w : List Char} :
    ∀ r {s : List Char}, occursIn w (r ++ s) → charDisjoint w r → occursIn w s := by
  intro r
  induction r with
  | nil => intro s h _; simpa using h
  | cons c r' ih =>
    intro s h hd
    rcases occursIn_cons (by simpa using h) with hp | ho
    · cases w with
      | nil => exact ⟨[], s, rfl⟩
      | cons wc w' =>
        obtain ⟨t, ht⟩ := hp
        simp only [List.cons_append, List.cons.injEq] at ht
        exact absurd (hd wc (by simp) (by simp [ht.1])) id
    · exact ih ho (fun c hc hr => hd c hc (by simp [hr]))

/-! ## Transfer lemmas for the replace scan

If the characters of `w` are disjoint from the replacement string, then an
occurrence of `w` in the scan's output can only come from the input. -/

theorem scan_prefixOf {pat : List RItem} {repl : List Char}
    (hrep : repl ≠ []) :
    ∀ fuel prev {w s : List Char}, charDisjoint w repl →
      prefixOf w (scanAux pat repl fuel prev s) → prefixOf w s := by
  intro fuel
  induction fuel with
  | zero =>
    intro prev w s hd h
    cases w with
    | nil => exact ⟨s, rfl⟩
    | cons wc w' =>
      simp only [scanAux] at h
      rcases hm : matchItems pat prev s with _ | n <;> rw [hm] at h
      · obtain ⟨t, ht⟩ := h
        exact absurd ht (by simp)
      · obtain ⟨t, ht⟩ := h
        cases repl with
        | nil => exact absurd rfl hrep
        | cons rc r' =>
          simp only [List.cons_append, List.cons.injEq] at ht
          exact absurd (hd wc (by simp) (by simp [ht.1])) id
  | succ fuel ih =>
    intro prev w s hd h
    cases w with
    | nil => exact ⟨s, rfl⟩
    | cons wc w' =>
      cases s with
      | nil =>
        simp only [scanAux] at h
        rcases hm : matchItems pat prev ([] : List Char) with _ | n <;> rw [hm] at h
        · obtain ⟨t, ht⟩ := h
          exact absurd ht (by simp)
        · obtain ⟨t, ht⟩ := h
          cases repl with
          | nil => exact absurd rfl hrep
          | cons rc r' =>
            simp only [List.cons_append, List.cons.injEq] at ht
            exact absurd (hd wc (by simp) (by simp [ht.1])) id
      | cons c cs =>
        simp only [scanAux] at h
        rcases hm : matchItems pat prev (c :: cs) with _ | n <;> rw [hm] at h
        · obtain ⟨t, ht⟩ := h
          simp only [List.cons_append, List.cons.injEq] at ht
          obtain ⟨t', ht'⟩ := ih (some c)
            (fun d hdw => hd d (List.mem_cons_of_mem wc hdw)) ⟨t, ht.2⟩
          exact ⟨t', by simp [ht.1, ht']⟩
        · cases n with
          | zero =>
            obtain ⟨t, ht⟩ := h
            cases repl with
            | nil => exact absurd rfl hrep
            | cons rc r' =>
              simp only [List.cons_append, List.cons.injEq] at ht
              exact absurd (hd wc (by simp) (by simp [ht.1])) id
          | succ n' =>
            obtain ⟨t, ht⟩ := h
            cases repl with
            | nil => exact absurd rfl hrep
            | cons rc r' =>
              simp only [List.cons_append, List.cons.injEq] at ht
              exact absurd (hd wc (by simp) (by simp [ht.1])) id

theorem scan_occursIn {pat : List RItem} {repl : List Char}
    (hrep : repl ≠ []) :
    ∀ fuel prev {w s : List Char}, w ≠ [] → charDisjoint w repl →
      occursIn w (scanAux pat repl fuel prev s) → occursIn w s := by
  intro fuel
  induction fuel with
  | zero =>
    intro prev w s hw hd h
    simp only [scanAux] at h
    rcases hm : matchItems pat prev s with _ | n <;> rw [hm] at h
    · exact absurd h (not_occursIn_nil hw)
    · cases w with
      | nil => exact absurd rfl hw
      | cons wc w' =>
        exact absurd (hd wc (by simp) (mem_of_occursIn h (by simp))) id
  | succ fuel ih =>
    intro prev w s hw hd h
    cases s with
    | nil =>
      simp only [scanAux] at h
      rcases hm : matchItems pat prev ([] : List Char) with _ | n <;> rw [hm] at h
      · exact absurd h (not_occursIn_nil hw)
      · cases w with
        | nil => exact absurd rfl hw
        | cons wc w' =>
          exact absurd (hd wc (by simp) (mem_of_occursIn h (by simp))) id
    | cons c cs =>
      simp only [scanAux] at h
      rcases hm : matchItems pat prev (c :: cs) with _ | n <;> rw [hm] at h
      · rcases occursIn_cons h with hp | ho
        · cases w with
          | nil => exact absurd rfl hw
          | cons wc w' =>
            obtain ⟨t, ht⟩ := hp
            simp only [List.cons_append, List.cons.injEq] at ht
            obtain ⟨t', ht'⟩ := scan_prefixOf hrep fuel (some c)
              (fun d hdw => hd d (List.mem_cons_of_mem wc hdw)) ⟨t, ht.2⟩
            exact ⟨[], t', by simp [ht.1, ht'.symm]⟩
        · exact occursIn_cons_of c (ih (some c) hw hd ho)
      · cases n with
        | zero =>
          have h2 := occursIn_drop_prefix repl h hd
          rcases occursIn_cons h2 with hp | ho
          · cases w with
            | nil => exact absurd rfl hw
            | cons wc w' =>
              obtain ⟨t, ht⟩ := hp
              simp only [List.cons_append, List.cons.injEq] at ht
              obtain ⟨t', ht'⟩ := scan_prefixOf hrep fuel (some c)
                (fun d hdw => hd d (List.mem_cons_of_mem wc hdw)) ⟨t, ht.2⟩
              exact ⟨[], t', by simp [ht.1, ht'.symm]⟩
          · exact occursIn_cons_of c (ih (some c) hw hd ho)
        | succ n' =>
          have h2 := occursIn_drop_prefix repl h hd
          have h3 := ih _ hw hd h2
          have heq := (List.take_append_drop (n' + 1) (c :: cs)).symm
          rw [heq]
          exact occursIn_append_left _ h3

/-! ## Declarative match semantics and matcher completeness -/

/-- The character preceding position `k` of `s` (falling back to `prev`
when `k = 0`), as threaded by `tryCount`. -/
def prevAfter (prev : Option Char) (s : List Char) (k : Nat) : Option Char :=
  match (s.take k).getLast? with
  | some d => some d
  | none => prev

theorem tryCount_zero_eq (next : Option Char → List Char → Option Nat)
    (prev : Option Char) (s : List Char) (lo : Nat) :
    tryCount next prev s lo 0 =
      if 0 < lo then none
      else
        match next prev s with
        | some n => some n
        | none => none := rfl

theorem tryCount_succ_eq (next : Option Char → List Char → Option Nat)
    (prev : Option Char) (s : List Char) (lo k : Nat) :
    tryCount next prev s lo (k + 1) =
      if k + 1 < lo then none
      else
        match next (prevAfter prev s (k + 1)) (s.drop (k + 1)) with
        | some n => some (k + 1 + n)
        | none => tryCount next prev s lo k := rfl

/-- Declarative semantics: `MatchSem items prev s n` holds when the item
sequence can consume exactly `n` characters from the front of `s`. -/
inductive MatchSem : List RItem → Option Char → List Char → Nat → Prop where
  | nil : ∀ prev s, MatchSem [] prev s 0
  | word : ∀ rest prev s n, atBoundary prev s = true → MatchSem rest prev s n →
      MatchSem (.wordB :: rest) prev s n
  | cls : ∀ p lo hi rest prev s k n,
      lo ≤ k → k ≤ hi.getD k → k ≤ s.length →
      (s.take k).all p = true →
      MatchSem rest (prevAfter prev s k) (s.drop k) n →
      MatchSem (.cls p lo hi :: rest) prev s (k + n)

theorem charRun_ge {p : Char → Bool} :
    ∀ {k : Nat} {s : List Char}, (s.take k).all p = true → k ≤ s.length →
      k ≤ charRun p s := by
  intro k
  induction k with
  | zero => intro s _ _; exact Nat.zero_le _
  | succ k ih =>
    intro s hall hlen
    cases s with
    | nil => simp at hlen
    | cons c cs =>
      simp only [List.take_succ_cons, List.all_cons, Bool.and_eq_true] at hall
      simp only [charRun, hall.1, if_true]
      exact Nat.succ_le_succ (ih hall.2 (Nat.le_of_succ_le_succ (by simpa using hlen)))

theorem tryCount_some_of {next : Option Char → List Char → Option Nat}
    {prev : Option Char} {s : List Char} {lo k n : Nat} :
    ∀ {h : Nat}, lo ≤ k → k ≤ h →
      next (prevAfter prev s k) (s.drop k) = some n →
      ∃ m, tryCount next prev s lo h = some m := by
  intro h
  induction h with
  | zero =>
    intro hlo hk hnext
    have hk0 : k = 0 := Nat.le_zero.mp hk
    subst hk0
    have hlo0 : lo = 0 := Nat.le_zero.mp hlo
    subst hlo0
    simp only [prevAfter, List.take_zero, List.getLast?_nil, List.drop_zero] at hnext
    exact ⟨n, by simp [tryCount, hnext]⟩
  | succ h ih =>
    intro hlo hk hnext
    rcases Nat.lt_or_ge k (h + 1) with hlt | hge
    · have hnotlt : ¬ (h + 1 < lo) := Nat.not_lt.mpr (Nat.le_trans hlo hk)
      rcases he : next (prevAfter prev s (h + 1)) (s.drop (h + 1)) with _ | n'
      · obtain ⟨m, hm⟩ := ih hlo (Nat.lt_succ_iff.mp hlt) hnext
        exact ⟨m, by rw [tryCount_succ_eq]; simp [hnotlt, he, hm]⟩
      · exact ⟨h + 1 + n', by rw [tryCount_succ_eq]; simp [hnotlt, he]⟩
    · have hkeq : k = h + 1 := Nat.le_antisymm hk hge
      subst hkeq
      have hnotlt : ¬ (h + 1 < lo) := Nat.not_lt.mpr hlo
      exact ⟨h + 1 + n, by rw [tryCount_succ_eq]; simp [hnotlt, hnext]⟩

/-- Completeness of the backtracking matcher: if the declarative
semantics can consume some prefix, the matcher finds a match. -/
theorem matchItems_complete {items : List RItem} {prev : Option Char}
    {s : List Char} {n : Nat} (h : MatchSem items prev s n) :
    ∃ m, matchItems items prev s = some m := by
  induction h with
  | nil prev s => exact ⟨0, rfl⟩
  | word rest prev s n hb _ ih =>
    obtain ⟨m, hm⟩ := ih
    exact ⟨m, by simp [matchItems, hb, hm]⟩
  | cls p lo hi rest prev s k n hlo hhi hlen hall _ ih =>
    obtain ⟨m, hm⟩ := ih
    have hrun : k ≤ charRun p s := charRun_ge hall hlen
    have hkh : k ≤ min (hi.getD (charRun p s)) (charRun p s) := by
      rcases hi with _ | b
      · simpa using hrun
      · simp only [Option.getD_some] at hhi ⊢
        exact le_min hhi hrun
    have hnot : ¬ (min (hi.getD (charRun p s)) (charRun p s) < lo) :=
      Nat.not_lt.mpr (Nat.le_trans hlo hkh)
    obtain ⟨m', hm'⟩ := tryCount_some_of hlo hkh hm
    exact ⟨m', by simp only [matchItems, hnot, if_false]; exact hm'⟩

/-- Any match returned by `tryCount` consumed at least `lo` characters
plus whatever the rest consumed; in particular it is at least `lo`. -/
theorem tryCount_ge {next : Option Char → List Char → Option Nat}
    {prev : Option Char} {s : List Char} {lo : Nat} :
    ∀ {k m : Nat}, tryCount next prev s lo k = some m → lo ≤ m := by
  intro k
  induction k with
  | zero =>
    intro m h
    by_cases hlo : 0 < lo
    · simp [tryCount, hlo] at h
    · exact Nat.le_trans (Nat.not_lt.mp hlo) (Nat.zero_le m)
  | succ k ih =>
    intro m h
    rw [tryCount_succ_eq] at h
    by_cases hlt : k + 1 < lo
    · simp [hlt] at h
    · simp only [hlt, if_false] at h
      rcases he : next (prevAfter prev s (k + 1)) (s.drop (k + 1)) with _ | n'
      · simp only [he] at h
        exact ih h
      · simp only [he] at h
        cases h
        exact Nat.le_trans (Nat.not_lt.mp hlt) (Nat.le_add_right _ _)

/-! ## The SSN pattern never survives a scan -/

/-- `w` is an SSN-shaped string: three digits, a hyphen, two digits, a
hyphen, four digits. -/
def SsnShape (w : List Char) : Prop :=
  ∃ c1 c2 c3 c4 c5 c6 c7 c8 c9 : Char,
    (isDigitC c1 && isDigitC c2 && isDigitC c3 && isDigitC c4 && isDigitC c5 &&
     isDigitC c6 && isDigitC c7 && isDigitC c8 && isDigitC c9) = true ∧
    w = [c1, c2, c3, '-', c4, c5, '-', c6, c7, c8, c9]

theorem ssnShape_ne_nil {w : List Char} (h : SsnShape w) : w ≠ [] := by
  obtain ⟨_, _, _, _, _, _, _, _, _, _, hw⟩ := h
  simp [hw]

theorem ssnShape_chars {w : List Char} (h : SsnShape w) {c : Char}
    (hc : c ∈ w) : isDigitC c = true ∨ c = '-' := by
  obtain ⟨c1, c2, c3, c4, c5, c6, c7, c8, c9, hd, hw⟩ := h
  subst hw
  simp only [Bool.and_eq_true] at hd
  simp only [List.mem_cons, List.not_mem_nil, or_false] at hc
  rcases hc with rfl | rfl | rfl | rfl | rfl | rfl | rfl | rfl | rfl | rfl | rfl
  · exact Or.inl hd.1.1.1.1.1.1.1.1
  · exact Or.inl hd.1.1.1.1.1.1.1.2
  · exact Or.inl hd.1.1.1.1.1.1.2
  · exact Or.inr rfl
  · exact Or.inl hd.1.1.1.1.1.2
  · exact Or.inl hd.1.1.1.1.2
  · exact Or.inr rfl
  · exact Or.inl hd.1.1.1.2
  · exact Or.inl hd.1.1.2
  · exact Or.inl hd.1.2
  · exact Or.inl hd.2

/-- A shape whose characters are digits and hyphens is disjoint from any
replacement containing neither. -/
theorem ssnShape_disjoint {w : List Char} (h : SsnShape w) {r : List Char}
    (hr : r.all (fun c => !(isDigitC c || c = '-')) = true) : charDisjoint w r := by
  intro c hcw hcr
  have hc := ssnShape_chars h hcw
  have := List.all_eq_true.mp hr c hcr
  rcases hc with hd | hd <;> simp [hd] at this

/-- If an SSN shape sits at the front of `s`, the SSN matcher succeeds. -/
theorem ssn_match_exists {w s : List Char} (hs : SsnShape w)
    (hp : prefixOf w s) (prev : Option Char) :
    ∃ n, matchItems ssnPat prev s = some n := by
  obtain ⟨c1, c2, c3, c4, c5, c6, c7, c8, c9, hd, hw⟩ := hs
  obtain ⟨t, ht⟩ := hp
  subst hw
  subst ht
  simp only [Bool.and_eq_true] at hd
  obtain ⟨⟨⟨⟨⟨⟨⟨⟨h1, h2⟩, h3⟩, h4⟩, h5⟩, h6⟩, h7⟩, h8⟩, h9⟩ := hd
  apply matchItems_complete (n := 3 + (1 + (2 + (1 + (4 + 0)))))
  simp only [ssnPat, lit, List.cons_append, List.nil_append]
  refine MatchSem.cls _ _ _ _ _ _ 3 _ le_rfl (by simp) (by simp) ?_ ?_
  · simp [h1, h2, h3]
  · refine MatchSem.cls _ _ _ _ _ _ 1 _ le_rfl (by simp) (by simp) (by rfl) ?_
    refine MatchSem.cls _ _ _ _ _ _ 2 _ le_rfl (by simp) (by simp) ?_ ?_
    · simp [h4, h5]
    · refine MatchSem.cls _ _ _ _ _ _ 1 _ le_rfl (by simp) (by simp) (by rfl) ?_
      refine MatchSem.cls _ _ _ _ _ _ 4 _ le_rfl (by simp) (by simp) ?_ ?_
      · simp [h6, h7, h8, h9]
      · exact MatchSem.nil _ _

/-- The SSN pattern never matches zero characters. -/
theorem ssn_no_empty_match (prev : Option Char) (s : List Char) :
    matchItems ssnPat prev s ≠ some 0 := by
  intro h
  rw [ssnPat] at h
  rw [matchItems] at h
  split at h
  · exact Option.noConfusion h
  · exact absurd (tryCount_ge h) (by norm_num)

/-- No SSN shape ever occurs in the output of the SSN replace scan. -/
theorem ssn_scan_no_shape :
    ∀ fuel prev {w s : List Char}, SsnShape w →
      occursIn w (scanAux ssnPat ("[SSN]".data) fuel prev s) → False := by
  intro fuel
  induction fuel with
  | zero =>
    intro prev w s hshape h
    simp only [scanAux] at h
    rcases hm : matchItems ssnPat prev s with _ | n <;> simp only [hm] at h
    · exact not_occursIn_nil (ssnShape_ne_nil hshape) h
    · cases w with
      | nil => exact ssnShape_ne_nil hshape rfl
      | cons wc w' =>
        exact ssnShape_disjoint hshape (by decide) wc (by simp)
          (mem_of_occursIn h (by simp))
  | succ fuel ih =>
    intro prev w s hshape h
    cases s with
    | nil =>
      simp only [scanAux] at h
      rcases hm : matchItems ssnPat prev ([] : List Char) with _ | n <;> simp only [hm] at h
      · exact not_occursIn_nil (ssnShape_ne_nil hshape) h
      · cases w with
        | nil => exact ssnShape_ne_nil hshape rfl
        | cons wc w' =>
          exact ssnShape_disjoint hshape (by decide) wc (by simp)
            (mem_of_occursIn h (by simp))
    | cons c cs =>
      have hdisj : charDisjoint w ("[SSN]".data) := ssnShape_disjoint hshape (by decide)
      simp only [scanAux] at h
      rcases hm : matchItems ssnPat prev (c :: cs) with _ | n <;> simp only [hm] at h
      · rcases occursIn_cons h with hp | ho
        · cases w with
          | nil => exact ssnShape_ne_nil hshape rfl
          | cons wc w' =>
            obtain ⟨t, ht⟩ := hp
            simp only [List.cons_append, List.cons.injEq] at ht
            obtain ⟨t', ht'⟩ := scan_prefixOf (by decide) fuel (some c)
              (fun d hdw => hdisj d (List.mem_cons_of_mem wc hdw)) ⟨t, ht.2⟩
            obtain ⟨n, hn⟩ := ssn_match_exists (s := c :: cs) hshape
              ⟨t', by simp [ht.1, ht']⟩ prev
            rw [hm] at hn
            exact Option.noConfusion hn
        · exact ih (some c) hshape ho
      · cases n with
        | zero => exact ssn_no_empty_match prev (c :: cs) hm
        | succ n' =>
          have h2 := occursIn_drop_prefix _ h hdisj
          exact ih _ hshape h2

/-- `replaceAll`-level wrapper of `scan_occursIn`. -/
theorem replaceAll_occursIn {pat : List RItem} {repl w s : List Char}
    (h : occursIn w (replaceAll pat repl s)) (hrep : repl ≠ [])
    (hw : w ≠ []) (hd : charDisjoint w repl) : occursIn w s :=
  scan_occursIn hrep s.length none hw hd h

/-- Unfolding of the ten-pattern fold. -/
theorem sanitizeChars_eq (s : List Char) :
    sanitizeChars s =
      replaceAll passwordPat ("password: [REDACTED]".data)
        (replaceAll ipPat ("[IP_ADDRESS]".data)
          (replaceAll jwtPat ("[JWT]".data)
            (replaceAll apiKeyPat ("[API_KEY]".data)
              (replaceAll skTestPat ("[API_KEY]".data)
                (replaceAll skLivePat ("[API_KEY]".data)
                  (replaceAll ccPat ("[CREDIT_CARD]".data)
                    (replaceAll ssnPat ("[SSN]".data)
                      (replaceAll phonePat ("[PHONE]".data)
                        (replaceAll emailPat ("[EMAIL]".data) s))))))))) := by
  simp only [sanitizeChars, SENSITIVE_PATTERNS, List.foldl_cons, List.foldl_nil]

set_option maxHeartbeats 1000000 in
/-- C3.  For every string containing a synthetic SSN-shaped value (three
digits, two digits, four digits), the output of `sanitizeTextForEgress`
never contains the original digit sequence. -/
theorem C3_ssn_never_survives (x : String) (w : List Char)
    (hshape : SsnShape w) (hx : occursIn w x.data) :
    ¬ occursIn w (sanitizeTextForEgress x).data := by
  intro hout
  have hne := ssnShape_ne_nil hshape
  unfold sanitizeTextForEgress at hout
  by_cases hx0 : x = ""
  · rw [if_pos hx0] at hout
    exact not_occursIn_nil hne hout
  · rw [if_neg hx0] at hout
    rw [sanitizeChars_eq] at hout
    have h1 := replaceAll_occursIn hout (by decide) hne
      (ssnShape_disjoint hshape (by decide))
    have h2 := replaceAll_occursIn h1 (by decide) hne
      (ssnShape_disjoint hshape (by decide))
    have h3 := replaceAll_occursIn h2 (by decide) hne
      (ssnShape_disjoint hshape (by decide))
    have h4 := replaceAll_occursIn h3 (by decide) hne
      (ssnShape_disjoint hshape (by decide))
    have h5 := replaceAll_occursIn h4 (by decide) hne
      (ssnShape_disjoint hshape (by decide))
    have h6 := replaceAll_occursIn h5 (by decide) hne
      (ssnShape_disjoint hshape (by decide))
    have h7 := replaceAll_occursIn h6 (by decide) hne
      (ssnShape_disjoint hshape (by decide))
    exact ssn_scan_no_shape _ none hshape h7

/-- Witness for C3 at a concrete input. -/
theorem C3_ssn_never_survives_witness :
    SsnShape ("123-45-6789".data) ∧
    occursIn ("123-45-6789".data) ("ssn 123-45-6789!".data) ∧
    ¬ occursIn ("123-45-6789".data) (sanitizeTextForEgress "ssn 123-45-6789!").data := by
  refine ⟨⟨'1', '2', '3', '4', '5', '6', '7', '8', '9', by decide, by decide⟩,
    ⟨"ssn ".data, "!".data, by decide⟩, ?_⟩
  exact C3_ssn_never_survives _ _
    ⟨'1', '2', '3', '4', '5', '6', '7', '8', '9', by decide, by decide⟩
    ⟨"ssn ".data, "!".data, by decide⟩

/-! ## JavaScript values and the recursive object sanitizer
(egressGuard.ts lines 105-127) -/

/-- A JavaScript value as dispatched on by `sanitizeObjectForEgress`:
`null`, `undefined`, booleans, numbers (opaque, modelled as `Int`),
strings, arrays and plain objects. -/
inductive Value where
  | vnull
  | vundef
  | vbool (b : Bool)
  | vnum (n : Int)
  | vstr (s : String)
  | varr (items : List Value)
  | vobj (fields : List (String × Value))

mutual

/-- `sanitizeObjectForEgress`: `null`/`undefined` returned as-is, strings
sanitized, arrays mapped recursively, objects rebuilt entry-wise, all
other leaves returned unchanged. -/
def sanitizeObjectForEgress : Value → Value
  | .vnull => .vnull
  | .vundef => .vundef
  | .vstr s => .vstr (sanitizeTextForEgress s)
  | .varr l => .varr (sanitizeValueList l)
  | .vobj fs => .vobj (sanitizeValueFields fs)
  | .vbool b => .vbool b
  | .vnum n => .vnum n

/-- `obj.map(item => sanitizeObjectForEgress(item))`. -/
def sanitizeValueList : List Value → List Value
  | [] => []
  | v :: t => sanitizeObjectForEgress v :: sanitizeValueList t

/-- `for (const [key, value] of Object.entries(obj)) result[key] = …`. -/
def sanitizeValueFields : List (String × Value) → List (String × Value)
  | [] => []
  | (k, v) :: t => (k, sanitizeObjectForEgress v) :: sanitizeValueFields t

end

mutual

/-- The shape-preserving string-leaf map described by the specification:
"a value of the same shape in which every string leaf has been replaced by
its sanitized form, every non-string leaf is unchanged". -/
def mapStringLeaves (f : String → String) : Value → Value
  | .vnull => .vnull
  | .vundef => .vundef
  | .vbool b => .vbool b
  | .vnum n => .vnum n
  | .vstr s => .vstr (f s)
  | .varr l => .varr (mapStringLeavesList f l)
  | .vobj fs => .vobj (mapStringLeavesFields f fs)

def mapStringLeavesList (f : String → String) : List Value → List Value
  | [] => []
  | v :: t => mapStringLeaves f v :: mapStringLeavesList f t

def mapStringLeavesFields (f : String → String) : List (String × Value) → List (String × Value)
  | [] => []
  | (k, v) :: t => (k, mapStringLeaves f v) :: mapStringLeavesFields f t

end

mutual

theorem sanitizeObjectForEgress_eq_map :
    ∀ v : Value, sanitizeObjectForEgress v = mapStringLeaves sanitizeTextForEgress v
  | .vnull => rfl
  | .vundef => rfl
  | .vbool _ => rfl
  | .vnum _ => rfl
  | .vstr _ => rfl
  | .varr l => by
    rw [sanitizeObjectForEgress, mapStringLeaves, sanitizeValueList_eq_map]
  | .vobj fs => by
    rw [sanitizeObjectForEgress, mapStringLeaves, sanitizeValueFields_eq_map]

theorem sanitizeValueList_eq_map :
    ∀ l : List Value, sanitizeValueList l = mapStringLeavesList sanitizeTextForEgress l
  | [] => rfl
  | v :: t => by
    rw [sanitizeValueList, mapStringLeavesList, sanitizeObjectForEgress_eq_map v,
      sanitizeValueList_eq_map t]

theorem sanitizeValueFields_eq_map :
    ∀ fs : List (String × Value),
      sanitizeValueFields fs = mapStringLeavesFields sanitizeTextForEgress fs
  | [] => rfl
  | (k, v) :: t => by
    rw [sanitizeValueFields, mapStringLeavesFields, sanitizeObjectForEgress_eq_map v,
      sanitizeValueFields_eq_map t]

end

/-! ## Depth truncation (for refuting the claimed recursion-depth limit) -/

mutual

/-- Truncate a value at depth `d`, replacing anything deeper by `null`.
Two values agree up to depth `d` iff their truncations at `d` are equal;
an implementation whose recursion is bounded by a depth limit `d` cannot
distinguish inputs that agree up to depth `d`. -/
def truncAt : Nat → Value → Value
  | 0, _ => .vnull
  | d + 1, .varr l => .varr (truncAtList d l)
  | d + 1, .vobj fs => .vobj (truncAtFields d fs)
  | _ + 1, v => v

def truncAtList : Nat → List Value → List Value
  | _, [] => []
  | d, v :: t => truncAt d v :: truncAtList d t

def truncAtFields : Nat → List (String × Value) → List (String × Value)
  | _, [] => []
  | d, (k, v) :: t => (k, truncAt d v) :: truncAtFields d t

end

/-- Nest a value inside `n` singleton arrays. -/
def nestValue : Nat → Value → Value
  | 0, v => v
  | n + 1, v => .varr [nestValue n v]

theorem trunc_nest_eq : ∀ d : Nat, ∀ x y : Value,
    truncAt d (nestValue d x) = truncAt d (nestValue d y)
  | 0, _, _ => by simp [nestValue, truncAt]
  | d + 1, x, y => by
    simp only [nestValue, truncAt, truncAtList]
    rw [trunc_nest_eq d x y]

theorem sanitize_nest : ∀ n : Nat, ∀ v : Value,
    sanitizeObjectForEgress (nestValue n v) = nestValue n (sanitizeObjectForEgress v)
  | 0, _ => by simp [nestValue]
  | n + 1, v => by
    simp only [nestValue, sanitizeObjectForEgress, sanitizeValueList]
    rw [sanitize_nest n v]

theorem nest_inj : ∀ n : Nat, ∀ {a b : Value}, nestValue n a = nestValue n b → a = b
  | 0, _, _, h => h
  | n + 1, a, b, h => by
    rw [nestValue, nestValue] at h
    exact nest_inj n (by simpa using h)

/-- Counterexample to C4's recursion-depth-limit clause: the object
sanitizer's output is not determined by the input up to any fixed depth
`d` — it rewrites string leaves at depth `d + 1` — so its recursion is
not bounded by any recursion-depth limit. -/
theorem C4_depth_limit_cex :
    ¬ ∃ d : Nat, ∀ v w : Value, truncAt d v = truncAt d w →
      sanitizeObjectForEgress v = sanitizeObjectForEgress w := by
  rintro ⟨d, hd⟩
  have h := hd (nestValue d (.vstr "a@b.co")) (nestValue d (.vstr "x"))
    (trunc_nest_eq d _ _)
  rw [sanitize_nest, sanitize_nest] at h
  have h2 := nest_inj d h
  rw [sanitizeObjectForEgress, sanitizeObjectForEgress] at h2
  have h3 : sanitizeTextForEgress "a@b.co" = sanitizeTextForEgress "x" := by
    injection h2
  have e1 : sanitizeTextForEgress "a@b.co" = "[EMAIL]" := by decide
  have e2 : sanitizeTextForEgress "x" = "x" := by decide
  rw [e1, e2] at h3
  exact absurd h3 (by decide)

/-- C4 (amended).  `sanitizeObjectForEgress` terminates on every value
and equals the shape-preserving map that sanitizes every string leaf and
leaves every non-string leaf unchanged; the recursion is structural, with
no recursion-depth limit. -/
theorem C4_object_sanitizer_maps_string_leaves (v : Value) :
    sanitizeObjectForEgress v = mapStringLeaves sanitizeTextForEgress v :=
  sanitizeObjectForEgress_eq_map v

/-! ## The aspect pipeline (applyAspects.ts) and the MCP client
(mcpClient.ts)

Asynchronous functions that may throw are modelled as functions into
`Except ε`; `console` logging and `Date.now` timing are effects outside
the value model. -/

/-- An aspect: `(req, next) => Promise<Res>` (applyAspects.ts lines
71-74). -/
def Aspect (ε Req Res : Type) : Type :=
  Req → (Req → Except ε Res) → Except ε Res

/-- `applyAspects` (applyAspects.ts lines 98-106): `reduceRight` over the
aspect list, so the first aspect is outermost. -/
def applyAspects {ε Req Res : Type} (base : Req → Except ε Res)
    (aspects : List (Aspect ε Req Res)) : Req → Except ε Res :=
  aspects.foldr (fun aspect next req => aspect req next) base

/-- `MCPCallParams` (types.ts lines 98-101). -/
structure MCPCallParams where
  toolName : String
  params : Value

/-- `MCPCallResponse` (types.ts lines 104-107). -/
structure MCPCallResponse where
  result : Value
  error : Option String

/-- `mcpSanitizationAspect` (mcpClient.ts lines 84-92): sanitize the
params before passing them on. -/
def mcpSanitizationAspect {ε : Type} : Aspect ε MCPCallParams MCPCallResponse :=
  fun req next =>
    next { toolName := req.toolName, params := sanitizeObjectForEgress req.params }

/-- `mcpLoggingAspect` (mcpClient.ts lines 97-110): forwards the result
and rethrows errors; the duration logging is a console effect outside the
value model. -/
def mcpLoggingAspect {ε : Type} : Aspect ε MCPCallParams MCPCallResponse :=
  fun req next =>
    match next req with
    | .ok result => .ok result
    | .error e => .error e

/-- `mcpCall` (mcpClient.ts lines 115-118): the aspect-wrapped base call,
logging outermost, sanitization innermost.  The network transmission
`baseMcpCall` is the external effect `base`. -/
def mcpCall {ε : Type} (base : MCPCallParams → Except ε MCPCallResponse) :
    MCPCallParams → Except ε MCPCallResponse :=
  applyAspects base [mcpLoggingAspect, mcpSanitizationAspect]

theorem mcpCall_eq_base_sanitized {ε : Type}
    (base : MCPCallParams → Except ε MCPCallResponse) (req : MCPCallParams) :
    mcpCall base req =
      base { toolName := req.toolName, params := sanitizeObjectForEgress req.params } := by
  unfold mcpCall applyAspects mcpLoggingAspect mcpSanitizationAspect
  simp only [List.foldr]
  rcases h : base ⟨req.toolName, sanitizeObjectForEgress req.params⟩ with e | r <;>
    simp [h]

/-- C1.  Every invocation of `mcpCall` delivers to the base transmission
function exactly the sanitization of the original params (with the tool
name unchanged): the recursive egress sanitization is applied on every
call and cannot be bypassed by any caller of `mcpCall`. -/
theorem C1_mcpCall_always_sanitizes {ε : Type}
    (base : MCPCallParams → Except ε MCPCallResponse) (req : MCPCallParams) :
    mcpCall base req =
      base { toolName := req.toolName, params := sanitizeObjectForEgress req.params } :=
  mcpCall_eq_base_sanitized base req

/-! ## The Perplexity candidate-name fallback loop (`callPerplexityMcp`) -/

/-- The ordered candidate wire-level tool names. -/
def perplexityToolNames : List String :=
  ["perplexity.perplexity_ask", "perplexity_mcp.search"]

/-- `params: { query }`. -/
def queryParams (query : String) : Value :=
  .vobj [("query", .vstr query)]

/-- JavaScript falsiness of `response.error`: absent or the empty
string. -/
def isFalsyError : Option String → Bool
  | none => true
  | some e => e = ""

/-- The `for (const toolName of toolNames)` loop body of
`callPerplexityMcp`: return the first result whose `error` field is
falsy, remembering the last error; after the loop, throw the last error
(or the default message when it is falsy). -/
def perplexityLoop {ε : Type} (base : MCPCallParams → Except ε MCPCallResponse)
    (query : String) : List String → Option String → Except (Sum ε String) Value
  | [], lastError =>
    .error (.inr (match lastError with
      | some e => if e = "" then "Failed to call Perplexity MCP" else e
      | none => "Failed to call Perplexity MCP"))
  | name :: rest, lastError =>
    match mcpCall base { toolName := name, params := queryParams query } with
    | .error e => .error (.inl e)
    | .ok resp =>
      if isFalsyError resp.error then .ok resp.result
      else perplexityLoop base query rest resp.error

/-- `callPerplexityMcp` (the fallback-loop variant): try the candidate
wire names in declared order through `mcpCall`. -/
def callPerplexityMcp {ε : Type} (base : MCPCallParams → Except ε MCPCallResponse)
    (query : String) : Except (Sum ε String) Value :=
  perplexityLoop base query perplexityToolNames none

/-- C8.  When the first candidate wire name returns a tool-reported error
and the second succeeds, `callPerplexityMcp` returns the second
candidate's result: candidates are tried in declared order and the first
non-error result is returned. -/
theorem C8_fallback_returns_second {ε : Type}
    (base : MCPCallParams → Except ε MCPCallResponse) (query : String)
    (r1 r2 : Value) (e : String) (he : e ≠ "")
    (h1 : mcpCall base ⟨"perplexity.perplexity_ask", queryParams query⟩ =
      .ok ⟨r1, some e⟩)
    (h2 : mcpCall base ⟨"perplexity_mcp.search", queryParams query⟩ =
      .ok ⟨r2, none⟩) :
    callPerplexityMcp base query = .ok r2 := by
  unfold callPerplexityMcp perplexityToolNames
  rw [perplexityLoop, h1]
  have hf : isFalsyError (some e) = false := by
    simp [isFalsyError, he]
  simp only [hf, if_false]
  rw [perplexityLoop, h2]
  rfl

/-- Witness for C8 at a concrete gateway behaviour. -/
theorem C8_fallback_returns_second_witness :
    ("tool failed" : String) ≠ "" ∧
    callPerplexityMcp (ε := Unit)
      (fun req => if req.toolName = "perplexity.perplexity_ask"
        then .ok ⟨.vnull, some "tool failed"⟩
        else .ok ⟨.vstr "answer", none⟩) "q" = .ok (.vstr "answer") := by
  refine ⟨by decide, ?_⟩
  exact C8_fallback_returns_second _ "q" .vnull (.vstr "answer") "tool failed"
    (by decide) (by rw [mcpCall_eq_base_sanitized]; rfl)
    (by rw [mcpCall_eq_base_sanitized]; rfl)

/-! ## The graph store adapter (graphContext.ts) -/

/-- `EnrichedSpec.type` (types.ts line 41). -/
inductive SpecType where
  | rfc
  | owasp
deriving DecidableEq

/-- One outgoing relationship of an `EnrichedSpec` (types.ts lines
45-48). -/
structure SpecRel where
  type : String
  targetId : String
deriving DecidableEq

/-- `EnrichedSpec` (types.ts lines 40-50). -/
structure EnrichedSpec where
  type : SpecType
  id : String
  title : String
  sections : Option (List String)
  relationships : Option (List SpecRel)
  version : Option String
deriving DecidableEq

/-- A character allowed by the identifier grammar `[A-Za-z0-9_-]`. -/
def isValidIdChar (c : Char) : Bool :=
  isAsciiLetter c || isDigitC c || c = '_' || c = '-'

/-- `isValidSpecId` (graphContext.ts lines 183-186):
`/^[A-Za-z0-9_-]+$/.test(id)`. -/
def isValidSpecId (s : String) : Bool :=
  !s.data.isEmpty && s.data.all isValidIdChar

/-- The relationship-type check (graphContext.ts line 239):
`/^[A-Z_]+$/.test(rel.type)`. -/
def isValidRelType (s : String) : Bool :=
  !s.data.isEmpty && s.data.all (fun c => ('A' ≤ c && c ≤ 'Z') || c = '_')

/-- Replace every occurrence of the single character `c` by `r` (one
`.replace(/c/g, r)` step of `escapeCypher`). -/
def replaceCharAll (c : Char) (r : List Char) : List Char → List Char
  | [] => []
  | x :: t => if x = c then r ++ replaceCharAll c r t else x :: replaceCharAll c r t

/-- `escapeCypher` (graphContext.ts lines 170-178): the six successive
single-character global replaces, in source order. -/
def escapeCypher (s : String) : String :=
  String.mk
    (replaceCharAll '\t' ("\\t".data)
      (replaceCharAll '\r' ("\\r".data)
        (replaceCharAll '\n' ("\\n".data)
          (replaceCharAll '"' ("\\\"".data)
            (replaceCharAll '\'' ("\\'".data)
              (replaceCharAll '\\' ("\\\\".data) s.data))))))

/-- `spec.version || '2021'`: JavaScript `||` treats the empty string as
falsy. -/
def jsOrDefault (o : Option String) (d : String) : String :=
  match o with
  | some v => if v = "" then d else v
  | none => d

/-- One Cypher query issued by `upsertSpecsToMemgraph`, holding exactly
the strings interpolated into the query template. -/
inductive GraphQuery where
  | mergeRfc (i t : String)
  | mergeOwasp (i t v : String)
  | mergeEdge (sourceId relType targetId : String)
deriving DecidableEq

/-- The query text each `GraphQuery` renders to (the template literals of
graphContext.ts lines 208-212, 218-223 and 243-246, with whitespace
normalised to single spaces). -/
def renderQuery : GraphQuery → String
  | .mergeRfc i t =>
    "MERGE (r:RFC \x7bid: '" ++ i ++ "'\x7d) SET r.title = '" ++ t ++ "' RETURN r"
  | .mergeOwasp i t v =>
    "MERGE (o:OWASP \x7bid: '" ++ i ++ "'\x7d) SET o.title = '" ++ t ++
      "', o.version = '" ++ v ++ "' RETURN o"
  | .mergeEdge s r t =>
    "MATCH (a \x7bid: '" ++ s ++ "'\x7d), (b \x7bid: '" ++ t ++
      "'\x7d) MERGE (a)-[:" ++ r ++ "]->(b)"

/-- The first loop of `upsertSpecsToMemgraph` (graphContext.ts lines
199-227): per spec, skip with a warning when the id fails validation,
otherwise issue the `MERGE` node query for its kind.  Returns the queries
issued and the warnings logged, in order. -/
def upsertNodes : List EnrichedSpec → List GraphQuery × List String
  | [] => ([], [])
  | spec :: rest =>
    let r := upsertNodes rest
    if isValidSpecId spec.id then
      match spec.type with
      | .rfc => (.mergeRfc spec.id (escapeCypher spec.title) :: r.1, r.2)
      | .owasp => (.mergeOwasp spec.id (escapeCypher spec.title)
          (escapeCypher (jsOrDefault spec.version "2021")) :: r.1, r.2)
    else (r.1, ("Skipping invalid spec ID: " ++ spec.id) :: r.2)

/-- The inner relationship loop of the second phase (graphContext.ts
lines 230-250): validate `rel.targetId` and `rel.type` — but not the
surrounding `spec.id` — before issuing the edge query. -/
def edgeLoop (sourceId : String) : List SpecRel → List GraphQuery × List String
  | [] => ([], [])
  | rel :: rest =>
    let r := edgeLoop sourceId rest
    if !isValidSpecId rel.targetId then
      (r.1, ("Skipping invalid target ID: " ++ rel.targetId) :: r.2)
    else if !isValidRelType rel.type then
      (r.1, ("Skipping invalid relationship type: " ++ rel.type) :: r.2)
    else (.mergeEdge sourceId rel.type rel.targetId :: r.1, r.2)

/-- The second loop of `upsertSpecsToMemgraph`. -/
def upsertEdges : List EnrichedSpec → List GraphQuery × List String
  | [] => ([], [])
  | spec :: rest =>
    let e := edgeLoop spec.id (spec.relationships.getD [])
    let r := upsertEdges rest
    (e.1 ++ r.1, e.2 ++ r.2)

/-- `upsertSpecsToMemgraph` (graphContext.ts lines 191-251): all node
queries, then all edge queries; first component the queries sent through
the gateway, second the validation warnings. -/
def upsertSpecsToMemgraph (specs : List EnrichedSpec) : List GraphQuery × List String :=
  ((upsertNodes specs).1 ++ (upsertEdges specs).1,
   (upsertNodes specs).2 ++ (upsertEdges specs).2)

/-! ## A store with `MERGE` semantics

Modelled from the spec: "a declarative pattern-match language with …
`MERGE` for idempotent writes" and "Graph writes are idempotent by id
(merge semantics); re-upserting the same id updates properties but never
duplicates the node" (§3, §6).  `MERGE (n:Label \x7bid: '…'\x7d)` matches an
existing node with that label and id or creates one, and `SET` then
overwrites the listed properties.  Edge queries do not create or modify
nodes. -/

/-- A stored graph node. -/
structure GraphNode where
  label : String
  id : String
  props : List (String × String)
deriving DecidableEq

/-- Set property `k` to `v`, overwriting an existing entry. -/
def setProp (k v : String) : List (String × String) → List (String × String)
  | [] => [(k, v)]
  | (k', v') :: t => if k' = k then (k, v) :: t else (k', v') :: setProp k v t

/-- Modelled from the spec: execute one query against the node store with
`MERGE`/`SET` semantics. -/
def applyQuery (st : List GraphNode) : GraphQuery → List GraphNode
  | .mergeRfc i t =>
    if st.any (fun n => n.label = "RFC" && n.id = i) then
      st.map (fun n => if n.label = "RFC" && n.id = i then
        { n with props := setProp "title" t n.props } else n)
    else st ++ [⟨"RFC", i, [("title", t)]⟩]
  | .mergeOwasp i t v =>
    if st.any (fun n => n.label = "OWASP" && n.id = i) then
      st.map (fun n => if n.label = "OWASP" && n.id = i then
        { n with props := setProp "version" v (setProp "title" t n.props) } else n)
    else st ++ [⟨"OWASP", i, [("title", t), ("version", v)]⟩]
  | .mergeEdge _ _ _ => st

/-- Run a list of queries against a store. -/
def runQueries (st : List GraphNode) (qs : List GraphQuery) : List GraphNode :=
  qs.foldl applyQuery st



/-- Node label for a spec kind. -/
def nodeLabel : SpecType → String
  | .rfc => "RFC"
  | .owasp => "OWASP"

/-- The properties a node carries after the `SET` clauses of the merge
query for `s` run. -/
def mergeProps (s : EnrichedSpec) : List (String × String) :=
  match s.type with
  | .rfc => [("title", escapeCypher s.title)]
  | .owasp => [("title", escapeCypher s.title),
      ("version", escapeCypher (jsOrDefault s.version "2021"))]

theorem edgeLoop_only_edges (sid : String) :
    ∀ rels q, q ∈ (edgeLoop sid rels).1 → ∃ a b c, q = GraphQuery.mergeEdge a b c := by
  intro rels
  induction rels with
  | nil => intro q hq; simp [edgeLoop] at hq
  | cons rel rest ih =>
    intro q hq
    simp only [edgeLoop] at hq
    by_cases h1 : isValidSpecId rel.targetId
    · by_cases h2 : isValidRelType rel.type
      · simp [h1, h2] at hq
        rcases hq with rfl | hq
        · exact ⟨_, _, _, rfl⟩
        · exact ih q hq
      · simp [h1, h2] at hq
        exact ih q hq
    · simp [h1] at hq
      exact ih q hq

theorem runQueries_edges (st : List GraphNode) :
    ∀ qs, (∀ q ∈ qs, ∃ a b c, q = GraphQuery.mergeEdge a b c) → runQueries st qs = st := by
  intro qs
  induction qs generalizing st with
  | nil => intro _; rfl
  | cons q rest ih =>
    intro hq
    obtain ⟨a, b, c, rfl⟩ := hq q (by simp)
    simp only [runQueries, List.foldl_cons, applyQuery]
    exact ih st (fun q' hq' => hq q' (by simp [hq']))

theorem runQueries_append (st : List GraphNode) (a b : List GraphQuery) :
    runQueries st (a ++ b) = runQueries (runQueries st a) b := by
  simp [runQueries, List.foldl_append]

/-- C6 (amended).  Upserting the same spec id twice — for specs of the
same kind with an id passing the identifier grammar — yields exactly one
graph node with that id carrying the latest property values; a repeated
upsert never creates a duplicate node.  (Ids failing the grammar are
skipped entirely and yield no node, and the same id upserted under two
different kinds yields one node per kind — see the counterexample.) -/
theorem C6_valid_id_upsert_idempotent (s1 s2 : EnrichedSpec) (hid : s2.id = s1.id)
    (ht : s2.type = s1.type) (hv : isValidSpecId s1.id = true) :
    runQueries [] ((upsertSpecsToMemgraph [s1]).1 ++ (upsertSpecsToMemgraph [s2]).1) =
      [⟨nodeLabel s2.type, s2.id, mergeProps s2⟩] := by
  have hv2 : isValidSpecId s2.id = true := by rw [hid]; exact hv
  have hedge1 := edgeLoop_only_edges s1.id ((s1.relationships).getD [])
  have hedge2 := edgeLoop_only_edges s2.id ((s2.relationships).getD [])
  simp only [upsertSpecsToMemgraph, upsertNodes, upsertEdges, hv, hv2, if_true]
  cases hty1 : s1.type with
  | rfc =>
    have hty2 : s2.type = SpecType.rfc := by rw [ht, hty1]
    simp only [hty1, hty2, List.append_nil, List.nil_append]
    rw [runQueries_append, runQueries_append, runQueries_append]
    rw [runQueries_edges _ _ hedge1, runQueries_edges _ _ hedge2]
    rw [hid]
    simp [runQueries, applyQuery, setProp, mergeProps, nodeLabel, hty2]
  | owasp =>
    have hty2 : s2.type = SpecType.owasp := by rw [ht, hty1]
    simp only [hty1, hty2, List.append_nil, List.nil_append]
    rw [runQueries_append, runQueries_append, runQueries_append]
    rw [runQueries_edges _ _ hedge1, runQueries_edges _ _ hedge2]
    rw [hid]
    simp [runQueries, applyQuery, setProp, mergeProps, nodeLabel, hty2]



/-- Match `/RFC\s*(\d+)/i` at the head of `s`: returns the captured
digits and the total matched length.  (`\s*` is greedy and the space and
digit classes are disjoint, so no backtracking can occur.) -/
def rfcCapture : List Char → Option (List Char × Nat)
  | c1 :: c2 :: c3 :: t =>
    if ciLetter 'r' c1 && ciLetter 'f' c2 && ciLetter 'c' c3 then
      let sp := t.takeWhile isJsSpace
      let rest := t.drop sp.length
      let ds := rest.takeWhile isDigitC
      if ds.isEmpty then none else some (ds, 3 + sp.length + ds.length)
    else none
  | _ => none

/-- `text.matchAll(/RFC\s*(\d+)/gi)`: scan left to right, resuming after
each match; collect the captured digit groups in order. -/
def rfcScanAux : Nat → List Char → List (List Char)
  | 0, _ => []
  | _ + 1, [] => []
  | fuel + 1, c :: cs =>
    match rfcCapture (c :: cs) with
    | some (ds, len) => ds :: rfcScanAux fuel ((c :: cs).drop len)
    | none => rfcScanAux fuel cs

/-- `new Set()` insertion-order deduplication. -/
def dedupAcc (seen : List String) : List String → List String
  | [] => []
  | x :: t => if seen.contains x then dedupAcc seen t else x :: dedupAcc (x :: seen) t

/-- `extractRfcSpecs` (graphContext.ts lines 112-126). -/
def extractRfcSpecs (text : String) : List EnrichedSpec :=
  (dedupAcc [] ((rfcScanAux text.data.length text.data).map String.mk)).map
    (fun num => ⟨.rfc, "RFC" ++ num, "RFC " ++ num, some [], none, none⟩)

theorem rfcScanAux_digits :
    ∀ fuel s ds, ds ∈ rfcScanAux fuel s → ds ≠ [] ∧ ds.all isDigitC = true := by
  intro fuel
  induction fuel with
  | zero => intro s ds h; simp [rfcScanAux] at h
  | succ fuel ih =>
    intro s ds h
    cases s with
    | nil => simp [rfcScanAux] at h
    | cons c cs =>
      simp only [rfcScanAux] at h
      rcases hc : rfcCapture (c :: cs) with _ | ⟨ds', len⟩ <;> simp only [hc] at h
      · exact ih cs ds h
      · rcases List.mem_cons.mp h with rfl | h
        · rcases cs with _ | ⟨c2, cs2⟩
          · simp [rfcCapture] at hc
          rcases cs2 with _ | ⟨c3, t⟩
          · simp [rfcCapture] at hc
          simp only [rfcCapture] at hc
          by_cases hrfc : (ciLetter 'r' c && ciLetter 'f' c2 && ciLetter 'c' c3) = true
          · simp only [hrfc, if_true] at hc
            by_cases hds : ((t.drop (t.takeWhile isJsSpace).length).takeWhile isDigitC).isEmpty
            · simp [hds] at hc
            · simp only [hds] at hc
              rw [if_neg (by decide)] at hc
              simp only [Option.some.injEq, Prod.mk.injEq] at hc
              obtain ⟨hds1, hlen⟩ := hc
              subst hds1
              constructor
              · intro hnil
                rw [hnil] at hds
                exact hds rfl
              · exact List.all_eq_true.mpr (fun d hd => List.mem_takeWhile_imp hd)
          · simp [hrfc] at hc
        · exact ih _ ds h

theorem dedupAcc_subset :
    ∀ l seen x, x ∈ dedupAcc seen l → x ∈ l := by
  intro l
  induction l with
  | nil => intro seen x h; simp [dedupAcc] at h
  | cons y t ih =>
    intro seen x h
    simp only [dedupAcc] at h
    split at h
    · exact List.mem_cons_of_mem y (ih _ x h)
    · rcases List.mem_cons.mp h with rfl | h
      · simp
      · exact List.mem_cons_of_mem y (ih _ x h)

theorem extractRfcSpecs_shape (text : String) (spec : EnrichedSpec)
    (h : spec ∈ extractRfcSpecs text) :
    ∃ num : String, num.data ≠ [] ∧ num.data.all isDigitC = true ∧
      spec = ⟨.rfc, "RFC" ++ num, "RFC " ++ num, some [], none, none⟩ := by
  simp only [extractRfcSpecs, List.mem_map] at h
  obtain ⟨num, hmem, rfl⟩ := h
  have hmem2 := dedupAcc_subset _ _ _ hmem
  simp only [List.mem_map] at hmem2
  obtain ⟨ds, hds, rfl⟩ := hmem2
  have hd := rfcScanAux_digits _ _ _ hds
  exact ⟨String.mk ds, hd.1, hd.2, rfl⟩

theorem valid_rfc_id (num : String) (h1 : num.data ≠ [])
    (h2 : num.data.all isDigitC = true) :
    isValidSpecId ("RFC" ++ num) = true := by
  simp only [isValidSpecId, Bool.and_eq_true]
  constructor
  · simp [String.data_append]
  · simp only [String.data_append, List.all_append, Bool.and_eq_true]
    constructor
    · decide
    · refine List.all_eq_true.mpr (fun c hc => ?_)
      have := List.all_eq_true.mp h2 c hc
      simp [isValidIdChar, isAlnum, this]

theorem upsertNodes_mem_rfc :
    ∀ specs : List EnrichedSpec, ∀ spec ∈ specs, spec.type = SpecType.rfc →
      isValidSpecId spec.id = true →
      GraphQuery.mergeRfc spec.id (escapeCypher spec.title) ∈ (upsertNodes specs).1 := by
  intro specs
  induction specs with
  | nil => intro spec h; simp at h
  | cons s rest ih =>
    intro spec h hty hv
    rcases List.mem_cons.mp h with rfl | h
    · simp only [upsertNodes, hv, if_true, hty]
      simp
    · have := ih spec h hty hv
      simp only [upsertNodes]
      split
      · split <;> simp [this]
      · simpa using this

theorem upsertNodes_no_warnings :
    ∀ specs : List EnrichedSpec, (∀ s ∈ specs, isValidSpecId s.id = true) →
      (upsertNodes specs).2 = [] := by
  intro specs
  induction specs with
  | nil => intro _; rfl
  | cons s rest ih =>
    intro hv
    have hs := hv s (by simp)
    simp only [upsertNodes, hs, if_true]
    have := ih (fun x hx => hv x (by simp [hx]))
    split <;> simpa using this

theorem upsertEdges_none :
    ∀ specs : List EnrichedSpec, (∀ s ∈ specs, s.relationships = none) →
      upsertEdges specs = ([], []) := by
  intro specs
  induction specs with
  | nil => intro _; rfl
  | cons s rest ih =>
    intro hr
    have hs := hr s (by simp)
    simp only [upsertEdges, hs, Option.getD_none, edgeLoop,
      ih (fun x hx => hr x (by simp [hx]))]
    rfl

/-- C10.  Every entity emitted by `extractRfcSpecs` has an id of the
form `RFC` followed by the matched digits, which always satisfies
`isValidSpecId`; hence no entity from this extractor family is ever
dropped by upsert validation — its merge query is always issued and no
warning is logged. -/
theorem C10_rfc_ids_never_dropped (text : String) (spec : EnrichedSpec)
    (h : spec ∈ extractRfcSpecs text) :
    isValidSpecId spec.id = true ∧
    GraphQuery.mergeRfc spec.id (escapeCypher spec.title) ∈
      (upsertSpecsToMemgraph (extractRfcSpecs text)).1 ∧
    (upsertSpecsToMemgraph (extractRfcSpecs text)).2 = [] := by
  have hall : ∀ s ∈ extractRfcSpecs text, isValidSpecId s.id = true ∧
      s.type = SpecType.rfc ∧ s.relationships = none := by
    intro s hs
    obtain ⟨num, hne, hdig, rfl⟩ := extractRfcSpecs_shape text s hs
    exact ⟨valid_rfc_id num hne hdig, rfl, rfl⟩
  obtain ⟨hv, hty, _⟩ := hall spec h
  refine ⟨hv, ?_, ?_⟩
  · simp only [upsertSpecsToMemgraph]
    exact List.mem_append_left _ (upsertNodes_mem_rfc _ spec h hty hv)
  · simp only [upsertSpecsToMemgraph]
    rw [upsertNodes_no_warnings _ (fun s hs => (hall s hs).1),
      upsertEdges_none _ (fun s hs => (hall s hs).2.2)]
    rfl



/-! C7 machinery -/

structure GraphContext where
  nodes : List Value
  edges : List Value

structure ParsedReport where
  summary : String
  overallHealth : String
  endpoints : List Value
  rfcsCited : List String
  owaspCited : List String

structure ComplianceReport where
  summary : String
  overallHealth : String
  endpoints : List Value
  rfcsCited : List String
  owaspCited : List String
  graphContext : GraphContext
  timestamp : String

def analyzeComplianceWithGroq (parsed : Option ParsedReport)
    (specs : List EnrichedSpec) (graphContext : GraphContext)
    (now : String) (rawContent : String) : ComplianceReport :=
  match parsed with
  | some r =>
    ⟨r.summary, r.overallHealth, r.endpoints, r.rfcsCited, r.owaspCited, graphContext, now⟩
  | none =>
    ⟨rawContent, "degraded", [],
      (specs.filter (fun s => s.type = SpecType.rfc)).map (fun s => s.id),
      (specs.filter (fun s => s.type = SpecType.owasp)).map (fun s => s.id),
      graphContext, now⟩

def c7Specs : List EnrichedSpec := [⟨.rfc, "RFC7231", "RFC 7231", some [], none, none⟩]

/-- Counterexample to C7 as stated: when the completion output parses
successfully, its citation lists are copied into the finalized
`ComplianceReport` unchecked, so a report can cite `RFC9999` although the
preceding upsert phase wrote no such node. -/
theorem C7_unchecked_citation_cex :
    "RFC9999" ∈ (analyzeComplianceWithGroq
      (some ⟨"ok", "healthy", [], ["RFC9999"], []⟩) c7Specs ⟨[], []⟩ "t" "raw").rfcsCited ∧
    (runQueries [] (upsertSpecsToMemgraph c7Specs).1).all
      (fun n => !(n.id = "RFC9999")) = true := by
  exact ⟨by simp [analyzeComplianceWithGroq], by decide⟩

theorem applyQuery_preserves (st : List GraphNode) (q : GraphQuery) (i : String)
    (h : st.any (fun n => n.id = i) = true) :
    (applyQuery st q).any (fun n => n.id = i) = true := by
  obtain ⟨n0, hn0, hid⟩ := List.any_eq_true.mp h
  cases q with
  | mergeRfc j t =>
    simp only [applyQuery]
    split
    · refine List.any_eq_true.mpr ?_
      by_cases hc : (n0.label = "RFC" && n0.id = j) = true
      · exact ⟨{ n0 with props := setProp "title" t n0.props },
          List.mem_map.mpr ⟨n0, hn0, by simp [hc]⟩, hid⟩
      · exact ⟨n0, List.mem_map.mpr ⟨n0, hn0, by simp [hc]⟩, hid⟩
    · exact List.any_eq_true.mpr ⟨n0, by simp [hn0], hid⟩
  | mergeOwasp j t v =>
    simp only [applyQuery]
    split
    · refine List.any_eq_true.mpr ?_
      by_cases hc : (n0.label = "OWASP" && n0.id = j) = true
      · exact ⟨{ n0 with props := setProp "version" v (setProp "title" t n0.props) },
          List.mem_map.mpr ⟨n0, hn0, by simp [hc]⟩, hid⟩
      · exact ⟨n0, List.mem_map.mpr ⟨n0, hn0, by simp [hc]⟩, hid⟩
    · exact List.any_eq_true.mpr ⟨n0, by simp [hn0], hid⟩
  | mergeEdge a b c => exact h

theorem runQueries_preserves (qs : List GraphQuery) :
    ∀ st i, st.any (fun n => n.id = i) = true →
      (runQueries st qs).any (fun n => n.id = i) = true := by
  induction qs with
  | nil => intro st i h; exact h
  | cons q rest ih =>
    intro st i h
    simp only [runQueries, List.foldl_cons]
    exact ih _ i (applyQuery_preserves st q i h)

theorem applyQuery_self_rfc (st : List GraphNode) (i t : String) :
    ((applyQuery st (.mergeRfc i t)).any (fun n => n.id = i)) = true := by
  simp only [applyQuery]
  split
  case isTrue hex =>
    obtain ⟨n0, hn0, hc⟩ := List.any_eq_true.mp hex
    refine List.any_eq_true.mpr ?_
    refine ⟨{ n0 with props := setProp "title" t n0.props },
      List.mem_map.mpr ⟨n0, hn0, by simp [hc]⟩, ?_⟩
    simp only [Bool.and_eq_true] at hc
    simpa using hc.2
  case isFalse =>
    refine List.any_eq_true.mpr ⟨⟨"RFC", i, [("title", t)]⟩, by simp, by simp⟩

theorem applyQuery_self_owasp (st : List GraphNode) (i t v : String) :
    ((applyQuery st (.mergeOwasp i t v)).any (fun n => n.id = i)) = true := by
  simp only [applyQuery]
  split
  case isTrue hex =>
    obtain ⟨n0, hn0, hc⟩ := List.any_eq_true.mp hex
    refine List.any_eq_true.mpr ?_
    refine ⟨{ n0 with props := setProp "version" v (setProp "title" t n0.props) },
      List.mem_map.mpr ⟨n0, hn0, by simp [hc]⟩, ?_⟩
    simp only [Bool.and_eq_true] at hc
    simpa using hc.2
  case isFalse =>
    refine List.any_eq_true.mpr ⟨⟨"OWASP", i, [("title", t), ("version", v)]⟩, by simp, by simp⟩

theorem node_exists_after_nodes :
    ∀ specs : List EnrichedSpec, ∀ st, ∀ s ∈ specs, isValidSpecId s.id = true →
      (runQueries st (upsertNodes specs).1).any (fun n => n.id = s.id) = true := by
  intro specs
  induction specs with
  | nil => intro st s h; simp at h
  | cons s0 rest ih =>
    intro st s hmem hv
    rcases List.mem_cons.mp hmem with rfl | hmem
    · simp only [upsertNodes, hv, if_true]
      cases hty : s.type with
      | rfc =>
        simp only [runQueries, List.foldl_cons]
        exact runQueries_preserves _ _ _ (applyQuery_self_rfc st s.id _)
      | owasp =>
        simp only [runQueries, List.foldl_cons]
        exact runQueries_preserves _ _ _ (applyQuery_self_owasp st s.id _ _)
    · simp only [upsertNodes]
      split
      · split <;>
        · simp only [runQueries, List.foldl_cons]
          exact ih _ s hmem hv
      · exact ih st s hmem hv

theorem upsertEdges_only_edges :
    ∀ specs : List EnrichedSpec, ∀ q ∈ (upsertEdges specs).1,
      ∃ a b c, q = GraphQuery.mergeEdge a b c := by
  intro specs
  induction specs with
  | nil => intro q hq; simp [upsertEdges] at hq
  | cons s rest ih =>
    intro q hq
    simp only [upsertEdges, List.mem_append] at hq
    rcases hq with hq | hq
    · exact edgeLoop_only_edges s.id _ q hq
    · exact ih q hq

theorem node_exists_after_upsert (specs : List EnrichedSpec) (s : EnrichedSpec)
    (hmem : s ∈ specs) (hv : isValidSpecId s.id = true) :
    (runQueries [] (upsertSpecsToMemgraph specs).1).any (fun n => n.id = s.id) = true := by
  simp only [upsertSpecsToMemgraph]
  rw [runQueries_append, runQueries_edges _ _ (upsertEdges_only_edges specs)]
  exact node_exists_after_nodes specs [] s hmem hv

/-- C7 (amended).  Only in the parse-failure fallback branch are a
report's cited ids exactly the discovered specs' ids, and those then
exist as graph nodes written by the preceding upsert phase provided every
spec id passes `isValidSpecId`; citations of a successfully parsed
completion are not checked against the store (and OWASP catalog ids such
as `A03:2021` fail validation, so they are never written). -/
theorem C7_fallback_citations_exist (specs : List EnrichedSpec) (gc : GraphContext)
    (now raw : String) (i : String)
    (hvalid : ∀ s ∈ specs, isValidSpecId s.id = true)
    (hcited : i ∈ (analyzeComplianceWithGroq none specs gc now raw).rfcsCited ∨
      i ∈ (analyzeComplianceWithGroq none specs gc now raw).owaspCited) :
    (runQueries [] (upsertSpecsToMemgraph specs).1).any (fun n => n.id = i) = true := by
  have : ∃ s ∈ specs, s.id = i := by
    rcases hcited with hc | hc <;>
      simp only [analyzeComplianceWithGroq, List.mem_map, List.mem_filter] at hc <;>
      obtain ⟨s, ⟨hs, _⟩, rfl⟩ := hc <;>
      exact ⟨s, hs, rfl⟩
  obtain ⟨s, hs, rfl⟩ := this
  exact node_exists_after_upsert specs s hs (hvalid s hs)

/-- Executable contiguous-substring check. -/
def containsSub (w : List Char) : List Char → Bool
  | [] => w.isEmpty
  | c :: t => w.isPrefixOf (c :: t) || containsSub w t

/-! C9 machinery -/

/-- `runAuditOnSampleApi` (auditEngine.ts lines 15-63): the strictly
sequential pipeline with a `finally` that closes the sandbox.  The
external effects (E2B sandbox, MCP discovery, Groq analysis) are
parameters; per JavaScript semantics an error thrown by the `finally`
block's close replaces the body's outcome, and otherwise the body's
outcome — the report or the propagated stage error, unmodified — is
returned. -/
def runAuditOnSampleApi {e s r x t g w : Type}
    (createSandbox : Except e s)
    (runSampleApiInSandbox : s → Except e Unit)
    (probeSampleApi : s → Except e r)
    (sanitizeHttpExchanges : r → x)
    (discoverAndUpsertSpecs : x → Except e t)
    (fetchGraphContextForFindings : t → Except e g)
    (analyzeCompliance : x → t → g → Except e w)
    (closeSandbox : s → Except e Unit) : Except e w :=
  match createSandbox with
  | .error err => .error err
  | .ok sandbox =>
    let body : Except e w :=
      match runSampleApiInSandbox sandbox with
      | .error err => .error err
      | .ok _ =>
        match probeSampleApi sandbox with
        | .error err => .error err
        | .ok rawExchanges =>
          let sanitizedExchanges := sanitizeHttpExchanges rawExchanges
          match discoverAndUpsertSpecs sanitizedExchanges with
          | .error err => .error err
          | .ok specs =>
            match fetchGraphContextForFindings specs with
            | .error err => .error err
            | .ok graphContext =>
              analyzeCompliance sanitizedExchanges specs graphContext
    match closeSandbox sandbox with
    | .error err2 => .error err2
    | .ok _ => body

/-- Counterexample to C9 as stated: with the gateway unreachable during
the probe stage, the orchestrator propagates the stage's raw error — a
value carrying no `\"Probe\"` tag and no `GatewayError` wrapper (no such
class exists in the code). -/
theorem C9_no_state_tag_cex :
    @runAuditOnSampleApi String Unit Unit Unit Unit Unit Unit
      (.ok ()) (fun _ => .ok ()) (fun _ => .error "fetch failed: gateway unreachable")
      (fun _ => ()) (fun _ => .ok ()) (fun _ => .ok ()) (fun _ _ _ => .ok ())
      (fun _ => .ok ()) = .error "fetch failed: gateway unreachable" ∧
    containsSub ("Probe".data) ("fetch failed: gateway unreachable".data) = false :=
  ⟨rfl, by decide⟩

/-- C9 (amended).  A failure at any orchestrator state aborts the run
and propagates the failing stage's error to the caller unmodified — with
no state-name tag — and no report is emitted; the sandbox is closed by
the `finally` block (whose own failure would replace the outcome). -/
theorem C9_error_propagates_untagged {e s r x t g w : Type}
    (create : Except e s) (runS : s → Except e Unit) (probe : s → Except e r)
    (san : r → x) (disc : x → Except e t) (fetch : t → Except e g)
    (ana : x → t → g → Except e w) (close : s → Except e Unit) (err : e) :
    (create = .error err →
      runAuditOnSampleApi create runS probe san disc fetch ana close = .error err) ∧
    (∀ sb, create = .ok sb → close sb = .ok () → runS sb = .error err →
      runAuditOnSampleApi create runS probe san disc fetch ana close = .error err) ∧
    (∀ sb, create = .ok sb → close sb = .ok () → runS sb = .ok () →
      probe sb = .error err →
      runAuditOnSampleApi create runS probe san disc fetch ana close = .error err) ∧
    (∀ sb raw, create = .ok sb → close sb = .ok () → runS sb = .ok () →
      probe sb = .ok raw → disc (san raw) = .error err →
      runAuditOnSampleApi create runS probe san disc fetch ana close = .error err) ∧
    (∀ sb raw specs, create = .ok sb → close sb = .ok () → runS sb = .ok () →
      probe sb = .ok raw → disc (san raw) = .ok specs → fetch specs = .error err →
      runAuditOnSampleApi create runS probe san disc fetch ana close = .error err) ∧
    (∀ sb raw specs gc, create = .ok sb → close sb = .ok () → runS sb = .ok () →
      probe sb = .ok raw → disc (san raw) = .ok specs → fetch specs = .ok gc →
      ana (san raw) specs gc = .error err →
      runAuditOnSampleApi create runS probe san disc fetch ana close = .error err) := by
  refine ⟨?_, ?_, ?_, ?_, ?_, ?_⟩
  · intro h; simp [runAuditOnSampleApi, h]
  · intro sb h1 h2 h3; simp [runAuditOnSampleApi, h1, h2, h3]
  · intro sb h1 h2 h3 h4; simp [runAuditOnSampleApi, h1, h2, h3, h4]
  · intro sb raw h1 h2 h3 h4 h5; simp [runAuditOnSampleApi, h1, h2, h3, h4, h5]
  · intro sb raw specs h1 h2 h3 h4 h5 h6
    simp [runAuditOnSampleApi, h1, h2, h3, h4, h5, h6]
  · intro sb raw specs gc h1 h2 h3 h4 h5 h6 h7
    simp [runAuditOnSampleApi, h1, h2, h3, h4, h5, h6, h7]


/-! ## Claim C5: validation before interpolation -/

/-- A spec whose id fails the identifier grammar but which carries a
relationship with a valid target and type. -/
def c5BadSpec : EnrichedSpec :=
  ⟨.rfc, "bad id", "Title", none, some [⟨"CITES", "RFC7231"⟩], none⟩

/-- C5.  The claim states that every id interpolated into a graph query
has first passed `isValidSpecId` and that an entity failing validation
gets no query at all.  The relationship loop of `upsertSpecsToMemgraph`
violates this: it validates `rel.targetId` and `rel.type` but interpolates
the surrounding `spec.id` unvalidated, so a spec with an invalid id is
skipped by the node phase (with a warning) yet still produces an edge
query whose text contains the raw invalid id. -/
theorem C5_unvalidated_id_in_edge_query :
    isValidSpecId "bad id" = false ∧
    (upsertSpecsToMemgraph [c5BadSpec]).1 =
      [GraphQuery.mergeEdge "bad id" "CITES" "RFC7231"] ∧
    (upsertSpecsToMemgraph [c5BadSpec]).2 = ["Skipping invalid spec ID: bad id"] ∧
    containsSub ("bad id".data)
      ((renderQuery (GraphQuery.mergeEdge "bad id" "CITES" "RFC7231")).data) = true := by
  refine ⟨by decide, by decide, by decide, by decide⟩

/-! ## Claim C6: counterexample and witness -/

/-- An OWASP spec carrying the catalog id `A03:2021`, whose colon fails
the identifier grammar. -/
def c6Owasp (t : String) : EnrichedSpec :=
  ⟨.owasp, "A03:2021", t, none, none, some "2021"⟩

def c6RfcX : EnrichedSpec := ⟨.rfc, "X1", "t1", none, none, none⟩

def c6OwaspX : EnrichedSpec := ⟨.owasp, "X1", "t2", none, none, some "2021"⟩

/-- Counterexample to C6 as stated: upserting the id `A03:2021` (an
actual id produced by the OWASP extractor) twice yields no node at all —
the id fails the grammar and both upserts are skipped — and upserting the
same id under two different kinds yields two nodes, not one. -/
theorem C6_upsert_claim_cex :
    runQueries [] ((upsertSpecsToMemgraph [c6Owasp "Injection"]).1 ++
      (upsertSpecsToMemgraph [c6Owasp "Injection v2"]).1) = [] ∧
    ((runQueries [] ((upsertSpecsToMemgraph [c6RfcX]).1 ++
      (upsertSpecsToMemgraph [c6OwaspX]).1)).filter (fun n => n.id = "X1")).length = 2 := by
  refine ⟨by decide, by decide⟩

def c6S1 : EnrichedSpec := ⟨.rfc, "RFC7231", "HTTP old", none, none, none⟩

def c6S2 : EnrichedSpec := ⟨.rfc, "RFC7231", "HTTP new", none, none, none⟩

/-- Witness for C6 at concrete inputs: two upserts of `RFC7231` with
different titles leave exactly one node carrying the latest title. -/
theorem C6_valid_id_upsert_idempotent_witness :
    runQueries [] ((upsertSpecsToMemgraph [c6S1]).1 ++ (upsertSpecsToMemgraph [c6S2]).1) =
      [⟨"RFC", "RFC7231", [("title", "HTTP new")]⟩] :=
  (C6_valid_id_upsert_idempotent c6S1 c6S2 rfl rfl (by decide)).trans (by decide)

/-! ## Claim C7: witness -/

/-- Witness for C7's amended statement at concrete inputs. -/
theorem C7_fallback_citations_exist_witness :
    (∀ s ∈ c7Specs, isValidSpecId s.id = true) ∧
    ("RFC7231" ∈ (analyzeComplianceWithGroq none c7Specs ⟨[], []⟩ "t" "raw").rfcsCited ∨
      "RFC7231" ∈ (analyzeComplianceWithGroq none c7Specs ⟨[], []⟩ "t" "raw").owaspCited) ∧
    (runQueries [] (upsertSpecsToMemgraph c7Specs).1).any
      (fun n => n.id = "RFC7231") = true := by
  refine ⟨by decide, Or.inl (by decide), ?_⟩
  exact C7_fallback_citations_exist c7Specs ⟨[], []⟩ "t" "raw" "RFC7231"
    (by decide) (Or.inl (by decide))

/-! ## Claim C9: witness -/

/-- Witness for C9's amended statement: a concrete probe-stage failure
propagates as the raw error. -/
theorem C9_error_propagates_untagged_witness :
    @runAuditOnSampleApi String Unit Unit Unit Unit Unit Unit
      (.ok ()) (fun _ => .ok ()) (fun _ => .error "boom") (fun _ => ())
      (fun _ => .ok ()) (fun _ => .ok ()) (fun _ _ _ => .ok ())
      (fun _ => .ok ()) = .error "boom" :=
  (C9_error_propagates_untagged (.ok ()) (fun _ => .ok ()) (fun _ => .error "boom")
    (fun _ => ()) (fun _ => .ok ()) (fun _ => .ok ()) (fun _ _ _ => .ok ())
    (fun _ => .ok ()) "boom").2.2.1 () rfl rfl rfl rfl

/-! ## Claim C10: witness -/

def c10Spec : EnrichedSpec := ⟨.rfc, "RFC7231", "RFC 7231", some [], none, none⟩

/-- Witness for C10 at a concrete text (with a repeated mention that the
`Set` deduplicates). -/
theorem C10_rfc_ids_never_dropped_witness :
    c10Spec ∈ extractRfcSpecs "see RFC 7231 and rfc7231." ∧
    (isValidSpecId c10Spec.id = true ∧
     GraphQuery.mergeRfc c10Spec.id (escapeCypher c10Spec.title) ∈
       (upsertSpecsToMemgraph (extractRfcSpecs "see RFC 7231 and rfc7231.")).1 ∧
     (upsertSpecsToMemgraph (extractRfcSpecs "see RFC 7231 and rfc7231.")).2 = []) := by
  refine ⟨by decide, ?_⟩
  exact C10_rfc_ids_never_dropped "see RFC 7231 and rfc7231." c10Spec (by decide)




/-! ## Generic facts about the declarative match semantics -/

/-- Sum of the mandatory minimum counts of an item sequence: a lower bound
on the length of any match. -/
def sumLo : List RItem → Nat
  | [] => 0
  | .cls _ lo _ :: rest => lo + sumLo rest
  | .wordB :: rest => sumLo rest

theorem matchSem_le_length {items : List RItem} {prev : Option Char}
    {s : List Char} {n : Nat} (h : MatchSem items prev s n) : n ≤ s.length := by
  induction h with
  | nil => simp
  | word _ _ _ _ _ _ ih => exact ih
  | cls p lo hi rest prev s k m _ _ hlen _ _ ih =>
    rw [List.length_drop] at ih
    omega

theorem matchSem_sumLo {items : List RItem} {prev : Option Char}
    {s : List Char} {n : Nat} (h : MatchSem items prev s n) : sumLo items ≤ n := by
  induction h with
  | nil => simp [sumLo]
  | word rest _ _ _ _ _ ih => simpa [sumLo] using ih
  | cls p lo hi rest prev s k m hlo _ _ _ _ ih =>
    simp only [sumLo]
    omega

theorem matchSem_all_union {u : Char → Bool} {items : List RItem}
    {prev : Option Char} {s : List Char} {n : Nat} (h : MatchSem items prev s n)
    (hresp : ∀ p lo hi, RItem.cls p lo hi ∈ items → ∀ c, p c = true → u c = true) :
    (s.take n).all u = true := by
  induction h with
  | nil => simp
  | word rest prev s n _ _ ih =>
    exact ih fun p lo hi hmem => hresp p lo hi (List.mem_cons_of_mem _ hmem)
  | cls p lo hi rest prev s k m _ _ hlen hall _ ih =>
    have h1 : (s.take k).all u = true := by
      rw [List.all_eq_true] at hall ⊢
      exact fun c hc => hresp p lo hi (List.mem_cons_self _ _) c (hall c hc)
    have h2 := ih fun p' lo' hi' hmem => hresp p' lo' hi' (List.mem_cons_of_mem _ hmem)
    rw [List.take_add, List.all_append, h1, h2]
    rfl

theorem matchSem_mem {p0 : Char → Bool} {items : List RItem}
    {prev : Option Char} {s : List Char} {n : Nat} (h : MatchSem items prev s n)
    (hreq : ∃ lo hi, RItem.cls p0 lo hi ∈ items ∧ 1 ≤ lo) :
    ∃ c ∈ s.take n, p0 c = true := by
  induction h with
  | nil =>
    obtain ⟨lo, hi, hmem, _⟩ := hreq
    exact absurd hmem (List.not_mem_nil _)
  | word rest prev s n _ _ ih =>
    obtain ⟨lo, hi, hmem, hlo⟩ := hreq
    rcases List.mem_cons.mp hmem with heq | hmem'
    · exact absurd heq (by simp)
    · exact ih ⟨lo, hi, hmem', hlo⟩
  | cls p lo hi rest prev s k m hlo' _ hlen hall _ ih =>
    obtain ⟨lo0, hi0, hmem, hlo0⟩ := hreq
    rcases List.mem_cons.mp hmem with heq | hmem'
    · cases heq
      have hk1 : 1 ≤ k := le_trans hlo0 hlo'
      have hne : s.take k ≠ [] := by
        intro h0
        have := List.length_take k s
        rw [h0] at this
        simp at this
        omega
      obtain ⟨c, hc⟩ := List.exists_mem_of_ne_nil _ hne
      refine ⟨c, ?_, List.all_eq_true.mp hall c hc⟩
      rw [List.take_add]
      exact List.mem_append_left _ hc
    · obtain ⟨c, hc, hpc⟩ := ih ⟨lo0, hi0, hmem', hlo0⟩
      refine ⟨c, ?_, hpc⟩
      rw [List.take_add]
      exact List.mem_append_right _ hc

theorem forall2_split {R : Char → Char → Prop} :
    ∀ {a : List Char} {b a' b' : List Char}, List.Forall₂ R (a ++ b) (a' ++ b') →
      a.length = a'.length → List.Forall₂ R a a' ∧ List.Forall₂ R b b' := by
  intro a
  induction a with
  | nil =>
    intro b a' b' h hl
    cases a' with
    | nil => exact ⟨List.Forall₂.nil, by simpa using h⟩
    | cons c a'' => simp at hl
  | cons c a ih =>
    intro b a' b' h hl
    cases a' with
    | nil => simp at hl
    | cons c' a'' =>
      simp only [List.cons_append] at h
      cases h with
      | cons hR htail =>
        obtain ⟨h1, h2⟩ := ih htail (by simpa using hl)
        exact ⟨List.Forall₂.cons hR h1, h2⟩

theorem all_of_forall2 {R : Char → Char → Prop} {p : Char → Bool}
    (hresp : ∀ c c', R c c' → p c = p c') :
    ∀ {a a' : List Char}, List.Forall₂ R a a' → a.all p = true → a'.all p = true := by
  intro a a' h
  induction h with
  | nil => simp
  | @cons c c' l l' hR _ ih =>
    intro hall
    simp only [List.all_cons, Bool.and_eq_true] at hall ⊢
    exact ⟨by rw [← hresp c c' hR]; exact hall.1, ih hall.2⟩

/-- Pointwise transfer of a match along a character relation respected by
every class of a word-boundary-free pattern. -/
theorem matchSem_rel {R : Char → Char → Prop} {items : List RItem}
    {prev : Option Char} {s : List Char} {n : Nat} (h : MatchSem items prev s n)
    (hresp : ∀ p lo hi, RItem.cls p lo hi ∈ items → ∀ c c', R c c' → p c = p c')
    (hwb : RItem.wordB ∉ items) :
    ∀ {prev' : Option Char} {s' : List Char}, List.Forall₂ R (s.take n) (s'.take n) →
      n ≤ s'.length → MatchSem items prev' s' n := by
  induction h with
  | nil => intro prev' s' _ _; exact MatchSem.nil _ _
  | word rest prev s n _ _ _ =>
    exact absurd (List.mem_cons_self _ _) hwb
  | cls p lo hi rest prev s k m hlo hhi hlen hall _ ih =>
    intro prev' s' hrel hlen'
    rw [List.take_add, List.take_add] at hrel
    have hk2 : k ≤ s'.length := le_trans (Nat.le_add_right k m) hlen'
    obtain ⟨h1, h2⟩ := forall2_split hrel
      (by rw [List.length_take, List.length_take]; omega)
    have hall' : (s'.take k).all p = true := by
      refine all_of_forall2 ?_ h1 hall
      exact fun c c' hcc => hresp p lo hi (List.mem_cons_self _ _) c c' hcc
    refine MatchSem.cls p lo hi rest prev' s' k m hlo hhi hk2 hall' ?_
    refine ih (fun p' lo' hi' hmem => hresp p' lo' hi' (List.mem_cons_of_mem _ hmem))
      (fun hmem => hwb (List.mem_cons_of_mem _ hmem)) h2 ?_
    rw [List.length_drop]
    omega

theorem forall2_eq_self : ∀ (l : List Char), List.Forall₂ (fun a b : Char => a = b) l l := by
  intro l
  induction l with
  | nil => exact List.Forall₂.nil
  | cons c t ih => exact List.Forall₂.cons rfl ih

theorem matchSem_take_eq {items : List RItem} {prev : Option Char}
    {s : List Char} {n : Nat} (h : MatchSem items prev s n)
    (hwb : RItem.wordB ∉ items) {prev' : Option Char} {s' : List Char}
    (heq : s.take n = s'.take n) (hl : n ≤ s'.length) :
    MatchSem items prev' s' n := by
  have hr : List.Forall₂ (fun a b : Char => a = b) (s.take n) (s'.take n) := by
    rw [heq]
    exact forall2_eq_self _
  exact matchSem_rel h (fun p lo hi _ c c' hcc => by rw [hcc]) hwb hr hl

theorem matchSem_prev_irrel {items : List RItem} {prev : Option Char}
    {s : List Char} {n : Nat} (h : MatchSem items prev s n)
    (hwb : RItem.wordB ∉ items) (prev' : Option Char) :
    MatchSem items prev' s n :=
  matchSem_take_eq h hwb rfl (matchSem_le_length h)

/-! ## Soundness of the backtracking matcher -/

theorem charRun_le_length {p : Char → Bool} : ∀ {s : List Char}, charRun p s ≤ s.length := by
  intro s
  induction s with
  | nil => simp [charRun]
  | cons c cs ih =>
    simp only [charRun]
    by_cases hc : p c = true
    · simp only [hc, if_true, List.length_cons]
      omega
    · rw [if_neg hc]
      simp

theorem charRun_take_all {p : Char → Bool} :
    ∀ {k : Nat} {s : List Char}, k ≤ charRun p s → (s.take k).all p = true := by
  intro k
  induction k with
  | zero => intro s _; simp
  | succ k ih =>
    intro s hk
    cases s with
    | nil => simp [charRun] at hk
    | cons c cs =>
      simp only [charRun] at hk
      by_cases hc : p c = true
      · rw [if_pos hc] at hk
        simp only [List.take_succ_cons, List.all_cons, hc, Bool.true_and]
        exact ih (by omega)
      · rw [if_neg hc] at hk
        omega

theorem charRun_drop_head {p : Char → Bool} :
    ∀ {s : List Char} {c : Char} {l : List Char},
      s.drop (charRun p s) = c :: l → p c = false := by
  intro s
  induction s with
  | nil => intro c l h; simp at h
  | cons c0 cs ih =>
    intro c l h
    simp only [charRun] at h
    by_cases hc : p c0 = true
    · rw [if_pos hc] at h
      exact ih (by simpa using h)
    · rw [if_neg hc] at h
      simp only [List.drop_zero] at h
      cases h
      exact Bool.eq_false_iff.mpr (fun hcc => hc hcc)

theorem charRun_append_all {p : Char → Bool} :
    ∀ {a : List Char}, a.all p = true →
      ∀ b, charRun p (a ++ b) = a.length + charRun p b := by
  intro a
  induction a with
  | nil => intro _ b; simp
  | cons c cs ih =>
    intro ha b
    simp only [List.all_cons, Bool.and_eq_true] at ha
    rw [List.cons_append]
    simp only [charRun, ha.1, if_true]
    rw [ih ha.2 b, List.length_cons]
    omega

theorem tryCount_sound {next : Option Char → List Char → Option Nat}
    {prev : Option Char} {s : List Char} {lo : Nat} :
    ∀ {h m : Nat}, tryCount next prev s lo h = some m →
      ∃ k n, m = k + n ∧ lo ≤ k ∧ k ≤ h ∧
        next (prevAfter prev s k) (s.drop k) = some n := by
  intro h
  induction h with
  | zero =>
    intro m hm
    rw [tryCount_zero_eq] at hm
    by_cases h0 : 0 < lo
    · simp [h0] at hm
    · rw [if_neg h0] at hm
      rcases he : next prev s with _ | n <;> rw [he] at hm
      · exact absurd hm (by simp)
      · injection hm with hm2
        subst hm2
        exact ⟨0, n, by omega, by omega, Nat.le_refl 0,
          by simpa [prevAfter] using he⟩
  | succ h ih =>
    intro m hm
    rw [tryCount_succ_eq] at hm
    by_cases hlt : h + 1 < lo
    · simp [hlt] at hm
    · rw [if_neg hlt] at hm
      rcases he : next (prevAfter prev s (h + 1)) (s.drop (h + 1)) with _ | n <;>
        rw [he] at hm
      · obtain ⟨k, n, h1, h2, h3, h4⟩ := ih hm
        exact ⟨k, n, h1, h2, Nat.le_succ_of_le h3, h4⟩
      · injection hm with hm2
        subst hm2
        exact ⟨h + 1, n, rfl, by omega, Nat.le_refl _, he⟩

theorem matchItems_sound :
    ∀ {items : List RItem} {prev : Option Char} {s : List Char} {n : Nat},
      matchItems items prev s = some n → MatchSem items prev s n := by
  intro items
  induction items with
  | nil =>
    intro prev s n h
    simp only [matchItems] at h
    cases h
    exact MatchSem.nil _ _
  | cons it rest ih =>
    intro prev s n h
    cases it with
    | wordB =>
      simp only [matchItems] at h
      by_cases hb : atBoundary prev s = true
      · rw [if_pos hb] at h
        exact MatchSem.word _ _ _ _ hb (ih h)
      · rw [if_neg hb] at h
        exact absurd h (by simp)
    | cls p lo hi =>
      simp only [matchItems] at h
      by_cases hlt : min (hi.getD (charRun p s)) (charRun p s) < lo
      · rw [if_pos hlt] at h
        exact absurd h (by simp)
      · rw [if_neg hlt] at h
        obtain ⟨k, n', hm, hlo, hkh, hnext⟩ := tryCount_sound h
        have hrun : k ≤ charRun p s := le_trans hkh (min_le_right _ _)
        have hall : (s.take k).all p = true := charRun_take_all hrun
        have hlen : k ≤ s.length := le_trans hrun charRun_le_length
        have hhi : k ≤ hi.getD k := by
          rcases hi with _ | b
          · simp
          · simp only [Option.getD_some]
            exact le_trans hkh (by simp)
        subst hm
        exact MatchSem.cls p lo hi rest prev s k n' hlo hhi hlen hall (ih hnext)

/-- A pattern whose mandatory counts sum to at least one can never match
the empty prefix. -/
theorem no_empty_match {pat : List RItem} (h1 : 1 ≤ sumLo pat) :
    ∀ (pv : Option Char) (t : List Char), matchItems pat pv t ≠ some 0 := by
  intro pv t h
  have := matchSem_sumLo (matchItems_sound h)
  omega

/-! ## Operational prev-irrelevance for word-boundary-free patterns -/

theorem tryCount_congr {next next' : Option Char → List Char → Option Nat}
    (hn : ∀ pv pv' t, next pv t = next' pv' t) {prev prev' : Option Char}
    {s : List Char} {lo : Nat} :
    ∀ k, tryCount next prev s lo k = tryCount next' prev' s lo k := by
  intro k
  induction k with
  | zero =>
    rw [tryCount_zero_eq, tryCount_zero_eq, hn prev prev' s]
  | succ k ih =>
    rw [tryCount_succ_eq, tryCount_succ_eq,
      hn (prevAfter prev s (k + 1)) (prevAfter prev' s (k + 1)) (s.drop (k + 1)), ih]

theorem matchItems_prev_irrel :
    ∀ {items : List RItem}, RItem.wordB ∉ items →
      ∀ (prev prev' : Option Char) (s : List Char),
        matchItems items prev s = matchItems items prev' s := by
  intro items
  induction items with
  | nil => intro _ _ _ _; rfl
  | cons it rest ih =>
    intro hwb prev prev' s
    cases it with
    | wordB => exact absurd (List.mem_cons_self _ _) hwb
    | cls p lo hi =>
      have hrest : RItem.wordB ∉ rest := fun h => hwb (List.mem_cons_of_mem _ h)
      simp only [matchItems]
      by_cases hlt : min (hi.getD (charRun p s)) (charRun p s) < lo
      · rw [if_pos hlt, if_pos hlt]
      · rw [if_neg hlt, if_neg hlt]
        exact tryCount_congr (fun pv pv' t => ih hrest pv pv' t) _

theorem scanAux_prev_irrel {pat : List RItem} {repl : List Char}
    (hwb : RItem.wordB ∉ pat) :
    ∀ (fuel : Nat) (prev prev' : Option Char) (s : List Char),
      scanAux pat repl fuel prev s = scanAux pat repl fuel prev' s := by
  intro fuel
  induction fuel with
  | zero =>
    intro prev prev' s
    simp only [scanAux]
    rw [matchItems_prev_irrel hwb prev prev' s]
  | succ fuel ih =>
    intro prev prev' s
    cases s with
    | nil =>
      simp only [scanAux]
      rw [matchItems_prev_irrel hwb prev prev' []]
    | cons c cs =>
      simp only [scanAux]
      rw [matchItems_prev_irrel hwb prev prev' (c :: cs)]
      rcases hm : matchItems pat prev' (c :: cs) with _ | n
      · simp only [hm]
      · cases n with
        | zero => simp only [hm]
        | succ n' =>
          simp only [hm]
          exact congrArg (fun t => repl ++ t) (ih _ _ _)




/-! ## Decomposition of a global-replace scan -/

/-- `Decomp pat repl prev s out` relates the input of one `/g` replace scan
to its output: the output is the input with every matched stretch replaced
by `repl`, every kept character having been tried (and failed) at its
position with the correctly threaded previous character.  It presumes the
pattern admits no empty match. -/
inductive Decomp (pat : List RItem) (repl : List Char) :
    Option Char → List Char → List Char → Prop where
  | done : ∀ prev, matchItems pat prev [] = none → Decomp pat repl prev [] []
  | keep : ∀ prev c s out, matchItems pat prev (c :: s) = none →
      Decomp pat repl (some c) s out → Decomp pat repl prev (c :: s) (c :: out)
  | rep : ∀ prev s w rest out, matchItems pat prev s = some w.length → w ≠ [] →
      s = w ++ rest →
      Decomp pat repl (prevAfter prev s w.length) rest out →
      Decomp pat repl prev s (repl ++ out)

theorem decomp_scan {pat : List RItem} {repl : List Char}
    (hne : ∀ pv t, matchItems pat pv t ≠ some 0) :
    ∀ (fuel : Nat) (prev : Option Char) (s : List Char), s.length ≤ fuel →
      Decomp pat repl prev s (scanAux pat repl fuel prev s) := by
  intro fuel
  induction fuel with
  | zero =>
    intro prev s hl
    have hs : s = [] := List.length_eq_zero.mp (Nat.le_zero.mp hl)
    subst hs
    simp only [scanAux]
    rcases h : matchItems pat prev [] with _ | n
    · exact Decomp.done prev h
    · have hn := matchSem_le_length (matchItems_sound h)
      simp only [List.length_nil, Nat.le_zero] at hn
      subst hn
      exact absurd h (hne _ _)
  | succ fuel ih =>
    intro prev s hl
    cases s with
    | nil =>
      simp only [scanAux]
      rcases h : matchItems pat prev [] with _ | n
      · exact Decomp.done prev h
      · have hn := matchSem_le_length (matchItems_sound h)
        simp only [List.length_nil, Nat.le_zero] at hn
        subst hn
        exact absurd h (hne _ _)
    | cons c cs =>
      simp only [scanAux]
      rcases h : matchItems pat prev (c :: cs) with _ | n
      · exact Decomp.keep _ _ _ _ h
          (ih (some c) cs (by simpa using Nat.le_of_succ_le_succ (by simpa using hl)))
      · cases n with
        | zero => exact absurd h (hne _ _)
        | succ n' =>
          have hlen : n' + 1 ≤ (c :: cs).length :=
            matchSem_le_length (matchItems_sound h)
          have hwlen : ((c :: cs).take (n' + 1)).length = n' + 1 := by
            rw [List.length_take]
            omega
          refine Decomp.rep prev (c :: cs) ((c :: cs).take (n' + 1))
            ((c :: cs).drop (n' + 1)) _ (by rw [hwlen]; exact h) ?_
            (List.take_append_drop _ _).symm ?_
          · intro h0
            rw [h0] at hwlen
            simp at hwlen
          · rw [hwlen]
            exact ih (prevAfter prev (c :: cs) (n' + 1)) ((c :: cs).drop (n' + 1))
              (by rw [List.length_drop]; simp only [List.length_cons] at hl ⊢; omega)

theorem decomp_replaceAll {pat : List RItem} {repl : List Char}
    (hne : ∀ pv t, matchItems pat pv t ≠ some 0) (s : List Char) :
    Decomp pat repl none s (replaceAll pat repl s) :=
  decomp_scan hne s.length none s (Nat.le_refl _)

/-! ## Semantic freedom from a pattern, and scan identity -/

/-- The character preceding the current suffix, given the prefix `u`
already passed and the previous character `prev` at the start of `u`. -/
def threadPrev (prev : Option Char) (u : List Char) : Option Char :=
  match u.getLast? with
  | some d => some d
  | none => prev

theorem threadPrev_cons (prev : Option Char) (c : Char) (u : List Char) :
    threadPrev prev (c :: u) = threadPrev (some c) u := by
  cases u with
  | nil => rfl
  | cons c' u' =>
    have h : (c' :: u').getLast? = some ((c' :: u').getLast (by simp)) :=
      List.getLast?_eq_getLast_of_ne_nil _
    simp only [threadPrev, List.getLast?_cons_cons, h]

theorem threadPrev_append (prev : Option Char) (a u : List Char) :
    threadPrev prev (a ++ u) = threadPrev (threadPrev prev a) u := by
  induction a generalizing prev with
  | nil => rfl
  | cons c a' ih =>
    rw [List.cons_append, threadPrev_cons, ih, threadPrev_cons]

/-- No occurrence of the pattern anywhere in `s` (`prev` being the
character just before `s`), in the declarative semantics. -/
def FreeFrom (pat : List RItem) (prev : Option Char) (s : List Char) : Prop :=
  ∀ u v n, u ++ v = s → ¬ MatchSem pat (threadPrev prev u) v n

theorem freeFrom_nil {pat : List RItem} (h1 : 1 ≤ sumLo pat) (prev : Option Char) :
    FreeFrom pat prev [] := by
  intro u v n huv hm
  have hv : v = [] := by
    have := List.append_eq_nil.mp huv
    exact this.2
  subst hv
  have h2 := matchSem_le_length hm
  have h3 := matchSem_sumLo hm
  simp at h2
  omega

theorem freeFrom_cons {pat : List RItem} {prev : Option Char} {c : Char}
    {s : List Char} (h : FreeFrom pat prev (c :: s)) : FreeFrom pat (some c) s := by
  intro u v n huv hm
  exact h (c :: u) v n (by rw [← huv]; rfl) (by rwa [threadPrev_cons])

theorem freeFrom_append {pat : List RItem} {prev : Option Char} {a s : List Char}
    (h : FreeFrom pat prev (a ++ s)) : FreeFrom pat (threadPrev prev a) s := by
  intro u v n huv hm
  exact h (a ++ u) v n (by rw [← huv, List.append_assoc])
    (by rwa [threadPrev_append])

theorem freeFrom_head {pat : List RItem} {prev : Option Char} {s : List Char}
    (h : FreeFrom pat prev s) {n : Nat} (hm : MatchSem pat prev s n) : False :=
  h [] s n rfl hm

/-- All positions of a scan fail operationally when the string is
semantically free of the pattern. -/
def noMatchAll (pat : List RItem) : Option Char → List Char → Prop
  | prev, [] => matchItems pat prev [] = none
  | prev, c :: cs => matchItems pat prev (c :: cs) = none ∧ noMatchAll pat (some c) cs

theorem noMatchAll_of_freeFrom {pat : List RItem} :
    ∀ {s : List Char} {prev : Option Char}, FreeFrom pat prev s → noMatchAll pat prev s := by
  intro s
  induction s with
  | nil =>
    intro prev h
    simp only [noMatchAll]
    rcases hm : matchItems pat prev [] with _ | n
    · rfl
    · exact absurd (matchItems_sound hm) (h [] [] n rfl)
  | cons c cs ih =>
    intro prev h
    refine ⟨?_, ih (freeFrom_cons h)⟩
    rcases hm : matchItems pat prev (c :: cs) with _ | n
    · rfl
    · exact absurd (matchItems_sound hm) (h [] (c :: cs) n rfl)

theorem scan_id_of_noMatchAll {pat : List RItem} {repl : List Char} :
    ∀ (fuel : Nat) {prev : Option Char} {s : List Char}, s.length ≤ fuel →
      noMatchAll pat prev s → scanAux pat repl fuel prev s = s := by
  intro fuel
  induction fuel with
  | zero =>
    intro prev s hl hnm
    have hs : s = [] := List.length_eq_zero.mp (Nat.le_zero.mp hl)
    subst hs
    simp only [scanAux]
    rw [hnm]
  | succ fuel ih =>
    intro prev s hl hnm
    cases s with
    | nil =>
      simp only [scanAux]
      rw [hnm]
    | cons c cs =>
      simp only [scanAux]
      rw [hnm.1]
      rw [ih (by simpa using Nat.le_of_succ_le_succ (by simpa using hl)) hnm.2]

theorem replaceAll_id_of_freeFrom {pat : List RItem} {repl : List Char}
    {s : List Char} (h : FreeFrom pat none s) : replaceAll pat repl s = s :=
  scan_id_of_noMatchAll s.length (Nat.le_refl _) (noMatchAll_of_freeFrom h)

/-! ## Alignment of output positions with input positions -/

/-- As long as the first replacement character does not occur among the
first `n` output characters, those characters are kept input characters;
and the next position is either the joint end, a joint kept character, or
the start of a replaced match of the pattern. -/
theorem decomp_align {pat : List RItem} {repl : List Char} {rh : Char}
    {rtl : List Char} (hrepl : repl = rh :: rtl) :
    ∀ {prev : Option Char} {s out : List Char}, Decomp pat repl prev s out →
      ∀ n, n ≤ out.length → rh ∉ out.take n →
        out.take n = s.take n ∧ n ≤ s.length ∧
          ((out.drop n = [] ∧ s.drop n = []) ∨
           (∃ c₀ o₂ s₂, out.drop n = c₀ :: o₂ ∧ s.drop n = c₀ :: s₂) ∨
           (∃ o₂ w rest, out.drop n = repl ++ o₂ ∧ s.drop n = w ++ rest ∧ w ≠ [] ∧
             matchItems pat (threadPrev prev (s.take n)) (s.drop n) =
               some w.length)) := by
  intro prev s out hd
  induction hd with
  | done prev hnone =>
    intro n hn _
    simp only [List.length_nil, Nat.le_zero] at hn
    subst hn
    exact ⟨rfl, Nat.le_refl _, Or.inl ⟨rfl, rfl⟩⟩
  | keep prev c s' out' hnone hsub ih =>
    intro n hn hmem
    cases n with
    | zero =>
      exact ⟨rfl, Nat.zero_le _, Or.inr (Or.inl ⟨c, out', s', rfl, rfl⟩)⟩
    | succ m =>
      simp only [List.take_succ_cons] at hmem
      have hmem' : rh ∉ out'.take m := fun hx => hmem (List.mem_cons_of_mem _ hx)
      have hn' : m ≤ out'.length := by
        simp only [List.length_cons] at hn
        omega
      obtain ⟨heq, hle, hnext⟩ := ih m hn' hmem'
      refine ⟨by simp only [List.take_succ_cons, heq], by simp only [List.length_cons]; omega, ?_⟩
      have hthread : threadPrev prev ((c :: s').take (m + 1)) =
          threadPrev (some c) (s'.take m) := by
        rw [List.take_succ_cons, threadPrev_cons]
      rcases hnext with ⟨h1, h2⟩ | ⟨c₀, o₂, s₂, h1, h2⟩ | ⟨o₂, w, rest, h1, h2, h3, h4⟩
      · exact Or.inl ⟨by simpa using h1, by simpa using h2⟩
      · exact Or.inr (Or.inl ⟨c₀, o₂, s₂, by simpa using h1, by simpa using h2⟩)
      · refine Or.inr (Or.inr ⟨o₂, w, rest, by simpa using h1, by simpa using h2, h3, ?_⟩)
        rw [hthread]
        simpa using h4
  | rep prev s₀ w rest out₂ hmatch hwne hs₀ hsub ih =>
    intro n hn hmem
    cases n with
    | zero =>
      refine ⟨rfl, Nat.zero_le _, Or.inr (Or.inr ⟨out₂, w, rest, rfl, hs₀, hwne, ?_⟩)⟩
      simpa using hmatch
    | succ m =>
      exfalso
      apply hmem
      rw [hrepl]
      simp



/-! ## Helper facts about consumed characters -/

theorem not_mem_take_of_union {u : Char → Bool} {l : List Char} {n : Nat}
    (hall : (l.take n).all u = true) {b : Char} (hb : u b = false) :
    b ∉ l.take n := by
  intro hmem
  have := List.all_eq_true.mp hall _ hmem
  rw [hb] at this
  exact absurd this (by simp)

theorem matchSem_head_union {u : Char → Bool} {tgt : List RItem}
    (hresp : ∀ p lo hi, RItem.cls p lo hi ∈ tgt → ∀ c, p c = true → u c = true)
    {pv : Option Char} {c : Char} {t : List Char} {n : Nat}
    (hm : MatchSem tgt pv (c :: t) n) (hn : 1 ≤ n) : u c = true := by
  have hall := matchSem_all_union hm hresp
  cases n with
  | zero => omega
  | succ m =>
    simp only [List.take_succ_cons, List.all_cons, Bool.and_eq_true] at hall
    exact hall.1

theorem mem_take_middle {a w : List Char} {b : Char} {n : Nat} (hn : a.length < n) :
    b ∈ (a ++ b :: w).take n := by
  rw [show n = a.length + (n - a.length) by omega, List.take_append]
  refine List.mem_append_right _ ?_
  have : 1 ≤ n - a.length := by omega
  cases hk : n - a.length with
  | zero => omega
  | succ k =>
    rw [List.take_succ_cons]
    exact List.mem_cons_self _ _

/-! ## Matches starting strictly inside a replacement string -/

/-- Decidable certificate that a pattern cannot match starting at any
offset `t ≥ 1` of the replacement string `r`: at each such offset the run
of characters drawn from the pattern's character classes stops before the
end of `r`, and the stopped segment lacks a required character or is
shorter than the pattern's mandatory length. -/
def segChk (u reqp : Char → Bool) (minLen : Nat) (r : List Char) : Bool :=
  (List.range r.length).all fun t =>
    if t = 0 then true
    else
      ((charRun u (r.drop t) < (r.drop t).length) &&
        (((r.drop t).take (charRun u (r.drop t))).all (fun c => !reqp c) ||
          (charRun u (r.drop t) < minLen) : Bool))

theorem noSemInside {tgt : List RItem} {u reqp : Char → Bool}
    (hresp : ∀ p lo hi, RItem.cls p lo hi ∈ tgt → ∀ c, p c = true → u c = true)
    (hreq : ∃ lo hi, RItem.cls reqp lo hi ∈ tgt ∧ 1 ≤ lo)
    {minLen : Nat} (hmin : minLen ≤ sumLo tgt)
    {r : List Char} (hchk : segChk u reqp minLen r = true) :
    ∀ t z pv n, 1 ≤ t → t < r.length → ¬ MatchSem tgt pv (r.drop t ++ z) n := by
  intro t z pv n ht1 ht2 hm
  have hc := List.all_eq_true.mp hchk t (List.mem_range.mpr ht2)
  rw [if_neg (by omega : ¬ t = 0)] at hc
  simp only [Bool.and_eq_true, Bool.or_eq_true, decide_eq_true_eq] at hc
  obtain ⟨hlt, hdisj⟩ := hc
  have hsplit : ∃ dm dr, (r.drop t).drop (charRun u (r.drop t)) = dm :: dr := by
    cases hdm : (r.drop t).drop (charRun u (r.drop t)) with
    | nil =>
      exfalso
      have hlen0 := congrArg List.length hdm
      rw [List.length_drop] at hlen0
      simp only [List.length_nil] at hlen0
      omega
    | cons dm dr => exact ⟨dm, dr, rfl⟩
  obtain ⟨dm, dr, hdm⟩ := hsplit
  have hudm : u dm = false := charRun_drop_head hdm
  have hall := matchSem_all_union hm hresp
  have hmle : charRun u (r.drop t) ≤ (r.drop t).length := charRun_le_length
  have hstop : n ≤ charRun u (r.drop t) := by
    by_contra hgt
    push_neg at hgt
    have hdz : r.drop t ++ z =
        (r.drop t).take (charRun u (r.drop t)) ++ dm :: (dr ++ z) := by
      conv_lhs => rw [← List.take_append_drop (charRun u (r.drop t)) (r.drop t)]
      rw [hdm]
      simp
    have hmem : dm ∈ (r.drop t ++ z).take n := by
      rw [hdz]
      refine mem_take_middle ?_
      rw [List.length_take]
      omega
    have := List.all_eq_true.mp hall _ hmem
    rw [hudm] at this
    exact absurd this (by simp)
  rcases hdisj with hnoreq | hlen
  · obtain ⟨c, hcmem, hcreq⟩ := matchSem_mem hm hreq
    have h1 : (r.drop t ++ z).take n = (r.drop t).take n :=
      List.take_append_of_le_length (by omega)
    rw [h1] at hcmem
    have h2 : (r.drop t).take n = ((r.drop t).take (charRun u (r.drop t))).take n := by
      rw [List.take_take]
      congr 1
      omega
    rw [h2] at hcmem
    have := List.all_eq_true.mp hnoreq _ (List.mem_of_mem_take hcmem)
    rw [hcreq] at this
    exact absurd this (by simp)
  · have := matchSem_sumLo hm
    omega

/-! ## Generic preservation through a pass with a bracketed replacement -/

theorem preserve_free_brk {tgt : List RItem} {u : Char → Bool}
    (hresp : ∀ p lo hi, RItem.cls p lo hi ∈ tgt → ∀ c, p c = true → u c = true)
    (hwb : RItem.wordB ∉ tgt) (hsum : 1 ≤ sumLo tgt)
    {pat : List RItem} {repl : List Char} {rh : Char} {rtl : List Char}
    (hrepl : repl = rh :: rtl) (hurh : u rh = false)
    (hinside : ∀ t z pv n, 1 ≤ t → t < repl.length →
      ¬ MatchSem tgt pv (repl.drop t ++ z) n) :
    ∀ {prev : Option Char} {s out : List Char}, Decomp pat repl prev s out →
      FreeFrom tgt prev s → FreeFrom tgt prev out := by
  intro prev s out hd
  induction hd with
  | done prev hnone =>
    intro _
    exact freeFrom_nil hsum prev
  | keep prev c s' out' hnone hsub ih =>
    intro hfree
    intro uu v n huv hm
    cases uu with
    | nil =>
      simp only [List.nil_append] at huv
      subst huv
      have hn1 : 1 ≤ n := le_trans hsum (matchSem_sumLo hm)
      have hall := matchSem_all_union hm hresp
      have hnle : n ≤ (c :: out').length := matchSem_le_length hm
      obtain ⟨heq, hle, _⟩ := decomp_align hrepl
        (Decomp.keep prev c s' out' hnone hsub) n hnle
        (not_mem_take_of_union hall hurh)
      exact freeFrom_head hfree (matchSem_take_eq hm hwb heq hle)
    | cons c₀ uu' =>
      simp only [List.cons_append, List.cons.injEq] at huv
      obtain ⟨rfl, huv'⟩ := huv
      rw [threadPrev_cons] at hm
      exact ih (freeFrom_cons hfree) uu' v n huv' hm
  | rep prev s₀ w rest out₂ hmatch hwne hs₀ hsub ih =>
    intro hfree
    intro uu v n huv hm
    have hfree₂ : FreeFrom tgt (prevAfter prev s₀ w.length) rest := by
      have h0 : FreeFrom tgt prev (w ++ rest) := by rwa [← hs₀]
      have h1 : FreeFrom tgt (threadPrev prev w) rest := freeFrom_append h0
      have h2 : threadPrev prev w = prevAfter prev s₀ w.length := by
        have ht : s₀.take w.length = w := by
          rw [hs₀, List.take_append_of_le_length (Nat.le_refl _)]
          simp
        first
          | (simp only [prevAfter, threadPrev, ht]; rfl)
          | simp only [prevAfter, threadPrev, ht]
      rwa [h2] at h1
    have hout₂ := ih hfree₂
    rcases List.append_eq_append_iff.mp huv with ⟨e, he1, he2⟩ | ⟨e, he1, he2⟩
    · -- repl = uu ++ e, v = e ++ out₂
      cases uu with
      | nil =>
        replace he1 : repl = e := by simpa using he1
        subst he1
        replace he2 : v = repl ++ out₂ := by simpa using he2
        subst he2
        have hn1 : 1 ≤ n := le_trans hsum (matchSem_sumLo hm)
        rw [hrepl] at hm
        simp only [List.cons_append] at hm
        exact absurd (matchSem_head_union hresp hm hn1) (by rw [hurh]; simp)
      | cons c₀ uu' =>
        cases e with
        | nil =>
          replace he2 : v = out₂ := by simpa using he2
          exact (hout₂ [] v n (by simp [he2]))
            (matchSem_prev_irrel hm hwb (threadPrev (prevAfter prev s₀ w.length) []))
        | cons ec etl =>
          have ht1 : 1 ≤ (c₀ :: uu').length := by simp
          have ht2 : (c₀ :: uu').length < repl.length := by
            rw [he1]
            simp only [List.length_append, List.length_cons]
            omega
          have hdrop : repl.drop (c₀ :: uu').length = ec :: etl := by
            rw [he1, List.drop_append_of_le_length (Nat.le_refl _)]
            simp
          refine hinside (c₀ :: uu').length out₂ (threadPrev prev (c₀ :: uu')) n ht1 ht2 ?_
          rw [hdrop, ← he2]
          exact hm
    · -- uu = repl ++ e, out₂ = e ++ v
      subst he1
      exact hout₂ e v n he2.symm (matchSem_prev_irrel hm hwb (threadPrev (prevAfter prev s₀ w.length) e))

/-- The own pass: the output of a bracket-replacement scan is free of its
own pattern. -/
theorem own_free_brk {pat : List RItem} {u : Char → Bool}
    (hresp : ∀ p lo hi, RItem.cls p lo hi ∈ pat → ∀ c, p c = true → u c = true)
    (hwb : RItem.wordB ∉ pat) (hsum : 1 ≤ sumLo pat)
    {repl : List Char} {rh : Char} {rtl : List Char}
    (hrepl : repl = rh :: rtl) (hurh : u rh = false)
    (hinside : ∀ t z pv n, 1 ≤ t → t < repl.length →
      ¬ MatchSem pat pv (repl.drop t ++ z) n) :
    ∀ {prev : Option Char} {s out : List Char}, Decomp pat repl prev s out →
      FreeFrom pat prev out := by
  intro prev s out hd
  induction hd with
  | done prev hnone => exact freeFrom_nil hsum prev
  | keep prev c s' out' hnone hsub ih =>
    intro uu v n huv hm
    cases uu with
    | nil =>
      simp only [List.nil_append] at huv
      subst huv
      have hn1 : 1 ≤ n := le_trans hsum (matchSem_sumLo hm)
      have hall := matchSem_all_union hm hresp
      have hnle : n ≤ (c :: out').length := matchSem_le_length hm
      obtain ⟨heq, hle, _⟩ := decomp_align hrepl
        (Decomp.keep prev c s' out' hnone hsub) n hnle
        (not_mem_take_of_union hall hurh)
      obtain ⟨m, hsome⟩ := matchItems_complete (matchSem_take_eq hm hwb heq hle)
      rw [hnone] at hsome
      exact absurd hsome (by simp)
    | cons c₀ uu' =>
      simp only [List.cons_append, List.cons.injEq] at huv
      obtain ⟨rfl, huv'⟩ := huv
      rw [threadPrev_cons] at hm
      exact ih uu' v n huv' hm
  | rep prev s₀ w rest out₂ hmatch hwne hs₀ hsub ih =>
    intro uu v n huv hm
    rcases List.append_eq_append_iff.mp huv with ⟨e, he1, he2⟩ | ⟨e, he1, he2⟩
    · cases uu with
      | nil =>
        replace he1 : repl = e := by simpa using he1
        subst he1
        replace he2 : v = repl ++ out₂ := by simpa using he2
        subst he2
        have hn1 : 1 ≤ n := le_trans hsum (matchSem_sumLo hm)
        rw [hrepl] at hm
        simp only [List.cons_append] at hm
        exact absurd (matchSem_head_union hresp hm hn1) (by rw [hurh]; simp)
      | cons c₀ uu' =>
        cases e with
        | nil =>
          replace he2 : v = out₂ := by simpa using he2
          exact (ih [] v n (by simp [he2]))
            (matchSem_prev_irrel hm hwb (threadPrev (prevAfter prev s₀ w.length) []))
        | cons ec etl =>
          have ht1 : 1 ≤ (c₀ :: uu').length := by simp
          have ht2 : (c₀ :: uu').length < repl.length := by
            rw [he1]
            simp only [List.length_append, List.length_cons]
            omega
          have hdrop : repl.drop (c₀ :: uu').length = ec :: etl := by
            rw [he1, List.drop_append_of_le_length (Nat.le_refl _)]
            simp
          refine hinside (c₀ :: uu').length out₂ (threadPrev prev (c₀ :: uu')) n ht1 ht2 ?_
          rw [hdrop, ← he2]
          exact hm
    · subst he1
      exact ih e v n he2.symm (matchSem_prev_irrel hm hwb (threadPrev (prevAfter prev s₀ w.length) e))




/-! ## Character-class unions of the individual patterns -/

def uEmail (c : Char) : Bool :=
  emailLocalC c || (c = '@') || emailDomC c || (c = '.') || isAsciiLetter c

def uPhone (c : Char) : Bool :=
  (c = '+') || (c = '1') || phoneSep c || (c = '(') || isDigitC c || (c = ')')

def uSsn (c : Char) : Bool :=
  isDigitC c || (c = '-')

def uCc (c : Char) : Bool :=
  isDigitC c || ccSep c

def uSkLive (c : Char) : Bool :=
  (c = 's') || (c = 'k') || (c = '_') || (c = 'l') || (c = 'i') || (c = 'v') ||
  (c = 'e') || isAlnum c

def uSkTest (c : Char) : Bool :=
  (c = 's') || (c = 'k') || (c = '_') || (c = 't') || (c = 'e') || isAlnum c

def uApi (c : Char) : Bool :=
  ciLetter 'a' c || ciLetter 'p' c || ciLetter 'i' c || (c = '_') || (c = '-') ||
  ciLetter 'k' c || ciLetter 'e' c || ciLetter 'y' c || keySep c || wordDash c

def uJwt (c : Char) : Bool :=
  (c = 'e') || (c = 'y') || (c = 'J') || wordDash c || (c = '.')

def uIp (c : Char) : Bool :=
  isDigitC c || (c = '.')

theorem uEmail_resp : ∀ p lo hi, RItem.cls p lo hi ∈ emailPat →
    ∀ c, p c = true → uEmail c = true := by
  intro p lo hi hmem c hc
  simp only [emailPat, lit, List.mem_cons, List.not_mem_nil, or_false,
    RItem.cls.injEq] at hmem
  rcases hmem with ⟨rfl, -, -⟩ | ⟨rfl, -, -⟩ | ⟨rfl, -, -⟩ | ⟨rfl, -, -⟩ | ⟨rfl, -, -⟩ <;>
    simp [uEmail, hc]

theorem uPhone_resp : ∀ p lo hi, RItem.cls p lo hi ∈ phonePat →
    ∀ c, p c = true → uPhone c = true := by
  intro p lo hi hmem c hc
  simp only [phonePat, lit, List.mem_cons, List.not_mem_nil, or_false,
    RItem.cls.injEq] at hmem
  rcases hmem with ⟨rfl, -, -⟩ | ⟨rfl, -, -⟩ | ⟨rfl, -, -⟩ | ⟨rfl, -, -⟩ | ⟨rfl, -, -⟩ |
    ⟨rfl, -, -⟩ | ⟨rfl, -, -⟩ | ⟨rfl, -, -⟩ | ⟨rfl, -, -⟩ | ⟨rfl, -, -⟩ <;>
    simp [uPhone, hc]

theorem uSsn_resp : ∀ p lo hi, RItem.cls p lo hi ∈ ssnPat →
    ∀ c, p c = true → uSsn c = true := by
  intro p lo hi hmem c hc
  simp only [ssnPat, lit, List.mem_cons, List.not_mem_nil, or_false,
    RItem.cls.injEq] at hmem
  rcases hmem with ⟨rfl, -, -⟩ | ⟨rfl, -, -⟩ | ⟨rfl, -, -⟩ | ⟨rfl, -, -⟩ | ⟨rfl, -, -⟩ <;>
    simp [uSsn, hc]

theorem uCc_resp : ∀ p lo hi, RItem.cls p lo hi ∈ ccPat →
    ∀ c, p c = true → uCc c = true := by
  intro p lo hi hmem c hc
  simp only [ccPat, List.mem_cons, List.not_mem_nil, or_false,
    RItem.cls.injEq] at hmem
  rcases hmem with ⟨rfl, -, -⟩ | ⟨rfl, -, -⟩ | ⟨rfl, -, -⟩ | ⟨rfl, -, -⟩ |
    ⟨rfl, -, -⟩ | ⟨rfl, -, -⟩ | ⟨rfl, -, -⟩ <;>
    simp [uCc, hc]

theorem uSkLive_resp : ∀ p lo hi, RItem.cls p lo hi ∈ skLivePat →
    ∀ c, p c = true → uSkLive c = true := by
  intro p lo hi hmem c hc
  simp only [skLivePat, lit, List.mem_cons, List.not_mem_nil, or_false,
    RItem.cls.injEq] at hmem
  rcases hmem with ⟨rfl, -, -⟩ | ⟨rfl, -, -⟩ | ⟨rfl, -, -⟩ | ⟨rfl, -, -⟩ | ⟨rfl, -, -⟩ |
    ⟨rfl, -, -⟩ | ⟨rfl, -, -⟩ | ⟨rfl, -, -⟩ | ⟨rfl, -, -⟩ <;>
    simp [uSkLive, hc]

theorem uSkTest_resp : ∀ p lo hi, RItem.cls p lo hi ∈ skTestPat →
    ∀ c, p c = true → uSkTest c = true := by
  intro p lo hi hmem c hc
  simp only [skTestPat, lit, List.mem_cons, List.not_mem_nil, or_false,
    RItem.cls.injEq] at hmem
  rcases hmem with ⟨rfl, -, -⟩ | ⟨rfl, -, -⟩ | ⟨rfl, -, -⟩ | ⟨rfl, -, -⟩ | ⟨rfl, -, -⟩ |
    ⟨rfl, -, -⟩ | ⟨rfl, -, -⟩ | ⟨rfl, -, -⟩ | ⟨rfl, -, -⟩ <;>
    simp [uSkTest, hc]

theorem uApi_resp : ∀ p lo hi, RItem.cls p lo hi ∈ apiKeyPat →
    ∀ c, p c = true → uApi c = true := by
  intro p lo hi hmem c hc
  simp only [apiKeyPat, litCI, List.mem_cons, List.not_mem_nil, or_false,
    RItem.cls.injEq] at hmem
  rcases hmem with ⟨rfl, -, -⟩ | ⟨rfl, -, -⟩ | ⟨rfl, -, -⟩ | ⟨rfl, -, -⟩ | ⟨rfl, -, -⟩ |
    ⟨rfl, -, -⟩ | ⟨rfl, -, -⟩ | ⟨rfl, -, -⟩ | ⟨rfl, -, -⟩ <;>
    first
      | (simp [uApi, hc]; done)
      | (simp only [Bool.or_eq_true, decide_eq_true_eq] at hc
         rcases hc with rfl | rfl <;> decide)

theorem uJwt_resp : ∀ p lo hi, RItem.cls p lo hi ∈ jwtPat →
    ∀ c, p c = true → uJwt c = true := by
  intro p lo hi hmem c hc
  simp only [jwtPat, lit, List.mem_cons, List.not_mem_nil, or_false,
    RItem.cls.injEq] at hmem
  rcases hmem with ⟨rfl, -, -⟩ | ⟨rfl, -, -⟩ | ⟨rfl, -, -⟩ | ⟨rfl, -, -⟩ | ⟨rfl, -, -⟩ |
    ⟨rfl, -, -⟩ | ⟨rfl, -, -⟩ | ⟨rfl, -, -⟩ | ⟨rfl, -, -⟩ | ⟨rfl, -, -⟩ | ⟨rfl, -, -⟩ <;>
    simp [uJwt, hc]

theorem uIp_resp : ∀ p lo hi, RItem.cls p lo hi ∈ ipPat →
    ∀ c, p c = true → uIp c = true := by
  intro p lo hi hmem c hc
  simp only [ipPat, lit, List.mem_cons, List.not_mem_nil, or_false,
    RItem.cls.injEq, reduceCtorEq, false_or] at hmem
  rcases hmem with ⟨rfl, -, -⟩ | ⟨rfl, -, -⟩ | ⟨rfl, -, -⟩ | ⟨rfl, -, -⟩ |
    ⟨rfl, -, -⟩ | ⟨rfl, -, -⟩ | ⟨rfl, -, -⟩ <;>
    simp [uIp, hc]

/-! ## Word-boundary freedom, length sums and required items -/

theorem email_noWb : RItem.wordB ∉ emailPat := by simp [emailPat, lit]
theorem phone_noWb : RItem.wordB ∉ phonePat := by simp [phonePat, lit]
theorem ssn_noWb : RItem.wordB ∉ ssnPat := by simp [ssnPat, lit]
theorem cc_noWb : RItem.wordB ∉ ccPat := by simp [ccPat]
theorem skLive_noWb : RItem.wordB ∉ skLivePat := by simp [skLivePat, lit]
theorem skTest_noWb : RItem.wordB ∉ skTestPat := by simp [skTestPat, lit]
theorem api_noWb : RItem.wordB ∉ apiKeyPat := by simp [apiKeyPat, litCI]
theorem jwt_noWb : RItem.wordB ∉ jwtPat := by simp [jwtPat, lit]
theorem pw_noWb : RItem.wordB ∉ passwordPat := by simp [passwordPat, litCI]

theorem email_sum : sumLo emailPat = 6 := rfl
theorem phone_sum : sumLo phonePat = 10 := rfl
theorem ssn_sum : sumLo ssnPat = 11 := rfl
theorem cc_sum : sumLo ccPat = 16 := rfl
theorem skLive_sum : sumLo skLivePat = 9 := rfl
theorem skTest_sum : sumLo skTestPat = 9 := rfl
theorem api_sum : sumLo apiKeyPat = 26 := rfl
theorem jwt_sum : sumLo jwtPat = 8 := rfl
theorem ip_sum : sumLo ipPat = 7 := rfl
theorem pw_sum : sumLo passwordPat = 9 := rfl

theorem email_req : ∃ lo hi, RItem.cls (fun x => (x = '@' : Bool)) lo hi ∈ emailPat ∧ 1 ≤ lo :=
  ⟨1, some 1, by simp [emailPat, lit], Nat.le_refl 1⟩

theorem phone_req : ∃ lo hi, RItem.cls isDigitC lo hi ∈ phonePat ∧ 1 ≤ lo :=
  ⟨3, some 3, by simp [phonePat], by omega⟩

theorem ssn_req : ∃ lo hi, RItem.cls isDigitC lo hi ∈ ssnPat ∧ 1 ≤ lo :=
  ⟨3, some 3, by simp [ssnPat], by omega⟩

theorem cc_req : ∃ lo hi, RItem.cls isDigitC lo hi ∈ ccPat ∧ 1 ≤ lo :=
  ⟨4, some 4, by simp [ccPat], by omega⟩

theorem skLive_req : ∃ lo hi, RItem.cls (fun x => (x = 'k' : Bool)) lo hi ∈ skLivePat ∧ 1 ≤ lo :=
  ⟨1, some 1, by simp [skLivePat, lit], Nat.le_refl 1⟩

theorem skTest_req : ∃ lo hi, RItem.cls (fun x => (x = 'k' : Bool)) lo hi ∈ skTestPat ∧ 1 ≤ lo :=
  ⟨1, some 1, by simp [skTestPat, lit], Nat.le_refl 1⟩

theorem api_req : ∃ lo hi, RItem.cls wordDash lo hi ∈ apiKeyPat ∧ 1 ≤ lo :=
  ⟨20, none, by simp [apiKeyPat], by omega⟩

theorem jwt_req : ∃ lo hi, RItem.cls (fun x => (x = 'e' : Bool)) lo hi ∈ jwtPat ∧ 1 ≤ lo :=
  ⟨1, some 1, by simp [jwtPat, lit], Nat.le_refl 1⟩

theorem ip_req : ∃ lo hi, RItem.cls isDigitC lo hi ∈ ipPat ∧ 1 ≤ lo :=
  ⟨1, some 3, by simp [ipPat], Nat.le_refl 1⟩




/-! ## Positivity of the mandatory lengths -/

theorem email_pos : 1 ≤ sumLo emailPat := by rw [email_sum]; omega
theorem phone_pos : 1 ≤ sumLo phonePat := by rw [phone_sum]; omega
theorem ssn_pos : 1 ≤ sumLo ssnPat := by rw [ssn_sum]; omega
theorem cc_pos : 1 ≤ sumLo ccPat := by rw [cc_sum]; omega
theorem skLive_pos : 1 ≤ sumLo skLivePat := by rw [skLive_sum]; omega
theorem skTest_pos : 1 ≤ sumLo skTestPat := by rw [skTest_sum]; omega
theorem api_pos : 1 ≤ sumLo apiKeyPat := by rw [api_sum]; omega
theorem jwt_pos : 1 ≤ sumLo jwtPat := by rw [jwt_sum]; omega
theorem ip_pos : 1 ≤ sumLo ipPat := by rw [ip_sum]; omega
theorem pw_pos : 1 ≤ sumLo passwordPat := by rw [pw_sum]; omega

/-! ## Per-target preservation and own-pass instances -/

theorem email_pres {pat : List RItem} {repl : List Char} {rh : Char} {rtl : List Char}
    (hrepl : repl = rh :: rtl) (hurh : uEmail rh = false)
    (hchk : segChk uEmail (fun x => (x = '@' : Bool)) 6 repl = true)
    (hpsum : 1 ≤ sumLo pat) {s : List Char} (h : FreeFrom emailPat none s) :
    FreeFrom emailPat none (replaceAll pat repl s) :=
  preserve_free_brk uEmail_resp email_noWb email_pos hrepl hurh
    (noSemInside uEmail_resp email_req (le_of_eq email_sum.symm) hchk)
    (decomp_replaceAll (no_empty_match hpsum) s) h

theorem email_own (s : List Char) :
    FreeFrom emailPat none (replaceAll emailPat ("[EMAIL]".data) s) :=
  own_free_brk uEmail_resp email_noWb email_pos rfl (by decide)
    (noSemInside uEmail_resp email_req (le_of_eq email_sum.symm) (by decide))
    (decomp_replaceAll (no_empty_match email_pos) s)

theorem phone_pres {pat : List RItem} {repl : List Char} {rh : Char} {rtl : List Char}
    (hrepl : repl = rh :: rtl) (hurh : uPhone rh = false)
    (hchk : segChk uPhone isDigitC 10 repl = true)
    (hpsum : 1 ≤ sumLo pat) {s : List Char} (h : FreeFrom phonePat none s) :
    FreeFrom phonePat none (replaceAll pat repl s) :=
  preserve_free_brk uPhone_resp phone_noWb phone_pos hrepl hurh
    (noSemInside uPhone_resp phone_req (le_of_eq phone_sum.symm) hchk)
    (decomp_replaceAll (no_empty_match hpsum) s) h

theorem phone_own (s : List Char) :
    FreeFrom phonePat none (replaceAll phonePat ("[PHONE]".data) s) :=
  own_free_brk uPhone_resp phone_noWb phone_pos rfl (by decide)
    (noSemInside uPhone_resp phone_req (le_of_eq phone_sum.symm) (by decide))
    (decomp_replaceAll (no_empty_match phone_pos) s)

theorem ssn_pres {pat : List RItem} {repl : List Char} {rh : Char} {rtl : List Char}
    (hrepl : repl = rh :: rtl) (hurh : uSsn rh = false)
    (hchk : segChk uSsn isDigitC 11 repl = true)
    (hpsum : 1 ≤ sumLo pat) {s : List Char} (h : FreeFrom ssnPat none s) :
    FreeFrom ssnPat none (replaceAll pat repl s) :=
  preserve_free_brk uSsn_resp ssn_noWb ssn_pos hrepl hurh
    (noSemInside uSsn_resp ssn_req (le_of_eq ssn_sum.symm) hchk)
    (decomp_replaceAll (no_empty_match hpsum) s) h

theorem ssn_own (s : List Char) :
    FreeFrom ssnPat none (replaceAll ssnPat ("[SSN]".data) s) :=
  own_free_brk uSsn_resp ssn_noWb ssn_pos rfl (by decide)
    (noSemInside uSsn_resp ssn_req (le_of_eq ssn_sum.symm) (by decide))
    (decomp_replaceAll (no_empty_match ssn_pos) s)

theorem cc_pres {pat : List RItem} {repl : List Char} {rh : Char} {rtl : List Char}
    (hrepl : repl = rh :: rtl) (hurh : uCc rh = false)
    (hchk : segChk uCc isDigitC 16 repl = true)
    (hpsum : 1 ≤ sumLo pat) {s : List Char} (h : FreeFrom ccPat none s) :
    FreeFrom ccPat none (replaceAll pat repl s) :=
  preserve_free_brk uCc_resp cc_noWb cc_pos hrepl hurh
    (noSemInside uCc_resp cc_req (le_of_eq cc_sum.symm) hchk)
    (decomp_replaceAll (no_empty_match hpsum) s) h

theorem cc_own (s : List Char) :
    FreeFrom ccPat none (replaceAll ccPat ("[CREDIT_CARD]".data) s) :=
  own_free_brk uCc_resp cc_noWb cc_pos rfl (by decide)
    (noSemInside uCc_resp cc_req (le_of_eq cc_sum.symm) (by decide))
    (decomp_replaceAll (no_empty_match cc_pos) s)

theorem skLive_pres {pat : List RItem} {repl : List Char} {rh : Char} {rtl : List Char}
    (hrepl : repl = rh :: rtl) (hurh : uSkLive rh = false)
    (hchk : segChk uSkLive (fun x => (x = 'k' : Bool)) 9 repl = true)
    (hpsum : 1 ≤ sumLo pat) {s : List Char} (h : FreeFrom skLivePat none s) :
    FreeFrom skLivePat none (replaceAll pat repl s) :=
  preserve_free_brk uSkLive_resp skLive_noWb skLive_pos hrepl hurh
    (noSemInside uSkLive_resp skLive_req (le_of_eq skLive_sum.symm) hchk)
    (decomp_replaceAll (no_empty_match hpsum) s) h

theorem skLive_own (s : List Char) :
    FreeFrom skLivePat none (replaceAll skLivePat ("[API_KEY]".data) s) :=
  own_free_brk uSkLive_resp skLive_noWb skLive_pos rfl (by decide)
    (noSemInside uSkLive_resp skLive_req (le_of_eq skLive_sum.symm) (by decide))
    (decomp_replaceAll (no_empty_match skLive_pos) s)

theorem skTest_pres {pat : List RItem} {repl : List Char} {rh : Char} {rtl : List Char}
    (hrepl : repl = rh :: rtl) (hurh : uSkTest rh = false)
    (hchk : segChk uSkTest (fun x => (x = 'k' : Bool)) 9 repl = true)
    (hpsum : 1 ≤ sumLo pat) {s : List Char} (h : FreeFrom skTestPat none s) :
    FreeFrom skTestPat none (replaceAll pat repl s) :=
  preserve_free_brk uSkTest_resp skTest_noWb skTest_pos hrepl hurh
    (noSemInside uSkTest_resp skTest_req (le_of_eq skTest_sum.symm) hchk)
    (decomp_replaceAll (no_empty_match hpsum) s) h

theorem skTest_own (s : List Char) :
    FreeFrom skTestPat none (replaceAll skTestPat ("[API_KEY]".data) s) :=
  own_free_brk uSkTest_resp skTest_noWb skTest_pos rfl (by decide)
    (noSemInside uSkTest_resp skTest_req (le_of_eq skTest_sum.symm) (by decide))
    (decomp_replaceAll (no_empty_match skTest_pos) s)

theorem api_pres {pat : List RItem} {repl : List Char} {rh : Char} {rtl : List Char}
    (hrepl : repl = rh :: rtl) (hurh : uApi rh = false)
    (hchk : segChk uApi wordDash 26 repl = true)
    (hpsum : 1 ≤ sumLo pat) {s : List Char} (h : FreeFrom apiKeyPat none s) :
    FreeFrom apiKeyPat none (replaceAll pat repl s) :=
  preserve_free_brk uApi_resp api_noWb api_pos hrepl hurh
    (noSemInside uApi_resp api_req (le_of_eq api_sum.symm) hchk)
    (decomp_replaceAll (no_empty_match hpsum) s) h

theorem api_own (s : List Char) :
    FreeFrom apiKeyPat none (replaceAll apiKeyPat ("[API_KEY]".data) s) :=
  own_free_brk uApi_resp api_noWb api_pos rfl (by decide)
    (noSemInside uApi_resp api_req (le_of_eq api_sum.symm) (by decide))
    (decomp_replaceAll (no_empty_match api_pos) s)

theorem jwt_pres {pat : List RItem} {repl : List Char} {rh : Char} {rtl : List Char}
    (hrepl : repl = rh :: rtl) (hurh : uJwt rh = false)
    (hchk : segChk uJwt (fun x => (x = 'e' : Bool)) 8 repl = true)
    (hpsum : 1 ≤ sumLo pat) {s : List Char} (h : FreeFrom jwtPat none s) :
    FreeFrom jwtPat none (replaceAll pat repl s) :=
  preserve_free_brk uJwt_resp jwt_noWb jwt_pos hrepl hurh
    (noSemInside uJwt_resp jwt_req (le_of_eq jwt_sum.symm) hchk)
    (decomp_replaceAll (no_empty_match hpsum) s) h

theorem jwt_own (s : List Char) :
    FreeFrom jwtPat none (replaceAll jwtPat ("[JWT]".data) s) :=
  own_free_brk uJwt_resp jwt_noWb jwt_pos rfl (by decide)
    (noSemInside uJwt_resp jwt_req (le_of_eq jwt_sum.symm) (by decide))
    (decomp_replaceAll (no_empty_match jwt_pos) s)

/-! ## The first nine passes -/

/-- The first nine passes of the deterministic sanitizer (everything
before the password pass). -/
def sanitize9 (s : List Char) : List Char :=
  replaceAll ipPat ("[IP_ADDRESS]".data)
    (replaceAll jwtPat ("[JWT]".data)
      (replaceAll apiKeyPat ("[API_KEY]".data)
        (replaceAll skTestPat ("[API_KEY]".data)
          (replaceAll skLivePat ("[API_KEY]".data)
            (replaceAll ccPat ("[CREDIT_CARD]".data)
              (replaceAll ssnPat ("[SSN]".data)
                (replaceAll phonePat ("[PHONE]".data)
                  (replaceAll emailPat ("[EMAIL]".data) s))))))))

theorem sanitizeChars_eq9 (s : List Char) :
    sanitizeChars s = replaceAll passwordPat ("password: [REDACTED]".data) (sanitize9 s) := by
  rw [sanitizeChars_eq]
  rfl

theorem email_free9 (s : List Char) : FreeFrom emailPat none (sanitize9 s) := by
  unfold sanitize9
  exact email_pres rfl (by decide) (by decide) ip_pos
    (email_pres rfl (by decide) (by decide) jwt_pos
      (email_pres rfl (by decide) (by decide) api_pos
        (email_pres rfl (by decide) (by decide) skTest_pos
          (email_pres rfl (by decide) (by decide) skLive_pos
            (email_pres rfl (by decide) (by decide) cc_pos
              (email_pres rfl (by decide) (by decide) ssn_pos
                (email_pres rfl (by decide) (by decide) phone_pos
                  (email_own s))))))))

theorem phone_free9 (s : List Char) : FreeFrom phonePat none (sanitize9 s) := by
  unfold sanitize9
  exact phone_pres rfl (by decide) (by decide) ip_pos
    (phone_pres rfl (by decide) (by decide) jwt_pos
      (phone_pres rfl (by decide) (by decide) api_pos
        (phone_pres rfl (by decide) (by decide) skTest_pos
          (phone_pres rfl (by decide) (by decide) skLive_pos
            (phone_pres rfl (by decide) (by decide) cc_pos
              (phone_pres rfl (by decide) (by decide) ssn_pos
                (phone_own _)))))))

theorem ssn_free9 (s : List Char) : FreeFrom ssnPat none (sanitize9 s) := by
  unfold sanitize9
  exact ssn_pres rfl (by decide) (by decide) ip_pos
    (ssn_pres rfl (by decide) (by decide) jwt_pos
      (ssn_pres rfl (by decide) (by decide) api_pos
        (ssn_pres rfl (by decide) (by decide) skTest_pos
          (ssn_pres rfl (by decide) (by decide) skLive_pos
            (ssn_pres rfl (by decide) (by decide) cc_pos
              (ssn_own _))))))

theorem cc_free9 (s : List Char) : FreeFrom ccPat none (sanitize9 s) := by
  unfold sanitize9
  exact cc_pres rfl (by decide) (by decide) ip_pos
    (cc_pres rfl (by decide) (by decide) jwt_pos
      (cc_pres rfl (by decide) (by decide) api_pos
        (cc_pres rfl (by decide) (by decide) skTest_pos
          (cc_pres rfl (by decide) (by decide) skLive_pos
            (cc_own _)))))

theorem skLive_free9 (s : List Char) : FreeFrom skLivePat none (sanitize9 s) := by
  unfold sanitize9
  exact skLive_pres rfl (by decide) (by decide) ip_pos
    (skLive_pres rfl (by decide) (by decide) jwt_pos
      (skLive_pres rfl (by decide) (by decide) api_pos
        (skLive_pres rfl (by decide) (by decide) skTest_pos
          (skLive_own _))))

theorem skTest_free9 (s : List Char) : FreeFrom skTestPat none (sanitize9 s) := by
  unfold sanitize9
  exact skTest_pres rfl (by decide) (by decide) ip_pos
    (skTest_pres rfl (by decide) (by decide) jwt_pos
      (skTest_pres rfl (by decide) (by decide) api_pos
        (skTest_own _)))

theorem api_free9 (s : List Char) : FreeFrom apiKeyPat none (sanitize9 s) := by
  unfold sanitize9
  exact api_pres rfl (by decide) (by decide) ip_pos
    (api_pres rfl (by decide) (by decide) jwt_pos
      (api_own _))

theorem jwt_free9 (s : List Char) : FreeFrom jwtPat none (sanitize9 s) := by
  unfold sanitize9
  exact jwt_pres rfl (by decide) (by decide) ip_pos
    (jwt_own _)




/-! ## Inversion of the declarative semantics -/

theorem matchSem_cls_elim {p : Char → Bool} {lo : Nat} {hi : Option Nat}
    {rest : List RItem} {pv : Option Char} {v : List Char} {n : Nat}
    (h : MatchSem (.cls p lo hi :: rest) pv v n) :
    ∃ k m, n = k + m ∧ lo ≤ k ∧ k ≤ hi.getD k ∧ k ≤ v.length ∧
      (v.take k).all p = true ∧
      MatchSem rest (prevAfter pv v k) (v.drop k) m := by
  cases h with
  | cls p lo hi rest prev s k m hlo hhi hlen hall hrest =>
    exact ⟨k, m, rfl, hlo, hhi, hlen, hall, hrest⟩

theorem matchSem_word_elim {rest : List RItem} {pv : Option Char}
    {v : List Char} {n : Nat} (h : MatchSem (.wordB :: rest) pv v n) :
    atBoundary pv v = true ∧ MatchSem rest pv v n := by
  cases h with
  | word rest prev s n hb hm => exact ⟨hb, hm⟩

theorem matchSem_nil_elim {pv : Option Char} {v : List Char} {n : Nat}
    (h : MatchSem [] pv v n) : n = 0 := by
  cases h
  rfl

theorem litCI_sem_elim {b : Char} {rest : List RItem} {pv : Option Char}
    {v : List Char} {n : Nat} (h : MatchSem (litCI b :: rest) pv v n) :
    ∃ c t m, v = c :: t ∧ ciLetter b c = true ∧ n = 1 + m ∧
      MatchSem rest (some c) t m := by
  obtain ⟨k, m, hn, hlo, hhi, hlen, hall, hrest⟩ := matchSem_cls_elim h
  simp only [Option.getD_some] at hhi
  have hk : k = 1 := by omega
  subst hk
  cases v with
  | nil => simp at hlen
  | cons c t =>
    refine ⟨c, t, m, rfl, ?_, hn, ?_⟩
    · simpa using hall
    · have hpa : prevAfter pv (c :: t) 1 = some c := rfl
      rw [hpa] at hrest
      simpa using hrest

theorem litCI_sem_intro {b : Char} {rest : List RItem} {pv : Option Char}
    {c : Char} {t : List Char} {m : Nat} (hc : ciLetter b c = true)
    (h : MatchSem rest (some c) t m) :
    MatchSem (litCI b :: rest) pv (c :: t) (1 + m) := by
  have hpa : prevAfter pv (c :: t) 1 = some c := rfl
  exact MatchSem.cls _ 1 (some 1) rest pv (c :: t) 1 m (Nat.le_refl 1)
    (by simp) (by simp) (by simpa using hc) (by rw [hpa]; exact h)

/-! ## Shape of a password-pattern match -/

theorem pw_shape {pv : Option Char} {v : List Char} {n : Nat}
    (h : MatchSem passwordPat pv v n) :
    9 ≤ n ∧
    List.Forall₂ (fun bc wc => ciLetter bc wc = true) ("password".data) (v.take 8) ∧
    ∃ kk vv, n = 8 + kk + vv ∧ 1 ≤ vv ∧
      ((v.drop 8).take kk).all keySep = true ∧
      ((v.drop (8 + kk)).take vv).all pwVal = true := by
  obtain ⟨c1, t1, m1, rfl, hc1, rfl, h1⟩ := litCI_sem_elim h
  obtain ⟨c2, t2, m2, rfl, hc2, rfl, h2⟩ := litCI_sem_elim h1
  obtain ⟨c3, t3, m3, rfl, hc3, rfl, h3⟩ := litCI_sem_elim h2
  obtain ⟨c4, t4, m4, rfl, hc4, rfl, h4⟩ := litCI_sem_elim h3
  obtain ⟨c5, t5, m5, rfl, hc5, rfl, h5⟩ := litCI_sem_elim h4
  obtain ⟨c6, t6, m6, rfl, hc6, rfl, h6⟩ := litCI_sem_elim h5
  obtain ⟨c7, t7, m7, rfl, hc7, rfl, h7⟩ := litCI_sem_elim h6
  obtain ⟨c8, t8, m8, rfl, hc8, rfl, h8⟩ := litCI_sem_elim h7
  obtain ⟨kk, m9, hm8, -, -, hklen, hkall, h9⟩ := matchSem_cls_elim h8
  obtain ⟨vv, m10, hm9, hvlo, -, hvlen, hvall, h10⟩ := matchSem_cls_elim h9
  have hm10 : m10 = 0 := matchSem_nil_elim h10
  subst hm10
  subst hm8
  refine ⟨by omega, ?_, kk, vv, by omega, by omega, ?_, ?_⟩
  · simp only [show ("password".data) =
      'p' :: 'a' :: 's' :: 's' :: 'w' :: 'o' :: 'r' :: 'd' :: [] from rfl]
    simp only [List.take_succ_cons, List.take_zero]
    exact List.Forall₂.cons hc1 (List.Forall₂.cons hc2 (List.Forall₂.cons hc3
      (List.Forall₂.cons hc4 (List.Forall₂.cons hc5 (List.Forall₂.cons hc6
        (List.Forall₂.cons hc7 (List.Forall₂.cons hc8 List.Forall₂.nil)))))))
  · have hd8 : (c1 :: c2 :: c3 :: c4 :: c5 :: c6 :: c7 :: c8 :: t8).drop 8 = t8 := rfl
    rw [hd8]
    exact hkall
  · have hd8k : (c1 :: c2 :: c3 :: c4 :: c5 :: c6 :: c7 :: c8 :: t8).drop (8 + kk) =
        t8.drop kk := by
      rw [List.drop_add]
      rfl
    rw [hd8k]
    exact hvall

/-! ## Alignment through the password pass -/

/-- A region of the password pass's output that contains no `[` either
lies entirely in kept text, or is kept text followed by a prefix (of
length at most ten) of the replacement, the corresponding matched text
starting with a case variant of `password`. -/
theorem decomp_align_pw :
    ∀ {prev : Option Char} {s out : List Char},
      Decomp passwordPat ("password: [REDACTED]".data) prev s out →
      ∀ n, n ≤ out.length → '[' ∉ out.take n →
        (out.take n = s.take n ∧ n ≤ s.length) ∨
        (∃ b k w rest, b + k = n ∧ 1 ≤ k ∧ k ≤ 10 ∧
          out.take b = s.take b ∧
          out.take n = out.take b ++ (("password: [REDACTED]".data).take k) ∧
          s.drop b = w ++ rest ∧ 9 ≤ w.length ∧
          List.Forall₂ (fun bc wc => ciLetter bc wc = true) ("password".data)
            (w.take 8)) := by
  intro prev s out hd
  induction hd with
  | done prev hnone =>
    intro n hn _
    simp only [List.length_nil, Nat.le_zero] at hn
    subst hn
    exact Or.inl ⟨rfl, Nat.le_refl _⟩
  | keep prev c s' out' hnone hsub ih =>
    intro n hn hmem
    cases n with
    | zero => exact Or.inl ⟨rfl, Nat.zero_le _⟩
    | succ m =>
      simp only [List.take_succ_cons] at hmem
      have hmem' : '[' ∉ out'.take m := fun hx => hmem (List.mem_cons_of_mem _ hx)
      have hn' : m ≤ out'.length := by
        simp only [List.length_cons] at hn
        omega
      rcases ih m hn' hmem' with ⟨heq, hle⟩ |
        ⟨b, k, w, rest, hbk, hk1, hk10, hb, hcons, hw, hwlen, hfa⟩
      · exact Or.inl ⟨by simp only [List.take_succ_cons, heq],
          by simp only [List.length_cons]; omega⟩
      · refine Or.inr ⟨b + 1, k, w, rest, by omega, hk1, hk10, ?_, ?_, ?_, hwlen, hfa⟩
        · simp only [List.take_succ_cons, hb]
        · simp only [List.take_succ_cons, hcons]
          rfl
        · simpa using hw
  | rep prev s₀ w rest out₂ hmatch hwne hs₀ hsub ih =>
    intro n hn hmem
    cases n with
    | zero => exact Or.inl ⟨rfl, Nat.zero_le _⟩
    | succ m =>
      obtain ⟨hw9, hfa8, -⟩ := pw_shape (matchItems_sound hmatch)
      have hwlen9 : 9 ≤ w.length := by
        have h1 := matchSem_le_length (matchItems_sound hmatch)
        rw [hs₀] at h1
        simp only [List.length_append] at h1
        omega
      have hfa : List.Forall₂ (fun bc wc => ciLetter bc wc = true) ("password".data)
          (w.take 8) := by
        have ht8 : s₀.take 8 = w.take 8 := by
          rw [hs₀, List.take_append_of_le_length (by omega)]
        rwa [ht8] at hfa8
      have hn10 : m + 1 ≤ 10 := by
        by_contra hgt
        push_neg at hgt
        apply hmem
        have hsp : ("password: [REDACTED]".data ++ out₂) =
            ("password: ".data) ++ '[' :: ("REDACTED]".data ++ out₂) := rfl
        rw [hsp]
        refine mem_take_middle ?_
        rw [show ("password: ".data).length = 10 from rfl]
        omega
      refine Or.inr ⟨0, m + 1, w, rest, by omega, by omega, hn10, rfl, ?_,
        by simpa using hs₀, hwlen9, hfa⟩
      have hle20 : m + 1 ≤ ("password: [REDACTED]".data).length := by
        rw [show ("password: [REDACTED]".data).length = 20 from rfl]
        omega
      show ("password: [REDACTED]".data ++ out₂).take (m + 1) =
        ("password: [REDACTED]".data ++ out₂).take 0 ++
          ("password: [REDACTED]".data).take (m + 1)
      rw [List.take_zero, List.nil_append]
      exact List.take_append_of_le_length hle20




/-! ## Forall₂ helpers -/

theorem forall2_take {R : Char → Char → Prop} {l1 l2 : List Char}
    (h : List.Forall₂ R l1 l2) : ∀ k, List.Forall₂ R (l1.take k) (l2.take k) := by
  induction h with
  | nil => intro k; simp
  | @cons a b t1 t2 hR htail ih =>
    intro k
    cases k with
    | zero => exact List.Forall₂.nil
    | succ k => exact List.Forall₂.cons hR (ih k)

theorem forall2_imp_mem {P Q : Char → Char → Prop} {l1 l2 : List Char}
    (h : List.Forall₂ P l1 l2) (himp : ∀ c c', c ∈ l1 → P c c' → Q c c') :
    List.Forall₂ Q l1 l2 := by
  induction h with
  | nil => exact List.Forall₂.nil
  | @cons a b t1 t2 hR htail ih =>
    exact List.Forall₂.cons (himp a b (List.mem_cons_self _ _) hR)
      (ih fun c c' hc => himp c c' (List.mem_cons_of_mem _ hc))

theorem forall2_append {R : Char → Char → Prop} {a b x y : List Char}
    (h1 : List.Forall₂ R a b) (h2 : List.Forall₂ R x y) :
    List.Forall₂ R (a ++ x) (b ++ y) := by
  induction h1 with
  | nil => simpa using h2
  | cons hR _ ih => exact List.Forall₂.cons hR ih

/-! ## The password case relation -/

/-- Relates an output character to the corresponding input character
through the password pass: equal, or a case variant of one of the letters
of `password` (the replacement is lower-case, the matched text `/i`). -/
def pwRel (c c' : Char) : Prop :=
  c = c' ∨ (c ∈ ("password".data) ∧ ciLetter c c' = true)

theorem forall2_pwRel_refl : ∀ (l : List Char), List.Forall₂ pwRel l l := by
  intro l
  induction l with
  | nil => exact List.Forall₂.nil
  | cons c t ih => exact List.Forall₂.cons (Or.inl rfl) ih

theorem email_pwRel_resp : ∀ p lo hi, RItem.cls p lo hi ∈ emailPat →
    ∀ c c', pwRel c c' → p c = p c' := by
  intro p lo hi hmem c c' hrel
  rcases hrel with rfl | ⟨hmem', hci⟩
  · rfl
  · simp only [ciLetter, Bool.or_eq_true, decide_eq_true_eq] at hci
    rcases hci with rfl | rfl
    · rfl
    · simp only [show ("password".data) = ['p', 'a', 's', 's', 'w', 'o', 'r', 'd'] from rfl,
        List.mem_cons, List.not_mem_nil, or_false] at hmem'
      simp only [emailPat, lit, List.mem_cons, List.not_mem_nil, or_false,
        RItem.cls.injEq] at hmem
      rcases hmem with ⟨rfl, -, -⟩ | ⟨rfl, -, -⟩ | ⟨rfl, -, -⟩ | ⟨rfl, -, -⟩ | ⟨rfl, -, -⟩ <;>
        (rcases hmem' with rfl | rfl | rfl | rfl | rfl | rfl | rfl | rfl <;> decide)

theorem api_pwRel_resp : ∀ p lo hi, RItem.cls p lo hi ∈ apiKeyPat →
    ∀ c c', pwRel c c' → p c = p c' := by
  intro p lo hi hmem c c' hrel
  rcases hrel with rfl | ⟨hmem', hci⟩
  · rfl
  · simp only [ciLetter, Bool.or_eq_true, decide_eq_true_eq] at hci
    rcases hci with rfl | rfl
    · rfl
    · simp only [show ("password".data) = ['p', 'a', 's', 's', 'w', 'o', 'r', 'd'] from rfl,
        List.mem_cons, List.not_mem_nil, or_false] at hmem'
      simp only [apiKeyPat, litCI, List.mem_cons, List.not_mem_nil, or_false,
        RItem.cls.injEq] at hmem
      rcases hmem with ⟨rfl, -, -⟩ | ⟨rfl, -, -⟩ | ⟨rfl, -, -⟩ | ⟨rfl, -, -⟩ | ⟨rfl, -, -⟩ |
        ⟨rfl, -, -⟩ | ⟨rfl, -, -⟩ | ⟨rfl, -, -⟩ | ⟨rfl, -, -⟩ <;>
        (rcases hmem' with rfl | rfl | rfl | rfl | rfl | rfl | rfl | rfl <;> decide)

theorem jwt_pwRel_resp : ∀ p lo hi, RItem.cls p lo hi ∈ jwtPat →
    ∀ c c', pwRel c c' → p c = p c' := by
  intro p lo hi hmem c c' hrel
  rcases hrel with rfl | ⟨hmem', hci⟩
  · rfl
  · simp only [ciLetter, Bool.or_eq_true, decide_eq_true_eq] at hci
    rcases hci with rfl | rfl
    · rfl
    · simp only [show ("password".data) = ['p', 'a', 's', 's', 'w', 'o', 'r', 'd'] from rfl,
        List.mem_cons, List.not_mem_nil, or_false] at hmem'
      simp only [jwtPat, lit, List.mem_cons, List.not_mem_nil, or_false,
        RItem.cls.injEq] at hmem
      rcases hmem with ⟨rfl, -, -⟩ | ⟨rfl, -, -⟩ | ⟨rfl, -, -⟩ | ⟨rfl, -, -⟩ | ⟨rfl, -, -⟩ |
        ⟨rfl, -, -⟩ | ⟨rfl, -, -⟩ | ⟨rfl, -, -⟩ | ⟨rfl, -, -⟩ | ⟨rfl, -, -⟩ | ⟨rfl, -, -⟩ <;>
        (rcases hmem' with rfl | rfl | rfl | rfl | rfl | rfl | rfl | rfl <;> decide)

/-! ## No `d:` in consumed text -/

theorem dcol_of_union {tgt : List RItem} {u : Char → Bool}
    (hresp : ∀ p lo hi, RItem.cls p lo hi ∈ tgt → ∀ c, p c = true → u c = true)
    (hcol : u ':' = false) :
    ∀ (pv : Option Char) (v : List Char) (n : Nat), MatchSem tgt pv v n →
      ¬ occursIn ['d', ':'] (v.take n) := by
  intro pv v n hm hocc
  have hall := matchSem_all_union hm hresp
  have hmm : (':' : Char) ∈ v.take n := mem_of_occursIn hocc (by simp)
  have := List.all_eq_true.mp hall _ hmm
  rw [hcol] at this
  exact absurd this (by simp)

theorem all_imp {p q : Char → Bool} (h : ∀ c, p c = true → q c = true) :
    ∀ {l : List Char}, l.all p = true → l.all q = true := by
  intro l hl
  rw [List.all_eq_true] at hl ⊢
  exact fun c hc => h c (hl c hc)

theorem occursIn_append_cases {w x y : List Char} (h : occursIn w (x ++ y)) :
    occursIn w x ∨ occursIn w y ∨
    ∃ w1 w2, w = w1 ++ w2 ∧ w1 ≠ [] ∧ w2 ≠ [] ∧
      (∃ a, x = a ++ w1) ∧ (∃ b, y = w2 ++ b) := by
  induction x generalizing w with
  | nil => exact Or.inr (Or.inl (by simpa using h))
  | cons c x' ih =>
    rw [List.cons_append] at h
    rcases occursIn_cons h with hp | ho
    · obtain ⟨t, ht⟩ := hp
      rcases List.append_eq_append_iff.mp (show w ++ t = (c :: x') ++ y from ht) with
        ⟨e, he1, he2⟩ | ⟨e, he1, he2⟩
      · exact Or.inl ⟨[], e, by rw [he1]; rfl⟩
      · cases e with
        | nil =>
          exact Or.inl ⟨[], [], by rw [he1]; simp⟩
        | cons ec etl =>
          refine Or.inr (Or.inr ⟨c :: x', ec :: etl, he1, by simp, by simp,
            ⟨[], rfl⟩, ⟨t, he2⟩⟩)
    · rcases ih ho with h1 | h2 | ⟨w1, w2, hw, hw1, hw2, ⟨a, ha⟩, hb⟩
      · obtain ⟨a, b, hab⟩ := h1
        exact Or.inl ⟨c :: a, b, by rw [hab]; rfl⟩
      · exact Or.inr (Or.inl h2)
      · exact Or.inr (Or.inr ⟨w1, w2, hw, hw1, hw2, ⟨c :: a, by rw [ha]; rfl⟩, hb⟩)

/-- The non-run part of an API-key match: the literal `api`, the optional
separator, the literal `key`, and the quote-colon-space run. -/
def apiPre (c : Char) : Bool :=
  ciLetter 'a' c || ciLetter 'p' c || ciLetter 'i' c || (c = '_') || (c = '-') ||
  ciLetter 'k' c || ciLetter 'e' c || ciLetter 'y' c || keySep c

theorem take_cons3 {a b c : Char} {l : List Char} {r : Nat} :
    (a :: b :: c :: l).take (3 + r) = a :: b :: c :: l.take r := by
  rw [show 3 + r = r + 1 + 1 + 1 by omega]
  simp [List.take_succ_cons]

theorem api_split {pv : Option Char} {v : List Char} {n : Nat}
    (h : MatchSem apiKeyPat pv v n) :
    ∃ x y, v.take n = x ++ y ∧ x.all apiPre = true ∧ y.all wordDash = true := by
  obtain ⟨c1, t1, m1, rfl, hc1, rfl, h1⟩ := litCI_sem_elim h
  obtain ⟨c2, t2, m2, rfl, hc2, rfl, h2⟩ := litCI_sem_elim h1
  obtain ⟨c3, t3, m3, rfl, hc3, rfl, h3⟩ := litCI_sem_elim h2
  obtain ⟨ko, m4, hm3, -, -, hkolen, hkoall, h4⟩ := matchSem_cls_elim h3
  obtain ⟨c4, t4, m5, ht4, hc4, hm4, h5⟩ := litCI_sem_elim h4
  obtain ⟨c5, t5, m6, ht5, hc5, hm5, h6⟩ := litCI_sem_elim h5
  obtain ⟨c6, t6, m7, ht6, hc6, hm6, h7⟩ := litCI_sem_elim h6
  obtain ⟨kk, m8, hm7, -, -, hkklen, hkkall, h8⟩ := matchSem_cls_elim h7
  obtain ⟨vv, m9, hm8, -, -, hvvlen, hvvall, h9⟩ := matchSem_cls_elim h8
  have hm9 : m9 = 0 := matchSem_nil_elim h9
  refine ⟨[c1, c2, c3] ++ t3.take ko ++ [c4, c5, c6] ++ t6.take kk,
    (t6.drop kk).take vv, ?_, ?_, hvvall⟩
  · have hn : (1 : Nat) + (1 + (1 + m3)) = 3 + (ko + (3 + (kk + vv))) := by omega
    rw [hn, take_cons3, List.take_add t3 ko (3 + (kk + vv)), ht4, ht5, ht6, take_cons3,
      List.take_add t6 kk vv]
    simp
  · have hA : ([c1, c2, c3] : List Char).all apiPre = true := by
      simp [apiPre, hc1, hc2, hc3]
    have hKo : (t3.take ko).all apiPre = true := by
      refine all_imp ?_ hkoall
      intro c hc
      simp only [Bool.or_eq_true, decide_eq_true_eq] at hc
      rcases hc with rfl | rfl <;> decide
    have hB : ([c4, c5, c6] : List Char).all apiPre = true := by
      simp [apiPre, hc4, hc5, hc6]
    have hKk : (t6.take kk).all apiPre = true := by
      refine all_imp ?_ hkkall
      intro c hc
      simp [apiPre, hc]
    simp [List.all_append, hKo, hKk, apiPre, hc1, hc2, hc3, hc4, hc5, hc6]

theorem api_dcol : ∀ (pv : Option Char) (v : List Char) (n : Nat),
    MatchSem apiKeyPat pv v n → ¬ occursIn ['d', ':'] (v.take n) := by
  intro pv v n hm hocc
  obtain ⟨x, y, hxy, hx, hy⟩ := api_split hm
  rw [hxy] at hocc
  have hdx : ('d' : Char) ∉ x := by
    intro hmm
    have := List.all_eq_true.mp hx _ hmm
    exact absurd this (by decide)
  have hcy : (':' : Char) ∉ y := by
    intro hmm
    have := List.all_eq_true.mp hy _ hmm
    exact absurd this (by decide)
  rcases occursIn_append_cases hocc with h1 | h2 | ⟨w1, w2, hw, hw1, hw2, ⟨a, ha⟩, ⟨b, hb⟩⟩
  · exact hdx (mem_of_occursIn h1 (by simp))
  · exact hcy (mem_of_occursIn h2 (by simp))
  · have hw1' : w1 = ['d'] ∧ w2 = [':'] := by
      cases w1 with
      | nil => exact absurd rfl hw1
      | cons a1 t1 =>
        cases t1 with
        | nil =>
          simp only [List.cons_append, List.nil_append, List.cons.injEq] at hw
          exact ⟨by rw [hw.1], hw.2.symm⟩
        | cons a2 t2 =>
          cases w2 with
          | nil => exact absurd rfl hw2
          | cons b1 tb =>
            simp only [List.cons_append, List.cons.injEq] at hw
            obtain ⟨-, -, habs⟩ := hw
            exact absurd (List.append_eq_nil.mp habs.symm).2 (by simp)
    obtain ⟨-, rfl⟩ := hw1'
    exact hcy (by rw [hb]; simp)

/-! ## Preservation of pattern freedom through the password pass -/

theorem pw_head_transfer {tgt : List RItem} {u : Char → Bool}
    (hresp : ∀ p lo hi, RItem.cls p lo hi ∈ tgt → ∀ c, p c = true → u c = true)
    (hwb : RItem.wordB ∉ tgt)
    (hRresp : ∀ p lo hi, RItem.cls p lo hi ∈ tgt → ∀ c c', pwRel c c' → p c = p c')
    (hbrk : u '[' = false)
    (hdcol : ∀ (pv : Option Char) (v : List Char) (n : Nat), MatchSem tgt pv v n →
      ¬ occursIn ['d', ':'] (v.take n))
    {prev : Option Char} {s out : List Char}
    (hd : Decomp passwordPat ("password: [REDACTED]".data) prev s out)
    {pv : Option Char} {n : Nat} (hm : MatchSem tgt pv out n) :
    MatchSem tgt prev s n := by
  have hall := matchSem_all_union hm hresp
  have hnle : n ≤ out.length := matchSem_le_length hm
  rcases decomp_align_pw hd n hnle (not_mem_take_of_union hall hbrk) with
    ⟨heq, hle⟩ | ⟨b, k, w, rest, hbk, hk1, hk10, hb, hcons, hw, hwlen, hfa⟩
  · exact matchSem_take_eq hm hwb heq hle
  · have hk8 : k ≤ 8 := by
      by_contra hgt
      push_neg at hgt
      refine hdcol pv out n hm ?_
      have htk : ("password: [REDACTED]".data).take k =
          ("passwor".data) ++ 'd' :: ':' :: (("password: [REDACTED]".data).drop 9).take (k - 9) := by
        rw [show k = 9 + (k - 9) by omega]
        rcases (show k - 9 = 0 ∨ k - 9 = 1 by omega) with h9 | h9 <;> rw [h9] <;> rfl
      rw [hcons, htk]
      exact ⟨out.take b ++ "passwor".data,
        (("password: [REDACTED]".data).drop 9).take (k - 9), by simp⟩
    have hptk : ("password: [REDACTED]".data).take k = ("password".data).take k := by
      rw [show ("password: [REDACTED]".data) = ("password".data) ++ (": [REDACTED]".data) from rfl,
        List.take_append_of_le_length (by rw [show ("password".data).length = 8 from rfl]; omega)]
    have hblen : b + 9 ≤ s.length := by
      have h2 := congrArg List.length hw
      rw [List.length_drop, List.length_append] at h2
      omega
    have hstk : s.take n = s.take b ++ w.take k := by
      have h3 : s.take n = s.take b ++ (s.drop b).take k := by
        rw [← hbk]
        exact List.take_add s b k
      rw [h3, hw, List.take_append_of_le_length (by omega : k ≤ w.length)]
    have hfa_k : List.Forall₂ pwRel (("password".data).take k) (w.take k) := by
      have h4 := forall2_take hfa k
      rw [List.take_take, show min k 8 = k by omega] at h4
      refine forall2_imp_mem h4 ?_
      intro c c' hmem hp
      exact Or.inr ⟨List.mem_of_mem_take hmem, hp⟩
    have hrel : List.Forall₂ pwRel (out.take n) (s.take n) := by
      rw [hcons, hptk, hstk, hb]
      exact forall2_append (forall2_pwRel_refl _) hfa_k
    exact matchSem_rel hm hRresp hwb hrel (by omega)

theorem preserve_free_pw {tgt : List RItem} {u : Char → Bool}
    (hresp : ∀ p lo hi, RItem.cls p lo hi ∈ tgt → ∀ c, p c = true → u c = true)
    (hwb : RItem.wordB ∉ tgt) (hsum : 1 ≤ sumLo tgt)
    (hRresp : ∀ p lo hi, RItem.cls p lo hi ∈ tgt → ∀ c c', pwRel c c' → p c = p c')
    (hbrk : u '[' = false)
    (hdcol : ∀ (pv : Option Char) (v : List Char) (n : Nat), MatchSem tgt pv v n →
      ¬ occursIn ['d', ':'] (v.take n))
    (hinside : ∀ t z pv n, 1 ≤ t → t < ("password: [REDACTED]".data).length →
      ¬ MatchSem tgt pv (("password: [REDACTED]".data).drop t ++ z) n) :
    ∀ {prev : Option Char} {s out : List Char},
      Decomp passwordPat ("password: [REDACTED]".data) prev s out →
      FreeFrom tgt prev s → FreeFrom tgt prev out := by
  intro prev s out hd
  induction hd with
  | done prev hnone =>
    intro _
    exact freeFrom_nil hsum prev
  | keep prev c s' out' hnone hsub ih =>
    intro hfree
    intro uu v n huv hm
    cases uu with
    | nil =>
      simp only [List.nil_append] at huv
      subst huv
      exact freeFrom_head hfree
        (pw_head_transfer hresp hwb hRresp hbrk hdcol
          (Decomp.keep prev c s' out' hnone hsub) hm)
    | cons c₀ uu' =>
      simp only [List.cons_append, List.cons.injEq] at huv
      obtain ⟨rfl, huv'⟩ := huv
      rw [threadPrev_cons] at hm
      exact ih (freeFrom_cons hfree) uu' v n huv' hm
  | rep prev s₀ w rest out₂ hmatch hwne hs₀ hsub ih =>
    intro hfree
    intro uu v n huv hm
    have hfree₂ : FreeFrom tgt (prevAfter prev s₀ w.length) rest := by
      have h0 : FreeFrom tgt prev (w ++ rest) := by rwa [← hs₀]
      have h1 : FreeFrom tgt (threadPrev prev w) rest := freeFrom_append h0
      have h2 : threadPrev prev w = prevAfter prev s₀ w.length := by
        have ht : s₀.take w.length = w := by
          rw [hs₀, List.take_append_of_le_length (Nat.le_refl _)]
          simp
        first
          | (simp only [prevAfter, threadPrev, ht]; rfl)
          | simp only [prevAfter, threadPrev, ht]
      rwa [h2] at h1
    have hout₂ := ih hfree₂
    rcases List.append_eq_append_iff.mp huv with ⟨e, he1, he2⟩ | ⟨e, he1, he2⟩
    · cases uu with
      | nil =>
        replace he1 : ("password: [REDACTED]".data) = e := by simpa using he1
        subst he1
        replace he2 : v = ("password: [REDACTED]".data) ++ out₂ := by simpa using he2
        subst he2
        exact freeFrom_head hfree
          (pw_head_transfer hresp hwb hRresp hbrk hdcol
            (Decomp.rep prev s₀ w rest out₂ hmatch hwne hs₀ hsub) hm)
      | cons c₀ uu' =>
        cases e with
        | nil =>
          replace he2 : v = out₂ := by simpa using he2
          exact (hout₂ [] v n (by simp [he2]))
            (matchSem_prev_irrel hm hwb (threadPrev (prevAfter prev s₀ w.length) []))
        | cons ec etl =>
          have ht1 : 1 ≤ (c₀ :: uu').length := by simp
          have ht2 : (c₀ :: uu').length < ("password: [REDACTED]".data).length := by
            rw [he1]
            simp only [List.length_append, List.length_cons]
            omega
          have hdrop : ("password: [REDACTED]".data).drop (c₀ :: uu').length = ec :: etl := by
            rw [he1, List.drop_append_of_le_length (Nat.le_refl _)]
            simp
          refine hinside (c₀ :: uu').length out₂ (threadPrev prev (c₀ :: uu')) n ht1 ht2 ?_
          rw [hdrop, ← he2]
          exact hm
    · subst he1
      exact hout₂ e v n he2.symm
        (matchSem_prev_irrel hm hwb (threadPrev (prevAfter prev s₀ w.length) e))

/-! ## Freedom from the first eight patterns in the full sanitizer output -/

theorem email_freeAll (s : List Char) : FreeFrom emailPat none (sanitizeChars s) := by
  rw [sanitizeChars_eq9]
  exact preserve_free_pw uEmail_resp email_noWb email_pos email_pwRel_resp (by decide)
    (dcol_of_union uEmail_resp (by decide))
    (noSemInside uEmail_resp email_req (le_of_eq email_sum.symm) (by decide))
    (decomp_replaceAll (no_empty_match pw_pos) _) (email_free9 s)

theorem phone_freeAll (s : List Char) : FreeFrom phonePat none (sanitizeChars s) := by
  rw [sanitizeChars_eq9]
  exact phone_pres rfl (by decide) (by decide) pw_pos (phone_free9 s)

theorem ssn_freeAll (s : List Char) : FreeFrom ssnPat none (sanitizeChars s) := by
  rw [sanitizeChars_eq9]
  exact ssn_pres rfl (by decide) (by decide) pw_pos (ssn_free9 s)

theorem cc_freeAll (s : List Char) : FreeFrom ccPat none (sanitizeChars s) := by
  rw [sanitizeChars_eq9]
  exact cc_pres rfl (by decide) (by decide) pw_pos (cc_free9 s)

theorem api_freeAll (s : List Char) : FreeFrom apiKeyPat none (sanitizeChars s) := by
  rw [sanitizeChars_eq9]
  exact preserve_free_pw uApi_resp api_noWb api_pos api_pwRel_resp (by decide)
    api_dcol
    (noSemInside uApi_resp api_req (le_of_eq api_sum.symm) (by decide))
    (decomp_replaceAll (no_empty_match pw_pos) _) (api_free9 s)

theorem jwt_freeAll (s : List Char) : FreeFrom jwtPat none (sanitizeChars s) := by
  rw [sanitizeChars_eq9]
  exact preserve_free_pw uJwt_resp jwt_noWb jwt_pos jwt_pwRel_resp (by decide)
    (dcol_of_union uJwt_resp (by decide))
    (noSemInside uJwt_resp jwt_req (le_of_eq jwt_sum.symm) (by decide))
    (decomp_replaceAll (no_empty_match pw_pos) _) (jwt_free9 s)




/-! ## Literal-sequence patterns ending in an open run -/

theorem lit_sem_elim {b : Char} {rest : List RItem} {pv : Option Char}
    {v : List Char} {n : Nat} (h : MatchSem (lit b :: rest) pv v n) :
    ∃ t m, v = b :: t ∧ n = 1 + m ∧ MatchSem rest (some b) t m := by
  obtain ⟨k, m, hn, hlo, hhi, hlen, hall, hrest⟩ := matchSem_cls_elim h
  simp only [Option.getD_some] at hhi
  have hk : k = 1 := by omega
  subst hk
  cases v with
  | nil => simp at hlen
  | cons c t =>
    have hc : c = b := by
      have := List.all_eq_true.mp hall c (by simp)
      simpa using this
    subst hc
    have hpa : prevAfter pv (c :: t) 1 = some c := rfl
    rw [hpa] at hrest
    exact ⟨t, m, rfl, hn, by simpa using hrest⟩

theorem lit_sem_intro {b : Char} {rest : List RItem} {pv : Option Char}
    {t : List Char} {m : Nat} (h : MatchSem rest (some b) t m) :
    MatchSem (lit b :: rest) pv (b :: t) (1 + m) := by
  have hpa : prevAfter pv (b :: t) 1 = some b := rfl
  exact MatchSem.cls _ 1 (some 1) rest pv (b :: t) 1 m (Nat.le_refl 1)
    (by simp) (by simp) (by simp) (by rw [hpa]; exact h)

theorem litSeq_sem_elim {q : Char → Bool} :
    ∀ (L : List Char) {pv : Option Char} {v : List Char} {n : Nat},
      MatchSem (L.map lit ++ [.cls q 1 none]) pv v n →
      ∃ a, n = L.length + a ∧ 1 ≤ a ∧ v.take L.length = L ∧
        ((v.drop L.length).take a).all q = true ∧ L.length + a ≤ v.length := by
  intro L
  induction L with
  | nil =>
    intro pv v n h
    simp only [List.map_nil, List.nil_append] at h
    obtain ⟨k, m, hn, hlo, -, hlen, hall, hrest⟩ := matchSem_cls_elim h
    have hm : m = 0 := matchSem_nil_elim hrest
    exact ⟨k, by simp only [List.length_nil, Nat.zero_add]; omega, hlo, rfl,
      by simpa using hall, by simpa using hlen⟩
  | cons b L' ih =>
    intro pv v n h
    simp only [List.map_cons, List.cons_append] at h
    obtain ⟨t, m, rfl, rfl, h2⟩ := lit_sem_elim h
    obtain ⟨a, hm, ha, htake, hall, hlen⟩ := ih h2
    refine ⟨a, by simp only [List.length_cons]; omega, ha, ?_, ?_, ?_⟩
    · simp only [List.length_cons, List.take_succ_cons, htake]
    · simpa using hall
    · simp only [List.length_cons]
      omega

theorem litSeq_sem_intro {q : Char → Bool} :
    ∀ (L : List Char) {pv : Option Char} {v : List Char} {a : Nat},
      v.take L.length = L → 1 ≤ a →
      ((v.drop L.length).take a).all q = true → L.length + a ≤ v.length →
      MatchSem (L.map lit ++ [.cls q 1 none]) pv v (L.length + a) := by
  intro L
  induction L with
  | nil =>
    intro pv v a _ ha hall hlen
    simp only [List.map_nil, List.nil_append]
    have h0 : MatchSem [RItem.cls q 1 none] pv v (a + 0) :=
      MatchSem.cls q 1 none [] pv v a 0 ha (by simp) (by simpa using hlen)
        (by simpa using hall) (MatchSem.nil _ _)
    simpa using h0
  | cons b L' ih =>
    intro pv v a htake ha hall hlen
    cases v with
    | nil =>
      simp only [List.length_cons, List.length_nil] at hlen
      omega
    | cons c t =>
      simp only [List.length_cons, List.take_succ_cons, List.cons.injEq] at htake
      obtain ⟨rfl, htake'⟩ := htake
      simp only [List.map_cons, List.cons_append]
      have hrec : MatchSem (L'.map lit ++ [RItem.cls q 1 none]) (some c) t
          (L'.length + a) := by
        refine ih htake' ha ?_ ?_
        · simpa using hall
        · simp only [List.length_cons] at hlen
          omega
      have := @lit_sem_intro c _ pv _ _ hrec
      simp only [List.length_cons]
      have hfin : (L'.length + 1) + a = 1 + (L'.length + a) := by omega
      rw [hfin]
      exact this

theorem all_take_of_all_take {q : Char → Bool} {l : List Char} {a m : Nat}
    (h : (l.take a).all q = true) (hm : m ≤ a) : (l.take m).all q = true := by
  rw [List.all_eq_true] at h ⊢
  intro c hc
  have : c ∈ l.take a := by
    have h2 : l.take m = (l.take a).take m := by
      rw [List.take_take]
      congr 1
      omega
    rw [h2] at hc
    exact List.mem_of_mem_take hc
  exact h c this

/-! ## Password-pass preservation for literal-run patterns -/

theorem litSeq_head_transfer {L : List Char} {q u : Char → Bool}
    (hresp : ∀ p lo hi, RItem.cls p lo hi ∈ (L.map lit ++ [RItem.cls q 1 none]) →
      ∀ c, p c = true → u c = true)
    (hwb : RItem.wordB ∉ (L.map lit ++ [RItem.cls q 1 none]))
    (hbrk : u '[' = false) (hcol : u ':' = false) (hpL : 'p' ∉ L)
    (hqp : q 'p' = true) (hqP : q 'P' = true)
    {prev : Option Char} {s out : List Char}
    (hd : Decomp passwordPat ("password: [REDACTED]".data) prev s out)
    {pv : Option Char} {n : Nat}
    (hm : MatchSem (L.map lit ++ [RItem.cls q 1 none]) pv out n) :
    ∃ n', MatchSem (L.map lit ++ [RItem.cls q 1 none]) prev s n' := by
  have hall := matchSem_all_union hm hresp
  have hnle : n ≤ out.length := matchSem_le_length hm
  rcases decomp_align_pw hd n hnle (not_mem_take_of_union hall hbrk) with
    ⟨heq, hle⟩ | ⟨b, k, w, rest, hbk, hk1, hk10, hb, hcons, hw, hwlen, hfa⟩
  · exact ⟨n, matchSem_take_eq hm hwb heq hle⟩
  · obtain ⟨a, hna, ha1, htakeL, hrun, hlen2⟩ := litSeq_sem_elim L hm
    have hk8 : k ≤ 8 := by
      by_contra hgt
      push_neg at hgt
      have hcolmem : (':' : Char) ∈ ("password: [REDACTED]".data).take k := by
        rcases (show k = 9 ∨ k = 10 by omega) with rfl | rfl <;> decide
      have : (':' : Char) ∈ out.take n := by
        rw [hcons]
        exact List.mem_append_right _ hcolmem
      have := List.all_eq_true.mp hall _ this
      rw [hcol] at this
      exact absurd this (by simp)
    have hblen : b + 9 ≤ s.length := by
      have h2 := congrArg List.length hw
      rw [List.length_drop, List.length_append] at h2
      omega
    -- the matched literal part lies before the replacement boundary
    have hbL : L.length ≤ b := by
      by_contra hgt
      push_neg at hgt
      apply hpL
      have h1 : ('p' : Char) ∈ L.take (b + 1) := by
        have e1 : (out.take n).take (b + 1) = out.take (b + 1) := by
          rw [List.take_take]
          congr 1
          omega
        have hoblen : (out.take b).length = b := by
          rw [List.length_take]
          omega
        have e2 : (out.take n).take (b + 1) =
            out.take b ++ (("password: [REDACTED]".data).take k).take 1 := by
          rw [hcons, List.take_append_eq_append_take, hoblen, List.take_take,
            show min (b + 1) b = b from by omega,
            show b + 1 - b = 1 from by omega]
        have e3 : (("password: [REDACTED]".data).take k).take 1 = ['p'] := by
          rw [List.take_take, show min 1 k = 1 by omega]
          rfl
        have e4 : L.take (b + 1) = (out.take L.length).take (b + 1) := by
          rw [htakeL]
        have e5 : (out.take L.length).take (b + 1) = out.take (b + 1) := by
          rw [List.take_take]
          congr 1
          omega
        rw [e4, e5, ← e1, e2, e3]
        exact List.mem_append_right _ (by simp)
      exact List.mem_of_mem_take h1
    -- build a match on the input at the same position
    have hsL : s.take L.length = L := by
      have e1 : s.take L.length = (s.take b).take L.length := by
        rw [List.take_take]
        congr 1
        omega
      rw [e1, ← hb, List.take_take, show min L.length b = L.length by omega, htakeL]
    have hM : ((s.drop L.length).take (b - L.length)).all q = true := by
      have e1 : (s.drop L.length).take (b - L.length) =
          (out.drop L.length).take (b - L.length) := by
        have e2 : (s.take b).drop L.length = (s.drop L.length).take (b - L.length) :=
          List.drop_take b L.length s
        have e3 : (out.take b).drop L.length = (out.drop L.length).take (b - L.length) :=
          List.drop_take b L.length out
        rw [← e2, ← e3, hb]
      rw [e1]
      exact all_take_of_all_take hrun (by omega : b - L.length ≤ a)
    obtain ⟨w0, w', rfl⟩ : ∃ w0 w', w = w0 :: w' := by
      cases w with
      | nil => simp at hwlen
      | cons w0 w' => exact ⟨w0, w', rfl⟩
    have hqw0 : q w0 = true := by
      have hci : ciLetter 'p' w0 = true := by
        have h8 : (w0 :: w').take 8 = w0 :: w'.take 7 := by simp [List.take_succ_cons]
        rw [h8] at hfa
        rw [show ("password".data) = 'p' :: ("assword".data) from rfl] at hfa
        cases hfa with
        | cons hx _ => exact hx
      simp only [ciLetter, Bool.or_eq_true, decide_eq_true_eq] at hci
      rcases hci with rfl | hup
      · exact hqp
      · rw [hup]
        exact hqP
    have hdropsplit : s.drop L.length =
        (s.drop L.length).take (b - L.length) ++ (w0 :: (w' ++ rest)) := by
      have e1 : (s.drop L.length).drop (b - L.length) = s.drop b := by
        rw [List.drop_drop]
        congr 1
        omega
      conv_lhs => rw [← List.take_append_drop (b - L.length) (s.drop L.length)]
      rw [e1, hw]
      rfl
    have hMlen : ((s.drop L.length).take (b - L.length)).length = b - L.length := by
      rw [List.length_take, List.length_drop]
      omega
    have hrun2 : ((s.drop L.length).take (b - L.length + 1)).all q = true := by
      have e1 : (s.drop L.length).take (b - L.length + 1) =
          (s.drop L.length).take (b - L.length) ++ [w0] := by
        conv_lhs => rw [hdropsplit]
        rw [show b - L.length + 1 = ((s.drop L.length).take (b - L.length)).length + 1 by
          rw [hMlen], List.take_append]
        rfl
      rw [e1, List.all_append]
      simp [hM, hqw0]
    have hfinlen : L.length + (b - L.length + 1) ≤ s.length := by omega
    exact ⟨L.length + (b - L.length + 1),
      litSeq_sem_intro L hsL (by omega) hrun2 hfinlen⟩

theorem preserve_free_pw_trans {tgt : List RItem}
    (hwb : RItem.wordB ∉ tgt) (hsum : 1 ≤ sumLo tgt)
    (htrans : ∀ {prev : Option Char} {s out : List Char},
      Decomp passwordPat ("password: [REDACTED]".data) prev s out →
      ∀ {pv : Option Char} {n : Nat}, MatchSem tgt pv out n →
        ∃ n', MatchSem tgt prev s n')
    (hinside : ∀ t z pv n, 1 ≤ t → t < ("password: [REDACTED]".data).length →
      ¬ MatchSem tgt pv (("password: [REDACTED]".data).drop t ++ z) n) :
    ∀ {prev : Option Char} {s out : List Char},
      Decomp passwordPat ("password: [REDACTED]".data) prev s out →
      FreeFrom tgt prev s → FreeFrom tgt prev out := by
  intro prev s out hd
  induction hd with
  | done prev hnone =>
    intro _
    exact freeFrom_nil hsum prev
  | keep prev c s' out' hnone hsub ih =>
    intro hfree
    intro uu v n huv hm
    cases uu with
    | nil =>
      simp only [List.nil_append] at huv
      subst huv
      obtain ⟨n', hm'⟩ := htrans (Decomp.keep prev c s' out' hnone hsub) hm
      exact freeFrom_head hfree hm'
    | cons c₀ uu' =>
      simp only [List.cons_append, List.cons.injEq] at huv
      obtain ⟨rfl, huv'⟩ := huv
      rw [threadPrev_cons] at hm
      exact ih (freeFrom_cons hfree) uu' v n huv' hm
  | rep prev s₀ w rest out₂ hmatch hwne hs₀ hsub ih =>
    intro hfree
    intro uu v n huv hm
    have hfree₂ : FreeFrom tgt (prevAfter prev s₀ w.length) rest := by
      have h0 : FreeFrom tgt prev (w ++ rest) := by rwa [← hs₀]
      have h1 : FreeFrom tgt (threadPrev prev w) rest := freeFrom_append h0
      have h2 : threadPrev prev w = prevAfter prev s₀ w.length := by
        have ht : s₀.take w.length = w := by
          rw [hs₀, List.take_append_of_le_length (Nat.le_refl _)]
          simp
        first
          | (simp only [prevAfter, threadPrev, ht]; rfl)
          | simp only [prevAfter, threadPrev, ht]
      rwa [h2] at h1
    have hout₂ := ih hfree₂
    rcases List.append_eq_append_iff.mp huv with ⟨e, he1, he2⟩ | ⟨e, he1, he2⟩
    · cases uu with
      | nil =>
        replace he1 : ("password: [REDACTED]".data) = e := by simpa using he1
        subst he1
        replace he2 : v = ("password: [REDACTED]".data) ++ out₂ := by simpa using he2
        subst he2
        obtain ⟨n', hm'⟩ := htrans
          (Decomp.rep prev s₀ w rest out₂ hmatch hwne hs₀ hsub) hm
        exact freeFrom_head hfree hm'
      | cons c₀ uu' =>
        cases e with
        | nil =>
          replace he2 : v = out₂ := by simpa using he2
          exact (hout₂ [] v n (by simp [he2]))
            (matchSem_prev_irrel hm hwb (threadPrev (prevAfter prev s₀ w.length) []))
        | cons ec etl =>
          have ht1 : 1 ≤ (c₀ :: uu').length := by simp
          have ht2 : (c₀ :: uu').length < ("password: [REDACTED]".data).length := by
            rw [he1]
            simp only [List.length_append, List.length_cons]
            omega
          have hdrop : ("password: [REDACTED]".data).drop (c₀ :: uu').length = ec :: etl := by
            rw [he1, List.drop_append_of_le_length (Nat.le_refl _)]
            simp
          refine hinside (c₀ :: uu').length out₂ (threadPrev prev (c₀ :: uu')) n ht1 ht2 ?_
          rw [hdrop, ← he2]
          exact hm
    · subst he1
      exact hout₂ e v n he2.symm
        (matchSem_prev_irrel hm hwb (threadPrev (prevAfter prev s₀ w.length) e))

/-! ## The two secret-key patterns through the password pass -/

theorem skLive_form : skLivePat =
    ("sk_live_".data).map lit ++ [RItem.cls isAlnum 1 none] := rfl

theorem skTest_form : skTestPat =
    ("sk_test_".data).map lit ++ [RItem.cls isAlnum 1 none] := rfl

theorem skLive_freeAll (s : List Char) : FreeFrom skLivePat none (sanitizeChars s) := by
  rw [sanitizeChars_eq9]
  refine preserve_free_pw_trans skLive_noWb skLive_pos ?_
    (noSemInside uSkLive_resp skLive_req (le_of_eq skLive_sum.symm) (by decide))
    (decomp_replaceAll (no_empty_match pw_pos) _) (skLive_free9 s)
  intro prev s' out hd pv n hm
  rw [skLive_form] at hm ⊢
  exact litSeq_head_transfer (by rw [← skLive_form]; exact uSkLive_resp)
    (by rw [← skLive_form]; exact skLive_noWb) (by decide) (by decide) (by decide)
    (by decide) (by decide) hd hm

theorem skTest_freeAll (s : List Char) : FreeFrom skTestPat none (sanitizeChars s) := by
  rw [sanitizeChars_eq9]
  refine preserve_free_pw_trans skTest_noWb skTest_pos ?_
    (noSemInside uSkTest_resp skTest_req (le_of_eq skTest_sum.symm) (by decide))
    (decomp_replaceAll (no_empty_match pw_pos) _) (skTest_free9 s)
  intro prev s' out hd pv n hm
  rw [skTest_form] at hm ⊢
  exact litSeq_head_transfer (by rw [← skTest_form]; exact uSkTest_resp)
    (by rw [← skTest_form]; exact skTest_noWb) (by decide) (by decide) (by decide)
    (by decide) (by decide) hd hm




/-! ## Word-boundary context of a match -/

/-- Whether the optional previous character is a word character. -/
def wOpt : Option Char → Bool
  | some c => isWordChar c
  | none => false

/-- Whether the first character of a list is a word character. -/
def wHead : List Char → Bool
  | c :: _ => isWordChar c
  | [] => false

theorem atBoundary_eq (pv : Option Char) (v : List Char) :
    atBoundary pv v = (wOpt pv != wHead v) := by
  cases pv <;> cases v <;> rfl

theorem isWordChar_of_digit {c : Char} (h : isDigitC c = true) :
    isWordChar c = true := by
  simp [isWordChar, isAlnum, h]

theorem digit_not_space {c : Char} (hd : isDigitC c = true)
    (hs : isJsSpace c = true) : False := by
  simp only [isDigitC, Bool.and_eq_true, decide_eq_true_eq] at hd
  obtain ⟨h0, h9⟩ := hd
  simp only [isJsSpace, Bool.or_eq_true, decide_eq_true_eq,
    Bool.and_eq_true] at hs
  rcases hs with
    (((((((((((((rfl | rfl) | rfl) | rfl) | rfl) | rfl) | rfl) | rfl) |
      ⟨ha, hb⟩) | rfl) | rfl) | rfl) | rfl) | rfl) | rfl
  all_goals first
    | exact absurd h0 (by decide)
    | exact absurd h9 (by decide)
    | exact absurd (le_trans ha h9) (by decide)

theorem pwVal_of_digit {c : Char} (hd : isDigitC c = true) : pwVal c = true := by
  have h1 : isJsSpace c = false := by
    cases hsp : isJsSpace c
    · rfl
    · exact (digit_not_space hd hsp).elim
  have h2 : c ≠ ',' := fun h => by rw [h] at hd; exact absurd hd (by decide)
  have h3 : c ≠ '\x7d' := fun h => by rw [h] at hd; exact absurd hd (by decide)
  have h4 : c ≠ '"' := fun h => by rw [h] at hd; exact absurd hd (by decide)
  have h5 : c ≠ '\'' := fun h => by rw [h] at hd; exact absurd hd (by decide)
  simp [pwVal, h1, h2, h3, h4, h5]

theorem cons_of_take_all {p : Char → Bool} {v : List Char} {k : Nat}
    (hk : 1 ≤ k) (hlen : k ≤ v.length) (hall : (v.take k).all p = true) :
    ∃ d t, v = d :: t ∧ p d = true := by
  cases v with
  | nil => simp at hlen; omega
  | cons d t =>
    cases k with
    | zero => omega
    | succ j =>
      simp only [List.take_succ_cons, List.all_cons, Bool.and_eq_true] at hall
      exact ⟨d, t, rfl, hall.1⟩

theorem getLast_all {p : Char → Bool} {l : List Char} (hne : l ≠ [])
    (hall : l.all p = true) : ∃ d, l.getLast? = some d ∧ p d = true :=
  ⟨l.getLast hne, List.getLast?_eq_getLast_of_ne_nil hne,
    List.all_eq_true.mp hall _ (List.getLast_mem hne)⟩

theorem getLast?_append_right {a b : List Char} (hb : b ≠ []) :
    (a ++ b).getLast? = b.getLast? := by
  have hab : a ++ b ≠ [] := fun h => hb (List.append_eq_nil.mp h).2
  rw [List.getLast?_eq_getLast_of_ne_nil hab, List.getLast?_eq_getLast_of_ne_nil hb]
  congr 1
  exact List.getLast_append_of_ne_nil hb

theorem wOpt_prevAfter_congr {pv' pv : Option Char} {v' v : List Char} {k : Nat}
    (hpv : wOpt pv' = wOpt pv) (hgl : (v'.take k).getLast? = (v.take k).getLast?) :
    wOpt (prevAfter pv' v' k) = wOpt (prevAfter pv v k) := by
  unfold prevAfter
  rw [hgl]
  cases hgv : (v.take k).getLast? with
  | none => exact hpv
  | some d => rfl

/-! ## Transfer of a match along boundary-respecting context -/

/-- A match transfers to another string and previous-character context as
long as the consumed characters agree, the word-character status of the
previous character agrees, and the word-character status of the first
character after the match agrees. -/
theorem matchSem_transfer_b {items : List RItem} {pv : Option Char}
    {v : List Char} {n : Nat} (h : MatchSem items pv v n) :
    ∀ {pv' : Option Char} {v' : List Char}, wOpt pv' = wOpt pv →
      v'.take n = v.take n → n ≤ v'.length →
      wHead (v'.drop n) = wHead (v.drop n) → MatchSem items pv' v' n := by
  induction h with
  | nil =>
    intro pv' v' _ _ _ _
    exact MatchSem.nil _ _
  | word rest pv v n hb hm ih =>
    intro pv' v' hpv htake hlen htail
    refine MatchSem.word rest pv' v' n ?_ (ih hpv htake hlen htail)
    have hw : wHead v' = wHead v := by
      cases n with
      | zero => simpa using htail
      | succ m =>
        cases v' with
        | nil =>
          simp only [List.length_nil, Nat.le_zero] at hlen
          exact absurd hlen (by omega)
        | cons a t' =>
          cases v with
          | nil => simp at htake
          | cons b t =>
            simp only [List.take_succ_cons, List.cons.injEq] at htake
            obtain ⟨rfl, -⟩ := htake
            rfl
    rw [atBoundary_eq, hpv, hw, ← atBoundary_eq]
    exact hb
  | cls p lo hi rest pv v k m hlo hhi hklen hall hrest ih =>
    intro pv' v' hpv htake hlen' htail
    have ht : v'.take k = v.take k := by
      have h1 : (v'.take (k + m)).take k = (v.take (k + m)).take k := by rw [htake]
      rw [List.take_take, List.take_take, Nat.min_eq_left (by omega)] at h1
      exact h1
    have hgl : (v'.take k).getLast? = (v.take k).getLast? := by rw [ht]
    have hall' : (v'.take k).all p = true := by rw [ht]; exact hall
    refine MatchSem.cls p lo hi rest pv' v' k m hlo hhi (by omega) hall' ?_
    refine ih (wOpt_prevAfter_congr hpv hgl) ?_ ?_ ?_
    · have h2 : (v'.take (k + m)).drop k = (v.take (k + m)).drop k := by rw [htake]
      rw [List.drop_take, List.drop_take] at h2
      simpa [show k + m - k = m by omega] using h2
    · rw [List.length_drop]
      omega
    · rw [← List.drop_add, ← List.drop_add]
      exact htail

/-! ## Shape of an IP-pattern match -/

theorem ip_shape {pv : Option Char} {v : List Char} {n : Nat}
    (h : MatchSem ipPat pv v n) :
    atBoundary pv v = true ∧ 7 ≤ n ∧ n ≤ v.length ∧
    (∃ d t, v = d :: t ∧ isDigitC d = true) ∧
    (∃ d, (v.take n).getLast? = some d ∧ isDigitC d = true) ∧
    wHead (v.drop n) = false := by
  obtain ⟨hb0, h1⟩ := matchSem_word_elim h
  obtain ⟨k1, m1, hn, hk1lo, hk1hi, hk1len, hall1, h2⟩ := matchSem_cls_elim h1
  obtain ⟨t2, m2, hv2, hm1, h3⟩ := lit_sem_elim h2
  obtain ⟨k2, m3, hm2, hk2lo, hk2hi, hk2len, hall2, h4⟩ := matchSem_cls_elim h3
  obtain ⟨t4, m4, hv4, hm3, h5⟩ := lit_sem_elim h4
  obtain ⟨k3, m5, hm4, hk3lo, hk3hi, hk3len, hall3, h6⟩ := matchSem_cls_elim h5
  obtain ⟨t6, m6, hv6, hm5, h7⟩ := lit_sem_elim h6
  obtain ⟨k4, m7, hm6, hk4lo, hk4hi, hk4len, hall4, h8⟩ := matchSem_cls_elim h7
  obtain ⟨hbE, h9⟩ := matchSem_word_elim h8
  have hm7 : m7 = 0 := matchSem_nil_elim h9
  have e1 : v.drop (k1 + 1) = t2 := by rw [List.drop_add, hv2]; rfl
  have e2 : v.drop (k1 + 1 + k2) = t2.drop k2 := by rw [List.drop_add, e1]
  have e3 : v.drop (k1 + 1 + k2 + 1) = t4 := by rw [List.drop_add, e2, hv4]; rfl
  have e4 : v.drop (k1 + 1 + k2 + 1 + k3) = t4.drop k3 := by rw [List.drop_add, e3]
  have e5 : v.drop (k1 + 1 + k2 + 1 + k3 + 1) = t6 := by
    rw [List.drop_add, e4, hv6]; rfl
  have e6 : v.drop (k1 + 1 + k2 + 1 + k3 + 1 + k4) = t6.drop k4 := by
    rw [List.drop_add, e5]
  have hneq : n = k1 + 1 + k2 + 1 + k3 + 1 + k4 := by omega
  have ht6ne : t6.take k4 ≠ [] := by
    intro h0
    have hl := congrArg List.length h0
    rw [List.length_take] at hl
    simp only [List.length_nil] at hl
    omega
  obtain ⟨dl, hgl, hdl⟩ := getLast_all ht6ne hall4
  have hpaE : prevAfter (some '.') t6 k4 = some dl := by
    simp only [prevAfter, hgl]
  rw [hpaE, atBoundary_eq] at hbE
  simp only [wOpt, isWordChar_of_digit hdl, Bool.true_bne] at hbE
  have htl : wHead (t6.drop k4) = false := by
    cases hwh : wHead (t6.drop k4)
    · rfl
    · rw [hwh] at hbE; exact absurd hbE (by decide)
  refine ⟨hb0, by omega, matchSem_le_length h, ?_, ?_, ?_⟩
  · exact cons_of_take_all hk1lo hk1len hall1
  · refine ⟨dl, ?_, hdl⟩
    rw [hneq, List.take_add, e5, getLast?_append_right ht6ne]
    exact hgl
  · rw [hneq, e6]
    exact htl

/-! ## Greedy maximality of the password matcher's final run -/

theorem tryCount_end {next : Option Char → List Char → Option Nat}
    (hnext : ∀ pv t r, next pv t = some r → pwVal ((t.drop r).headD ' ') = false) :
    ∀ (k : Nat) (pv : Option Char) (s : List Char) (lo res : Nat),
      tryCount next pv s lo k = some res →
      pwVal ((s.drop res).headD ' ') = false := by
  intro k
  induction k with
  | zero =>
    intro pv s lo res h
    rw [tryCount_zero_eq] at h
    split at h
    · exact absurd h (by simp)
    · cases hn : next pv s with
      | none => rw [hn] at h; exact absurd h (by simp)
      | some n =>
        rw [hn] at h
        injection h with h2
        subst h2
        exact hnext pv s n hn
  | succ k ih =>
    intro pv s lo res h
    rw [tryCount_succ_eq] at h
    split at h
    · exact absurd h (by simp)
    · cases hn : next (prevAfter pv s (k + 1)) (s.drop (k + 1)) with
      | none => rw [hn] at h; exact ih pv s lo res h
      | some n =>
        rw [hn] at h
        injection h with h2
        subst h2
        have hres := hnext _ _ _ hn
        rw [← List.drop_add] at hres
        exact hres

theorem matchItems_cls_end {q : Char → Bool} {lo : Nat} {hi : Option Nat}
    {rest : List RItem}
    (hrest : ∀ pv t r, matchItems rest pv t = some r →
      pwVal ((t.drop r).headD ' ') = false) :
    ∀ pv s r, matchItems (RItem.cls q lo hi :: rest) pv s = some r →
      pwVal ((s.drop r).headD ' ') = false := by
  intro pv s r h
  simp only [matchItems] at h
  split at h
  · exact absurd h (by simp)
  · exact tryCount_end hrest _ pv s lo r h

theorem matchItems_pwVal_end :
    ∀ pv s r, matchItems [RItem.cls pwVal 1 none] pv s = some r →
      pwVal ((s.drop r).headD ' ') = false := by
  intro pv s r h
  simp only [matchItems, Option.getD_none, Nat.min_self] at h
  cases hm : charRun pwVal s with
  | zero => rw [hm] at h; simp at h
  | succ j =>
    rw [hm] at h
    rw [if_neg (by omega)] at h
    rw [tryCount_succ_eq] at h
    rw [if_neg (by omega)] at h
    simp only [matchItems] at h
    injection h with h2
    subst h2
    cases hd : s.drop (j + 1 + 0) with
    | nil => decide
    | cons dm dr =>
      have hdr : s.drop (charRun pwVal s) = dm :: dr := by
        rw [hm]; exact hd
      exact charRun_drop_head hdr

theorem matchItems_pw_end (pv : Option Char) (s : List Char) (r : Nat)
    (h : matchItems passwordPat pv s = some r) :
    pwVal ((s.drop r).headD ' ') = false := by
  have h' : matchItems (RItem.cls (ciLetter 'p') 1 (some 1) ::
      RItem.cls (ciLetter 'a') 1 (some 1) :: RItem.cls (ciLetter 's') 1 (some 1) ::
      RItem.cls (ciLetter 's') 1 (some 1) :: RItem.cls (ciLetter 'w') 1 (some 1) ::
      RItem.cls (ciLetter 'o') 1 (some 1) :: RItem.cls (ciLetter 'r') 1 (some 1) ::
      RItem.cls (ciLetter 'd') 1 (some 1) :: RItem.cls keySep 0 none ::
      [RItem.cls pwVal 1 none]) pv s = some r := h
  exact matchItems_cls_end (matchItems_cls_end (matchItems_cls_end
    (matchItems_cls_end (matchItems_cls_end (matchItems_cls_end
      (matchItems_cls_end (matchItems_cls_end (matchItems_cls_end
        matchItems_pwVal_end)))))))) pv s r h'

/-! ## No IP match can start immediately after a replaced stretch -/

theorem threadPrev_ne_nil (x y : Option Char) (e : List Char) (he : e ≠ []) :
    threadPrev x e = threadPrev y e := by
  cases hgl : e.getLast? with
  | none => exact absurd (List.getLast?_eq_none.mp hgl) he
  | some d => simp only [threadPrev, hgl]

theorem after_ip_node {pa : Option Char} {rest out₂ : List Char}
    (hsub : Decomp ipPat ("[IP_ADDRESS]".data) pa rest out₂)
    (hrh : wHead rest = false)
    {pv : Option Char} {n : Nat} (hm : MatchSem ipPat pv out₂ n) : False := by
  obtain ⟨-, hn7, hnlen, ⟨d, t, hout, hd⟩, -, -⟩ := ip_shape hm
  cases hsub with
  | done _ => exact absurd hout (by simp)
  | keep prev c s' out' hnone hsub' =>
    injection hout with h1 h2
    subst h1
    rw [show wHead (c :: s') = isWordChar c from rfl,
      isWordChar_of_digit hd] at hrh
    exact absurd hrh (by decide)
  | rep prev s₀ w rest₂ out₃ hmatch hwne hs₀ hsub' =>
    have h0 : ('[' :: (("IP_ADDRESS]".data : List Char) ++ out₃)) = d :: t := hout
    injection h0 with h1 h2
    rw [← h1] at hd
    exact absurd hd (by decide)

theorem after_pw_node {pa : Option Char} {rest out₂ : List Char}
    (hsub : Decomp passwordPat ("password: [REDACTED]".data) pa rest out₂)
    (hrh : pwVal (rest.headD ' ') = false)
    {pv : Option Char} {n : Nat} (hm : MatchSem ipPat pv out₂ n) : False := by
  obtain ⟨-, hn7, hnlen, ⟨d, t, hout, hd⟩, -, -⟩ := ip_shape hm
  cases hsub with
  | done _ => exact absurd hout (by simp)
  | keep prev c s' out' hnone hsub' =>
    injection hout with h1 h2
    subst h1
    have hrh' : pwVal c = false := hrh
    rw [pwVal_of_digit hd] at hrh'
    exact absurd hrh' (by decide)
  | rep prev s₀ w rest₂ out₃ hmatch hwne hs₀ hsub' =>
    have h0 : ('p' :: (("assword: [REDACTED]".data : List Char) ++ out₃)) = d :: t :=
      hout
    injection h0 with h1 h2
    rw [← h1] at hd
    exact absurd hd (by decide)

/-! ## The IP pass leaves its output free of the IP pattern -/

theorem ip_own_free : ∀ {prev : Option Char} {s out : List Char},
    Decomp ipPat ("[IP_ADDRESS]".data) prev s out → FreeFrom ipPat prev out := by
  intro prev s out hd
  induction hd with
  | done prev hnone => exact freeFrom_nil ip_pos prev
  | keep prev c s' out' hnone hsub ih =>
    intro uu v n huv hm
    cases uu with
    | nil =>
      simp only [List.nil_append] at huv
      subst huv
      have hall := matchSem_all_union hm uIp_resp
      have hnle : n ≤ (c :: out').length := matchSem_le_length hm
      obtain ⟨heq, hle, hnext⟩ := decomp_align
        (show ("[IP_ADDRESS]".data) = '[' :: ("IP_ADDRESS]".data) from rfl)
        (Decomp.keep prev c s' out' hnone hsub) n hnle
        (not_mem_take_of_union hall (by decide))
      obtain ⟨hb0, hn7, -, -, ⟨dl, hdl, hdldig⟩, htl⟩ := ip_shape hm
      rcases hnext with ⟨ho, hs⟩ | ⟨c₀, o₂, s₂, h1, h2⟩ |
        ⟨o₂, w, rest, h1, h2, h3, h4⟩
      · have hm' : MatchSem ipPat prev (c :: s') n :=
          matchSem_transfer_b hm rfl heq.symm hle (by rw [ho, hs])
        obtain ⟨m0, hsome⟩ := matchItems_complete hm'
        rw [hnone] at hsome
        exact absurd hsome (by simp)
      · have hm' : MatchSem ipPat prev (c :: s') n :=
          matchSem_transfer_b hm rfl heq.symm hle (by rw [h1, h2]; rfl)
        obtain ⟨m0, hsome⟩ := matchItems_complete hm'
        rw [hnone] at hsome
        exact absurd hsome (by simp)
      · have hnode := matchItems_sound h4
        obtain ⟨hb0', -, -, ⟨d', t', hsd, hd'⟩, -, -⟩ := ip_shape hnode
        have hglS : (((c :: s')).take n).getLast? = some dl := by
          rw [← heq]; exact hdl
        have hpv2 : threadPrev prev ((c :: s').take n) = some dl := by
          simp only [threadPrev, hglS]
        rw [hpv2, hsd, atBoundary_eq] at hb0'
        simp only [wOpt, wHead, isWordChar_of_digit hdldig,
          isWordChar_of_digit hd'] at hb0'
        exact absurd hb0' (by decide)
    | cons c₀ uu' =>
      simp only [List.cons_append, List.cons.injEq] at huv
      obtain ⟨rfl, huv'⟩ := huv
      rw [threadPrev_cons] at hm
      exact ih uu' v n huv' hm
  | rep prev s₀ w rest out₂ hmatch hwne hs₀ hsub ih =>
    intro uu v n huv hm
    have hrest : s₀.drop w.length = rest := by
      rw [hs₀]
      exact List.drop_left w rest
    have hnode := matchItems_sound hmatch
    obtain ⟨-, -, -, -, -, htlN⟩ := ip_shape hnode
    rw [hrest] at htlN
    rcases List.append_eq_append_iff.mp huv with ⟨e, he1, he2⟩ | ⟨e, he1, he2⟩
    · cases uu with
      | nil =>
        replace he1 : ("[IP_ADDRESS]".data) = e := by simpa using he1
        subst he1
        replace he2 : v = ("[IP_ADDRESS]".data) ++ out₂ := by simpa using he2
        subst he2
        obtain ⟨-, -, -, ⟨d, t, hvd, hd⟩, -, -⟩ := ip_shape hm
        have h0 : ('[' :: (("IP_ADDRESS]".data : List Char) ++ out₂)) = d :: t := hvd
        injection h0 with h1 h2
        rw [← h1] at hd
        exact absurd hd (by decide)
      | cons c₀ uu' =>
        cases e with
        | nil =>
          replace he2 : v = out₂ := by simpa using he2
          subst he2
          exact after_ip_node hsub htlN hm
        | cons ec etl =>
          have ht1 : 1 ≤ (c₀ :: uu').length := by simp
          have ht2 : (c₀ :: uu').length < ("[IP_ADDRESS]".data).length := by
            rw [he1]
            simp only [List.length_append, List.length_cons]
            omega
          have hdrop : ("[IP_ADDRESS]".data).drop (c₀ :: uu').length = ec :: etl := by
            rw [he1, List.drop_append_of_le_length (Nat.le_refl _)]
            simp
          refine noSemInside uIp_resp ip_req (by rw [ip_sum]) (by decide)
            (c₀ :: uu').length out₂ (threadPrev prev (c₀ :: uu')) n ht1 ht2 ?_
          rw [hdrop, ← he2]
          exact hm
    · cases e with
      | nil =>
        replace he2 : out₂ = v := by simpa using he2
        subst he2
        exact after_ip_node hsub htlN hm
      | cons ec etl =>
        subst he1
        have hth : threadPrev prev (("[IP_ADDRESS]".data) ++ (ec :: etl)) =
            threadPrev (prevAfter prev s₀ w.length) (ec :: etl) := by
          rw [threadPrev_append]
          exact threadPrev_ne_nil _ _ _ (by simp)
        rw [hth] at hm
        exact ih (ec :: etl) v n he2.symm hm

/-! ## The password pass preserves freedom from the IP pattern -/

theorem ip_pres_pw : ∀ {prev : Option Char} {s out : List Char},
    Decomp passwordPat ("password: [REDACTED]".data) prev s out →
    FreeFrom ipPat prev s → FreeFrom ipPat prev out := by
  intro prev s out hd
  induction hd with
  | done prev hnone =>
    intro _
    exact freeFrom_nil ip_pos prev
  | keep prev c s' out' hnone hsub ih =>
    intro hfree
    intro uu v n huv hm
    cases uu with
    | nil =>
      simp only [List.nil_append] at huv
      subst huv
      have hall := matchSem_all_union hm uIp_resp
      have hnle : n ≤ (c :: out').length := matchSem_le_length hm
      obtain ⟨heq, hle, hnext⟩ := decomp_align
        (show ("password: [REDACTED]".data) = 'p' :: ("assword: [REDACTED]".data)
          from rfl)
        (Decomp.keep prev c s' out' hnone hsub) n hnle
        (not_mem_take_of_union hall (by decide))
      obtain ⟨hb0, hn7, -, -, -, htl⟩ := ip_shape hm
      rcases hnext with ⟨ho, hs⟩ | ⟨c₀, o₂, s₂, h1, h2⟩ |
        ⟨o₂, w, rest, h1, h2, h3, h4⟩
      · exact freeFrom_head hfree
          (matchSem_transfer_b hm rfl heq.symm hle (by rw [ho, hs]))
      · exact freeFrom_head hfree
          (matchSem_transfer_b hm rfl heq.symm hle (by rw [h1, h2]; rfl))
      · rw [h1] at htl
        have h5 : wHead (("password: [REDACTED]".data) ++ o₂) = true := rfl
        rw [h5] at htl
        exact absurd htl (by decide)
    | cons c₀ uu' =>
      simp only [List.cons_append, List.cons.injEq] at huv
      obtain ⟨rfl, huv'⟩ := huv
      rw [threadPrev_cons] at hm
      exact ih (freeFrom_cons hfree) uu' v n huv' hm
  | rep prev s₀ w rest out₂ hmatch hwne hs₀ hsub ih =>
    intro hfree
    intro uu v n huv hm
    have hrest : s₀.drop w.length = rest := by
      rw [hs₀]
      exact List.drop_left w rest
    have hpwend : pwVal (rest.headD ' ') = false := by
      have := matchItems_pw_end _ _ _ hmatch
      rwa [hrest] at this
    have hfree₂ : FreeFrom ipPat (prevAfter prev s₀ w.length) rest := by
      have h0 : FreeFrom ipPat prev (w ++ rest) := by rwa [← hs₀]
      have h1 : FreeFrom ipPat (threadPrev prev w) rest := freeFrom_append h0
      have h2 : threadPrev prev w = prevAfter prev s₀ w.length := by
        have ht : s₀.take w.length = w := by
          rw [hs₀, List.take_append_of_le_length (Nat.le_refl _)]
          simp
        first
          | (simp only [prevAfter, threadPrev, ht]; rfl)
          | simp only [prevAfter, threadPrev, ht]
      rwa [h2] at h1
    rcases List.append_eq_append_iff.mp huv with ⟨e, he1, he2⟩ | ⟨e, he1, he2⟩
    · cases uu with
      | nil =>
        replace he1 : ("password: [REDACTED]".data) = e := by simpa using he1
        subst he1
        replace he2 : v = ("password: [REDACTED]".data) ++ out₂ := by simpa using he2
        subst he2
        obtain ⟨-, -, -, ⟨d, t, hvd, hd⟩, -, -⟩ := ip_shape hm
        have h0 : ('p' :: (("assword: [REDACTED]".data : List Char) ++ out₂)) =
            d :: t := hvd
        injection h0 with h1 h2
        rw [← h1] at hd
        exact absurd hd (by decide)
      | cons c₀ uu' =>
        cases e with
        | nil =>
          replace he2 : v = out₂ := by simpa using he2
          subst he2
          exact after_pw_node hsub hpwend hm
        | cons ec etl =>
          have ht1 : 1 ≤ (c₀ :: uu').length := by simp
          have ht2 : (c₀ :: uu').length < ("password: [REDACTED]".data).length := by
            rw [he1]
            simp only [List.length_append, List.length_cons]
            omega
          have hdrop : ("password: [REDACTED]".data).drop (c₀ :: uu').length =
              ec :: etl := by
            rw [he1, List.drop_append_of_le_length (Nat.le_refl _)]
            simp
          refine noSemInside uIp_resp ip_req (by rw [ip_sum]) (by decide)
            (c₀ :: uu').length out₂ (threadPrev prev (c₀ :: uu')) n ht1 ht2 ?_
          rw [hdrop, ← he2]
          exact hm
    · cases e with
      | nil =>
        replace he2 : out₂ = v := by simpa using he2
        subst he2
        exact after_pw_node hsub hpwend hm
      | cons ec etl =>
        subst he1
        have hth : threadPrev prev (("password: [REDACTED]".data) ++ (ec :: etl)) =
            threadPrev (prevAfter prev s₀ w.length) (ec :: etl) := by
          rw [threadPrev_append]
          exact threadPrev_ne_nil _ _ _ (by simp)
        rw [hth] at hm
        exact ih hfree₂ (ec :: etl) v n he2.symm hm

theorem ip_free9 (s : List Char) : FreeFrom ipPat none (sanitize9 s) :=
  ip_own_free (decomp_replaceAll (no_empty_match ip_pos) _)

theorem ip_freeAll (s : List Char) : FreeFrom ipPat none (sanitizeChars s) := by
  rw [sanitizeChars_eq9]
  exact ip_pres_pw (decomp_replaceAll (no_empty_match pw_pos) _) (ip_free9 s)




/-! ## Alignment up to the first replacement, unconditionally -/

/-- Every output position either lies in a region that is a verbatim copy
of the input, or is preceded by a replacement within the inspected region;
in the second case the replaced match and the remaining decomposition are
exposed. -/
theorem decomp_align2 {pat : List RItem} {repl : List Char} :
    ∀ {prev : Option Char} {s out : List Char}, Decomp pat repl prev s out →
      ∀ n, n ≤ out.length →
        (out.take n = s.take n ∧ n ≤ s.length ∧
          ((out.drop n = [] ∧ s.drop n = []) ∨
           (∃ c₀ o₂ s₂, out.drop n = c₀ :: o₂ ∧ s.drop n = c₀ :: s₂) ∨
           (∃ o₂ w rest, out.drop n = repl ++ o₂ ∧ s.drop n = w ++ rest ∧ w ≠ [] ∧
             matchItems pat (threadPrev prev (s.take n)) (s.drop n) =
               some w.length))) ∨
        (∃ b o₂ w rest, b < n ∧ out.take b = s.take b ∧ b ≤ s.length ∧
          out.drop b = repl ++ o₂ ∧ s.drop b = w ++ rest ∧ w ≠ [] ∧
          matchItems pat (threadPrev prev (s.take b)) (s.drop b) = some w.length ∧
          Decomp pat repl (prevAfter (threadPrev prev (s.take b)) (s.drop b)
            w.length) rest o₂) := by
  intro prev s out hd
  induction hd with
  | done prev hnone =>
    intro n hn
    simp only [List.length_nil, Nat.le_zero] at hn
    subst hn
    exact Or.inl ⟨rfl, Nat.le_refl _, Or.inl ⟨rfl, rfl⟩⟩
  | keep prev c s' out' hnone hsub ih =>
    intro n hn
    cases n with
    | zero =>
      exact Or.inl ⟨rfl, Nat.zero_le _, Or.inr (Or.inl ⟨c, out', s', rfl, rfl⟩)⟩
    | succ m =>
      have hn' : m ≤ out'.length := by
        simp only [List.length_cons] at hn
        omega
      have hthread : ∀ j, threadPrev prev ((c :: s').take (j + 1)) =
          threadPrev (some c) (s'.take j) := by
        intro j
        rw [List.take_succ_cons, threadPrev_cons]
      rcases ih m hn' with ⟨heq, hle, hnext⟩ |
        ⟨b, o₂, w, rest, hbn, hbeq, hble, hrepl, hw, hwne, hnodem, hsubd⟩
      · refine Or.inl ⟨by simp only [List.take_succ_cons, heq],
          by simp only [List.length_cons]; omega, ?_⟩
        rcases hnext with ⟨h1, h2⟩ | ⟨c₀, o₂, s₂, h1, h2⟩ |
          ⟨o₂, w, rest, h1, h2, h3, h4⟩
        · exact Or.inl ⟨by simpa using h1, by simpa using h2⟩
        · exact Or.inr (Or.inl ⟨c₀, o₂, s₂, by simpa using h1, by simpa using h2⟩)
        · refine Or.inr (Or.inr ⟨o₂, w, rest, by simpa using h1,
            by simpa using h2, h3, ?_⟩)
          rw [hthread m]
          simpa using h4
      · refine Or.inr ⟨b + 1, o₂, w, rest, by omega,
          by simp only [List.take_succ_cons, hbeq],
          by simp only [List.length_cons]; omega,
          by simpa using hrepl, by simpa using hw, hwne, ?_, ?_⟩
        · rw [hthread b]
          simpa using hnodem
        · rw [hthread b]
          have hdropc : (c :: s').drop (b + 1) = s'.drop b := rfl
          rw [hdropc]
          exact hsubd
  | rep prev s₀ w rest out₂ hmatch hwne hs₀ hsub ih =>
    intro n hn
    cases n with
    | zero =>
      refine Or.inl ⟨rfl, Nat.zero_le _, Or.inr (Or.inr
        ⟨out₂, w, rest, rfl, by simpa using hs₀, hwne, by simpa using hmatch⟩)⟩
    | succ m =>
      refine Or.inr ⟨0, out₂, w, rest, by omega, rfl, Nat.zero_le _,
        by simp, by simpa using hs₀, hwne, by simpa using hmatch, ?_⟩
      have h0 : threadPrev prev (s₀.take 0) = prev := rfl
      have h1 : s₀.drop 0 = s₀ := rfl
      rw [h0, h1]
      exact hsub

/-! ## Region-equality helpers -/

theorem take_sub_eq {x y : List Char} {b k : Nat} (h : x.take b = y.take b)
    (hk : k ≤ b) : x.take k = y.take k := by
  have h1 : (x.take b).take k = (y.take b).take k := by rw [h]
  rwa [List.take_take, List.take_take, Nat.min_eq_left hk] at h1

theorem drop_take_sub_eq {x y : List Char} {b j k : Nat}
    (h : x.take b = y.take b) (hk : j + k ≤ b) :
    (x.drop j).take k = (y.drop j).take k := by
  have h2 : (x.take b).drop j = (y.take b).drop j := by rw [h]
  rw [List.drop_take, List.drop_take] at h2
  exact take_sub_eq h2 (by omega)

/-! ## Constructing a password match -/

theorem litCISeq_sem_intro :
    ∀ (L : List Char) {v : List Char} {restI : List RItem} {m : Nat},
      List.Forall₂ (fun bc wc => ciLetter bc wc = true) L (v.take L.length) →
      L.length ≤ v.length →
      (∀ pq : Option Char, MatchSem restI pq (v.drop L.length) m) →
      ∀ pv : Option Char, MatchSem (L.map litCI ++ restI) pv v (L.length + m) := by
  intro L
  induction L with
  | nil =>
    intro v restI m _ _ hrest pv
    simpa using hrest pv
  | cons b L' ih =>
    intro v restI m hfa hlen hrest pv
    cases v with
    | nil =>
      simp only [List.length_cons, List.length_nil, Nat.le_zero] at hlen
      exact absurd hlen (by omega)
    | cons c t =>
      simp only [List.length_cons, List.take_succ_cons] at hfa
      cases hfa with
      | cons hbc htail =>
        have hrest' : ∀ pq : Option Char, MatchSem restI pq (t.drop L'.length) m :=
          fun pq => hrest pq
        have hlen' : L'.length ≤ t.length := by
          simp only [List.length_cons] at hlen
          omega
        have hin := @litCI_sem_intro b _ pv c t _ hbc (ih htail hlen' hrest' (some c))
        simp only [List.map_cons, List.cons_append, List.length_cons]
        have hcast : L'.length + 1 + m = 1 + (L'.length + m) := by omega
        rw [hcast]
        exact hin

theorem pw_form : passwordPat = ("password".data).map litCI ++
    [RItem.cls keySep 0 none, RItem.cls pwVal 1 none] := rfl

theorem pw_sem_intro (pv : Option Char) {v : List Char} {kk vv : Nat}
    (hfa : List.Forall₂ (fun bc wc => ciLetter bc wc = true)
      ("password".data) (v.take 8))
    (hks : ((v.drop 8).take kk).all keySep = true)
    (hvs : ((v.drop (8 + kk)).take vv).all pwVal = true)
    (hvv : 1 ≤ vv) (hlen : 8 + kk + vv ≤ v.length) :
    MatchSem passwordPat pv v (8 + kk + vv) := by
  have hrest : ∀ pq : Option Char,
      MatchSem [RItem.cls keySep 0 none, RItem.cls pwVal 1 none] pq
        (v.drop 8) (kk + vv) := by
    intro pq
    have hinner : MatchSem [RItem.cls pwVal 1 none]
        (prevAfter pq (v.drop 8) kk) ((v.drop 8).drop kk) (vv + 0) := by
      refine MatchSem.cls pwVal 1 none [] _ _ vv 0 hvv (by simp) ?_ ?_
        (MatchSem.nil _ _)
      · rw [List.length_drop, List.length_drop]
        omega
      · rw [← List.drop_add]
        exact hvs
    have h0 := MatchSem.cls keySep 0 none [RItem.cls pwVal 1 none] pq
      (v.drop 8) kk (vv + 0) (Nat.zero_le _) (by simp)
      (by rw [List.length_drop]; omega) hks hinner
    have hcast : kk + (vv + 0) = kk + vv := by omega
    rwa [hcast] at h0
  rw [pw_form]
  have h1 := litCISeq_sem_intro ("password".data) hfa
    (by rw [show ("password".data).length = 8 from rfl]; omega) hrest pv
  have hcast : ("password".data).length + (kk + vv) = 8 + kk + vv := by
    rw [show ("password".data).length = 8 from rfl]
    omega
  rwa [hcast] at h1

/-! ## A kept position of the password pass stays match-free in the output -/

theorem pw_keep_none {prev : Option Char} {c : Char} {s' out' : List Char}
    (hnone : matchItems passwordPat prev (c :: s') = none)
    (hsub : Decomp passwordPat ("password: [REDACTED]".data) (some c) s' out') :
    matchItems passwordPat prev (c :: out') = none := by
  rcases hopt : matchItems passwordPat prev (c :: out') with _ | n
  · rfl
  · exfalso
    have hm := matchItems_sound hopt
    have hnle : n ≤ (c :: out').length := matchSem_le_length hm
    rcases decomp_align2 (Decomp.keep prev c s' out' hnone hsub) n hnle with
      ⟨heq, hle, -⟩ | ⟨b, o₂, w, rest, hbn, hbeq, hble, hrepl, hw, hwne, hnodem, -⟩
    · obtain ⟨m, hsome⟩ := matchItems_complete (matchSem_take_eq hm pw_noWb heq hle)
      rw [hnone] at hsome
      exact absurd hsome (by simp)
    · have hb1 : 1 ≤ b := by
        rcases Nat.eq_zero_or_pos b with rfl | h
        · have h2 : matchItems passwordPat prev (c :: s') = some w.length := hnodem
          rw [hnone] at h2
          exact absurd h2 (by simp)
        · exact h
      obtain ⟨hn9, hfa, kk, vv, hnsum, hvv1, hks, hvs⟩ := pw_shape hm
      have hlenO : b ≤ (c :: out').length := by omega
      by_cases hb8 : b ≤ 7
      · -- the replacement head 'p' would have to be a middle letter of
        -- a case variant of "password"
        rw [show ("password".data) =
            ("password".data).take b ++ ("password".data).drop b from
          (List.take_append_drop _ _).symm,
          show (c :: out').take 8 =
            ((c :: out').take 8).take b ++ ((c :: out').take 8).drop b from
          (List.take_append_drop _ _).symm] at hfa
        obtain ⟨-, hdrops⟩ := forall2_split hfa
          (by rw [List.length_take, List.length_take, List.length_take,
                show ("password".data).length = 8 from rfl]
              have h8 : 8 ≤ (c :: out').length := by omega
              omega)
        have hdb : ((c :: out').take 8).drop b =
            (("password: [REDACTED]".data).take (8 - b)) := by
          rw [List.drop_take, hrepl, List.take_append_of_le_length
            (by rw [show ("password: [REDACTED]".data).length = 20 from rfl]; omega)]
        rw [hdb] at hdrops
        interval_cases b <;>
          cases hdrops with
          | cons h1 h2 => exact absurd h1 (by decide)
      push_neg at hb8
      by_cases hbk : b < 8 + kk
      · -- the replacement head 'p' would have to be a key separator
        have hp : ('p' : Char) ∈ ((c :: out').drop 8).take kk := by
          have hsplit : (c :: out').drop 8 =
              ((c :: out').drop 8).take (b - 8) ++
                ('p' :: (("assword: [REDACTED]".data) ++ o₂)) := by
            conv_lhs => rw [← List.take_append_drop (b - 8) ((c :: out').drop 8)]
            congr 1
            rw [← List.drop_add, show 8 + (b - 8) = b by omega, hrepl]
            rfl
          rw [hsplit]
          refine mem_take_middle ?_
          rw [List.length_take, List.length_drop]
          omega
        have := List.all_eq_true.mp hks _ hp
        exact absurd this (by decide)
      push_neg at hbk
      -- the replaced match begins inside the password-value run: the
      -- input then admits a match at the kept head position
      have hnodesem := matchItems_sound hnodem
      obtain ⟨hw9, hfaW, -⟩ := pw_shape hnodesem
      obtain ⟨w₀, w', rfl⟩ : ∃ w₀ w', w = w₀ :: w' := by
        cases w with
        | nil => simp at hw9
        | cons w₀ w' => exact ⟨w₀, w', rfl⟩
      have hciw : ciLetter 'p' w₀ = true := by
        rw [hw, List.cons_append] at hfaW
        rw [show ("password".data) = 'p' :: ("assword".data) from rfl] at hfaW
        rw [List.take_succ_cons] at hfaW
        cases hfaW with
        | cons h1 h2 => exact h1
      have hpww : pwVal w₀ = true := by
        simp only [ciLetter, Bool.or_eq_true, decide_eq_true_eq] at hciw
        rcases hciw with rfl | h
        · decide
        · rw [h]; decide
      have hble2 : b + 9 ≤ (c :: s').length := by
        have h1 := congrArg List.length hw
        rw [List.length_drop, List.length_append] at h1
        have h2 : 9 ≤ (w₀ :: w').length := hw9
        omega
      have hfaS : List.Forall₂ (fun bc wc => ciLetter bc wc = true)
          ("password".data) ((c :: s').take 8) := by
        obtain ⟨hn9', hfa', -⟩ := pw_shape hm
        rwa [take_sub_eq hbeq (by omega : 8 ≤ b)] at hfa'
      have hksS : (((c :: s').drop 8).take kk).all keySep = true := by
        rwa [drop_take_sub_eq hbeq (by omega : 8 + kk ≤ b)] at hks
      have hvsO : (((c :: out').drop (8 + kk)).take (b - (8 + kk))).all pwVal = true :=
        all_take_of_all_take hvs (by omega : b - (8 + kk) ≤ vv)
      have hvsS : (((c :: s').drop (8 + kk)).take (b - (8 + kk))).all pwVal = true := by
        rwa [drop_take_sub_eq hbeq (by omega : 8 + kk + (b - (8 + kk)) ≤ b)] at hvsO
      have hdropsplit : (c :: s').drop (8 + kk) =
          ((c :: s').drop (8 + kk)).take (b - (8 + kk)) ++ (w₀ :: (w' ++ rest)) := by
        conv_lhs => rw [← List.take_append_drop (b - (8 + kk)) ((c :: s').drop (8 + kk))]
        congr 1
        rw [← List.drop_add, show 8 + kk + (b - (8 + kk)) = b by omega, hw]
        rfl
      have hMlen : (((c :: s').drop (8 + kk)).take (b - (8 + kk))).length =
          b - (8 + kk) := by
        rw [List.length_take, List.length_drop]
        omega
      have hrun2 : (((c :: s').drop (8 + kk)).take (b - (8 + kk) + 1)).all pwVal = true := by
        have e1 : ((c :: s').drop (8 + kk)).take (b - (8 + kk) + 1) =
            ((c :: s').drop (8 + kk)).take (b - (8 + kk)) ++ [w₀] := by
          conv_lhs => rw [hdropsplit]
          rw [show b - (8 + kk) + 1 =
            (((c :: s').drop (8 + kk)).take (b - (8 + kk))).length + 1 by rw [hMlen],
            List.take_append]
          rfl
        rw [e1, List.all_append]
        simp [hvsS, hpww]
      have hsm := pw_sem_intro prev hfaS hksS hrun2 (by omega) (by omega)
      obtain ⟨m, hsome⟩ := matchItems_complete hsm
      rw [hnone] at hsome
      exact absurd hsome (by simp)

/-! ## No password match can begin immediately after a replacement -/

theorem decomp_pw_out_head {pa : Option Char} {rest out₂ : List Char}
    (hsub : Decomp passwordPat ("password: [REDACTED]".data) pa rest out₂)
    (hrh : pwVal (rest.headD ' ') = false) :
    pwVal (out₂.headD ' ') = false := by
  cases hsub with
  | done _ => decide
  | keep prev c s' out' hnone hsub' => exact hrh
  | rep prev s₀ w rest₂ out₃ hmatch hwne hs₀ hsub' =>
    exfalso
    obtain ⟨hn9, hfa, -⟩ := pw_shape (matchItems_sound hmatch)
    have hlen : 9 ≤ rest.length := by
      have h1 := matchSem_le_length (matchItems_sound hmatch)
      omega
    cases hr : rest with
    | nil => rw [hr] at hlen; simp at hlen
    | cons r₀ rtail =>
      rw [hr] at hfa
      rw [show ("password".data) = 'p' :: ("assword".data) from rfl,
        List.take_succ_cons] at hfa
      have hci : ciLetter 'p' r₀ = true := by
        cases hfa with
        | cons h1 h2 => exact h1
      have hpv : pwVal r₀ = true := by
        simp only [ciLetter, Bool.or_eq_true, decide_eq_true_eq] at hci
        rcases hci with rfl | h
        · decide
        · rw [h]; decide
      rw [hr] at hrh
      have hrh' : pwVal r₀ = false := hrh
      rw [hpv] at hrh'
      exact absurd hrh' (by decide)




/-! ## Operational value of the matcher on a replacement -/

theorem charRun_head_fail {z : List Char} (hz : pwVal (z.headD ' ') = false) :
    charRun pwVal z = 0 := by
  cases z with
  | nil => rfl
  | cons a t =>
    have ha : pwVal a = false := hz
    simp [charRun, ha]

theorem matchItems_litCI_step {b c : Char} {rest : List RItem} {pv : Option Char}
    {t : List Char} {r : Nat} (hb : ciLetter b c = true)
    (hn : matchItems rest (some c) t = some r) :
    matchItems (litCI b :: rest) pv (c :: t) = some (1 + r) := by
  have hm1 : 1 ≤ charRun (ciLetter b) (c :: t) := by
    rw [charRun, if_pos hb]
    omega
  simp only [matchItems, litCI, Option.getD_some]
  rw [Nat.min_eq_left hm1]
  rw [if_neg (by omega)]
  rw [show (1 : Nat) = 0 + 1 from rfl, tryCount_succ_eq, if_neg (by omega)]
  have e1 : prevAfter pv (c :: t) (0 + 1) = some c := rfl
  have e2 : (c :: t).drop (0 + 1) = t := rfl
  rw [e1, e2, hn]

/-- The matcher accepts exactly the replacement text when what follows it
cannot extend the password-value run. -/
theorem pw_op_match {pv : Option Char} {z : List Char}
    (hz : pwVal (z.headD ' ') = false) :
    matchItems passwordPat pv (("password: [REDACTED]".data) ++ z) = some 20 := by
  have hrun0 : charRun pwVal z = 0 := charRun_head_fail hz
  have hall10 : ("[REDACTED]".data).all pwVal = true := by decide
  have hrun10 : charRun pwVal (("[REDACTED]".data) ++ z) = 10 := by
    rw [charRun_append_all hall10 z, hrun0]
    rfl
  have h10 : ∀ pq : Option Char, matchItems [RItem.cls pwVal 1 none] pq
      (("[REDACTED]".data) ++ z) = some 10 := by
    intro pq
    simp only [matchItems, Option.getD_none, Nat.min_self]
    rw [hrun10, if_neg (by omega)]
    rw [show (10 : Nat) = 9 + 1 from rfl, tryCount_succ_eq, if_neg (by omega)]
  have hksrunA : charRun keySep (("[REDACTED]".data) ++ z) = 0 := by
    rw [show ("[REDACTED]".data) ++ z = '[' :: (("REDACTED]".data) ++ z) from rfl]
    rw [charRun, if_neg (by decide)]
  have hksrun : charRun keySep ((": [REDACTED]".data) ++ z) = 2 := by
    rw [show (": [REDACTED]".data) ++ z =
      ':' :: ' ' :: (("[REDACTED]".data) ++ z) from rfl]
    rw [charRun, if_pos (by decide), charRun, if_pos (by decide), hksrunA]
  have hcls : ∀ (q : Char → Bool) (lo : Nat) (hi : Option Nat)
      (rest : List RItem) (pq : Option Char) (s : List Char),
      matchItems (RItem.cls q lo hi :: rest) pq s =
        if min (hi.getD (charRun q s)) (charRun q s) < lo then none
        else tryCount (matchItems rest) pq s lo
          (min (hi.getD (charRun q s)) (charRun q s)) :=
    fun _ _ _ _ _ _ => rfl
  have h12 : ∀ pq : Option Char, matchItems
      (RItem.cls keySep 0 none :: [RItem.cls pwVal 1 none]) pq
      ((": [REDACTED]".data) ++ z) = some 12 := by
    intro pq
    rw [hcls]
    simp only [Option.getD_none, Nat.min_self]
    rw [hksrun, if_neg (by omega)]
    rw [show (2 : Nat) = 1 + 1 from rfl, tryCount_succ_eq, if_neg (by omega)]
    have e2 : ((": [REDACTED]".data) ++ z).drop (1 + 1) = ("[REDACTED]".data) ++ z :=
      rfl
    rw [e2, h10]
  have h13 : ∀ pq : Option Char, matchItems (litCI 'd' ::
      RItem.cls keySep 0 none :: [RItem.cls pwVal 1 none]) pq
      (("d: [REDACTED]".data) ++ z) = some 13 :=
    fun pq => matchItems_litCI_step (by decide) (h12 (some 'd'))
  have h14 : ∀ pq : Option Char, matchItems (litCI 'r' :: litCI 'd' ::
      RItem.cls keySep 0 none :: [RItem.cls pwVal 1 none]) pq
      (("rd: [REDACTED]".data) ++ z) = some 14 :=
    fun pq => matchItems_litCI_step (by decide) (h13 (some 'r'))
  have h15 : ∀ pq : Option Char, matchItems (litCI 'o' :: litCI 'r' :: litCI 'd' ::
      RItem.cls keySep 0 none :: [RItem.cls pwVal 1 none]) pq
      (("ord: [REDACTED]".data) ++ z) = some 15 :=
    fun pq => matchItems_litCI_step (by decide) (h14 (some 'o'))
  have h16 : ∀ pq : Option Char, matchItems (litCI 'w' :: litCI 'o' :: litCI 'r' ::
      litCI 'd' :: RItem.cls keySep 0 none :: [RItem.cls pwVal 1 none]) pq
      (("word: [REDACTED]".data) ++ z) = some 16 :=
    fun pq => matchItems_litCI_step (by decide) (h15 (some 'w'))
  have h17 : ∀ pq : Option Char, matchItems (litCI 's' :: litCI 'w' :: litCI 'o' ::
      litCI 'r' :: litCI 'd' :: RItem.cls keySep 0 none ::
      [RItem.cls pwVal 1 none]) pq
      (("sword: [REDACTED]".data) ++ z) = some 17 :=
    fun pq => matchItems_litCI_step (by decide) (h16 (some 's'))
  have h18 : ∀ pq : Option Char, matchItems (litCI 's' :: litCI 's' :: litCI 'w' ::
      litCI 'o' :: litCI 'r' :: litCI 'd' :: RItem.cls keySep 0 none ::
      [RItem.cls pwVal 1 none]) pq
      (("ssword: [REDACTED]".data) ++ z) = some 18 :=
    fun pq => matchItems_litCI_step (by decide) (h17 (some 's'))
  have h19 : ∀ pq : Option Char, matchItems (litCI 'a' :: litCI 's' :: litCI 's' ::
      litCI 'w' :: litCI 'o' :: litCI 'r' :: litCI 'd' ::
      RItem.cls keySep 0 none :: [RItem.cls pwVal 1 none]) pq
      (("assword: [REDACTED]".data) ++ z) = some 19 :=
    fun pq => matchItems_litCI_step (by decide) (h18 (some 'a'))
  exact matchItems_litCI_step (by decide) (h19 (some 'p'))

/-! ## The password scan reproduces its own output -/

theorem decomp_pw_scan_fix : ∀ {prev : Option Char} {s out : List Char},
    Decomp passwordPat ("password: [REDACTED]".data) prev s out →
    ∀ fuel, out.length ≤ fuel →
      scanAux passwordPat ("password: [REDACTED]".data) fuel prev out = out := by
  intro prev s out hd
  induction hd with
  | done prev hnone =>
    intro fuel _
    cases fuel with
    | zero => simp only [scanAux, hnone]
    | succ f => simp only [scanAux, hnone]
  | keep prev c s' out' hnone hsub ih =>
    intro fuel hfl
    cases fuel with
    | zero =>
      simp only [List.length_cons, Nat.le_zero] at hfl
      exact absurd hfl (by omega)
    | succ fuel' =>
      have hkn := pw_keep_none hnone hsub
      simp only [scanAux]
      rw [hkn]
      have hfl' : out'.length ≤ fuel' := by
        simp only [List.length_cons] at hfl
        omega
      show c :: scanAux passwordPat ("password: [REDACTED]".data) fuel'
        (some c) out' = c :: out'
      rw [ih fuel' hfl']
  | rep prev s₀ w rest out₂ hmatch hwne hs₀ hsub ih =>
    intro fuel hfl
    have hz : pwVal (out₂.headD ' ') = false := by
      apply decomp_pw_out_head hsub
      have h1 := matchItems_pw_end _ _ _ hmatch
      have h2 : s₀.drop w.length = rest := by
        rw [hs₀]
        exact List.drop_left w rest
      rwa [h2] at h1
    have hsome : matchItems passwordPat prev
        (("password: [REDACTED]".data) ++ out₂) = some (19 + 1) := pw_op_match hz
    cases fuel with
    | zero =>
      exfalso
      rw [List.length_append,
        show ("password: [REDACTED]".data).length = 20 from rfl] at hfl
      omega
    | succ fuel' =>
      have hshape : ("password: [REDACTED]".data) ++ out₂ =
          'p' :: (("assword: [REDACTED]".data) ++ out₂) := rfl
      rw [hshape] at hsome ⊢
      simp only [scanAux]
      rw [hsome]
      have hfl' : out₂.length ≤ fuel' := by
        rw [hshape, List.length_cons, List.length_append,
          show ("assword: [REDACTED]".data).length = 19 from rfl] at hfl
        omega
      show ("password: [REDACTED]".data) ++ scanAux passwordPat
          ("password: [REDACTED]".data) fuel'
          (some ']') out₂ = 'p' :: (("assword: [REDACTED]".data) ++ out₂)
      rw [scanAux_prev_irrel pw_noWb fuel' (some ']')
        (prevAfter prev s₀ w.length) out₂]
      rw [ih fuel' hfl']
      exact hshape

/-- The deterministic password pass is a fixpoint of itself. -/
theorem F10_fix (s : List Char) :
    replaceAll passwordPat ("password: [REDACTED]".data)
      (replaceAll passwordPat ("password: [REDACTED]".data) s) =
    replaceAll passwordPat ("password: [REDACTED]".data) s :=
  decomp_pw_scan_fix (decomp_replaceAll (no_empty_match pw_pos) s) _ (Nat.le_refl _)

/-! ## Idempotence of the whole deterministic pass -/

theorem sanitizeChars_idem (s : List Char) :
    sanitizeChars (sanitizeChars s) = sanitizeChars s := by
  have h1 : replaceAll emailPat ("[EMAIL]".data) (sanitizeChars s) =
      sanitizeChars s := replaceAll_id_of_freeFrom (email_freeAll s)
  have h2 : replaceAll phonePat ("[PHONE]".data) (sanitizeChars s) =
      sanitizeChars s := replaceAll_id_of_freeFrom (phone_freeAll s)
  have h3 : replaceAll ssnPat ("[SSN]".data) (sanitizeChars s) =
      sanitizeChars s := replaceAll_id_of_freeFrom (ssn_freeAll s)
  have h4 : replaceAll ccPat ("[CREDIT_CARD]".data) (sanitizeChars s) =
      sanitizeChars s := replaceAll_id_of_freeFrom (cc_freeAll s)
  have h5 : replaceAll skLivePat ("[API_KEY]".data) (sanitizeChars s) =
      sanitizeChars s := replaceAll_id_of_freeFrom (skLive_freeAll s)
  have h6 : replaceAll skTestPat ("[API_KEY]".data) (sanitizeChars s) =
      sanitizeChars s := replaceAll_id_of_freeFrom (skTest_freeAll s)
  have h7 : replaceAll apiKeyPat ("[API_KEY]".data) (sanitizeChars s) =
      sanitizeChars s := replaceAll_id_of_freeFrom (api_freeAll s)
  have h8 : replaceAll jwtPat ("[JWT]".data) (sanitizeChars s) =
      sanitizeChars s := replaceAll_id_of_freeFrom (jwt_freeAll s)
  have h9 : replaceAll ipPat ("[IP_ADDRESS]".data) (sanitizeChars s) =
      sanitizeChars s := replaceAll_id_of_freeFrom (ip_freeAll s)
  have hs9 : sanitize9 (sanitizeChars s) = sanitizeChars s := by
    unfold sanitize9
    rw [h1, h2, h3, h4, h5, h6, h7, h8, h9]
  calc sanitizeChars (sanitizeChars s)
      = replaceAll passwordPat ("password: [REDACTED]".data)
          (sanitize9 (sanitizeChars s)) := sanitizeChars_eq9 _
    _ = replaceAll passwordPat ("password: [REDACTED]".data)
          (sanitizeChars s) := by rw [hs9]
    _ = replaceAll passwordPat ("password: [REDACTED]".data)
          (replaceAll passwordPat ("password: [REDACTED]".data)
            (sanitize9 s)) := by rw [sanitizeChars_eq9 s]
    _ = replaceAll passwordPat ("password: [REDACTED]".data) (sanitize9 s) :=
        F10_fix _
    _ = sanitizeChars s := (sanitizeChars_eq9 s).symm

theorem sanitizeText_nonempty (u : String) (hu : ¬ u = "") :
    sanitizeTextForEgress u = String.mk (sanitizeChars u.data) := by
  simp only [sanitizeTextForEgress, if_neg hu]

theorem sanitizeText_idem (t : String) :
    sanitizeTextForEgress (sanitizeTextForEgress t) = sanitizeTextForEgress t := by
  by_cases h0 : t = ""
  · rw [h0]
    rfl
  · rw [sanitizeText_nonempty t h0]
    by_cases h1 : String.mk (sanitizeChars t.data) = ""
    · rw [h1]
      rfl
    · rw [sanitizeText_nonempty _ h1]
      have hdata : ∀ l : List Char, (String.mk l).data = l := fun _ => rfl
      rw [hdata, sanitizeChars_idem]

/-- C2: the deterministic pattern-based sanitization pass is idempotent —
for every string `x`, applying `sanitizeTextForEgress` a second time does
not alter its output: `sanitizeTextForEgress (sanitizeTextForEgress x) =
sanitizeTextForEgress x`. -/
theorem C2_sanitize_idempotent (x : String) :
    sanitizeTextForEgress (sanitizeTextForEgress x) = sanitizeTextForEgress x :=
  sanitizeText_idem x


end RfcAudit
